import Mathlib

/-!
# Expression evaluator (`Expression-Eval/expression-eval.cpp`)

A shallow embedding of the recursive-descent parser and of the tree evaluator.

* `double` is an abstract carrier `V` with its operations collected in `Arith V`;
  every general theorem holds for any such carrier, hence for IEEE binary64.
  `fracArith` is a concrete carrier (exact rational arithmetic) used to run examples.
* `std::istringstream` is `IStream`: the get area split at the read position, and the
  three state bits.  `operator>>`, `putback` and the numeric scanner follow the
  GNU libstdc++ implementation in the "C" locale.
* A local variable that C++ leaves uninitialised (`char token;`, `double value;`)
  starts with the content recorded in `Indet`; theorems quantify over it.
* The parser is recursive with no a-priori bound, so every procedure takes a fuel
  argument; `none` means that the fuel ran out.
-/

namespace ExprEval

/-! ## Characters -/

/-- The C-locale `std::isdigit`. -/
def isdigit (c : Char) : Bool := decide (48 ≤ c.toNat) && decide (c.toNat ≤ 57)

/-- The C-locale `std::isspace`: space, and the control characters 9 to 13. -/
def isspace (c : Char) : Bool :=
  decide (c.toNat = 32) || (decide (9 ≤ c.toNat) && decide (c.toNat ≤ 13))

/-! ## The numeric carrier -/

/-- The operations the program applies to `double` values. -/
structure Arith (V : Type) where
  /-- The result of `strtod` on a decimal numeral: sign, decimal mantissa, power of ten. -/
  strtod : Bool → Nat → Int → V
  /-- The value `numeric_limits<double>::infinity()`. -/
  infinity : V
  /-- The value `numeric_limits<double>::max()`. -/
  max : V
  /-- The constant `0` converted to `double`. -/
  zero : V
  /-- The comparison `==`. -/
  eq : V → V → Bool
  add : V → V → V
  sub : V → V → V
  mul : V → V → V
  div : V → V → V
  /-- The function `std::pow`. -/
  pow : V → V → V
  /-- Unary minus. -/
  neg : V → V
  /-- The text `operator<<` writes for a value. -/
  fmt : V → List Char

/-! ## The input stream -/

/-- A `std::istringstream`: `back` holds the characters already read (latest first),
`rest` the characters not yet read. -/
structure IStream where
  back : List Char
  rest : List Char
  eofbit : Bool
  failbit : Bool
  badbit : Bool
deriving DecidableEq, Repr

/-- A stream freshly constructed on a text. -/
def IStream.mk0 (text : List Char) : IStream := ⟨[], text, false, false, false⟩

/-- The member `good()`. -/
def IStream.good (s : IStream) : Bool := !s.eofbit && !s.failbit && !s.badbit

/-- The conversion to `bool`, that is `!fail()`. -/
def IStream.toBool (s : IStream) : Bool := !s.failbit && !s.badbit

/-- Whitespace skipping done by the sentry: moves leading spaces of `rest` to `back`. -/
def skipws : List Char → List Char → List Char × List Char
  | back, [] => (back, [])
  | back, c :: cs => if isspace c then skipws (c :: back) cs else (back, c :: cs)

/-- The constructor of `istream::sentry`; the flag is `noskipws`.  Returns the stream
and whether the sentry is ok. -/
def sentry (s : IStream) (noskip : Bool) : IStream × Bool :=
  if s.good then
    if noskip then (s, true)
    else
      match skipws s.back s.rest with
      | (b, []) => ({ s with back := b, rest := [], eofbit := true, failbit := true }, false)
      | (b, c :: cs) => ({ s with back := b, rest := c :: cs }, true)
  else ({ s with failbit := true }, false)

/-- The extraction `iss >> token` for a `char`; `token` is the content of the variable
before the call, which is kept when nothing is extracted. -/
def getChar (s : IStream) (token : Char) : IStream × Char :=
  match sentry s false with
  | (s1, true) =>
    match s1.rest with
    | c :: cs => ({ s1 with back := c :: s1.back, rest := cs }, c)
    | [] => ({ s1 with eofbit := true, failbit := true }, token)
  | (s1, false) => (s1, token)

/-- The member `putback(c)`: clears `eofbit`, then steps the read position back when the
stream is good and the previous character is `c` (an input-only buffer cannot store a
different one). -/
def putback (s : IStream) (c : Char) : IStream :=
  let s0 := { s with eofbit := false }
  match sentry s0 true with
  | (s1, true) =>
    match s1.back with
    | p :: b => if p = c then { s1 with back := b, rest := c :: s1.rest }
                else { s1 with badbit := true }
    | [] => { s1 with badbit := true }
  | (s1, false) => s1

/-! ## The numeric scanner (`num_get::do_get` for `double`) -/

/-- State of `_M_extract_float`: the collected text, the characters consumed
(latest first) and the characters left. -/
structure Scan where
  xtrc : List Char
  taken : List Char
  rest : List Char
deriving DecidableEq, Repr

/-- The main loop of `_M_extract_float`: digits, one decimal point, one exponent
marker with an optional sign. -/
def floatLoop (found_mantissa found_dec found_sci : Bool) (xtrc taken : List Char) :
    List Char → Scan
  | [] => ⟨xtrc, taken, []⟩
  | c :: cs =>
    if isdigit c then
      floatLoop true found_dec found_sci (xtrc ++ [c]) (c :: taken) cs
    else if c = '.' && !found_dec && !found_sci then
      floatLoop found_mantissa true found_sci (xtrc ++ ['.']) (c :: taken) cs
    else if (c = 'e' || c = 'E') && !found_sci && found_mantissa then
      match cs with
      | [] => ⟨xtrc ++ ['e'], c :: taken, []⟩
      | d :: ds =>
        if d = '+' || d = '-' then
          floatLoop found_mantissa found_dec true (xtrc ++ ['e', d]) (d :: c :: taken) ds
        else
          floatLoop found_mantissa found_dec true (xtrc ++ ['e']) (c :: taken) (d :: ds)
    else ⟨xtrc, taken, c :: cs⟩

/-- The leading-zeros loop of `_M_extract_float`: the first zero is recorded, the
following ones are consumed without being recorded. -/
def floatZeros (found_mantissa : Bool) (xtrc taken : List Char) : List Char → Scan
  | [] => ⟨xtrc, taken, []⟩
  | c :: cs =>
    if c = '0' then
      floatZeros true (if found_mantissa then xtrc else xtrc ++ ['0']) (c :: taken) cs
    else floatLoop found_mantissa false false xtrc taken (c :: cs)

/-- The function `_M_extract_float`: optional sign, leading zeros, main loop. -/
def extractFloat : List Char → Scan
  | [] => ⟨[], [], []⟩
  | c :: cs =>
    if c = '+' || c = '-' then floatZeros false [c] [c] cs
    else floatZeros false [] [] (c :: cs)

/-- Value of a digit string read in base ten. -/
def digitsVal (ds : List Char) : Nat :=
  ds.foldl (fun acc c => 10 * acc + (c.toNat - 48)) 0

/-- The decimal numeral `strtod` reads from a collected text, as sign, mantissa and
power of ten; `none` when `strtod` does not consume the whole text. -/
def strtodText (x : List Char) : Option (Bool × Nat × Int) :=
  let signed : Bool × List Char :=
    match x with
    | c :: t => if c = '-' then (true, t) else if c = '+' then (false, t) else (false, x)
    | [] => (false, x)
  let ip := signed.2.span isdigit
  let fp : List Char × List Char :=
    match ip.2 with
    | c :: t => if c = '.' then t.span isdigit else ([], ip.2)
    | [] => ([], ip.2)
  if ip.1.isEmpty && fp.1.isEmpty then none
  else
    let m := digitsVal (ip.1 ++ fp.1)
    match fp.2 with
    | [] => some (signed.1, m, - (fp.1.length : Int))
    | c :: t =>
      if c = 'e' then
        let esigned : Bool × List Char :=
          match t with
          | d :: u => if d = '-' then (true, u) else if d = '+' then (false, u) else (false, t)
          | [] => (false, t)
        let ed := esigned.2.span isdigit
        if ed.1.isEmpty || !ed.2.isEmpty then none
        else
          let k : Int := digitsVal ed.1
          some (signed.1, m, (if esigned.1 then -k else k) - (fp.1.length : Int))
      else none

/-- The function `__convert_to_v` for `double`: the value stored and whether `failbit`
is raised.  An unusable text stores zero; an overflow stores the largest finite value. -/
def convert_to_v {V : Type} (A : Arith V) (x : List Char) : V × Bool :=
  match strtodText x with
  | none => (A.zero, true)
  | some (sign, m, e) =>
    let v := A.strtod sign m e
    if A.eq v A.infinity then (A.max, true)
    else if A.eq v (A.neg A.infinity) then (A.neg A.max, true)
    else (v, false)

/-- The extraction `iss >> value` for a `double`; `value` is the content of the variable
before the call, which is kept when the sentry fails. -/
def getDouble {V : Type} (A : Arith V) (s : IStream) (value : V) : IStream × V :=
  match sentry s false with
  | (s1, true) =>
    let sc := extractFloat s1.rest
    let cv := convert_to_v A sc.xtrc
    ({ s1 with back := sc.taken ++ s1.back, rest := sc.rest,
               eofbit := s1.eofbit || sc.rest.isEmpty,
               failbit := s1.failbit || cv.2 }, cv.1)
  | (s1, false) => (s1, value)

/-! ## The expression tree -/

/-- The class hierarchy `Node`: an `OperandNode` holds a value, an `OperatorNode` holds
the operator character, a nullable left child and a right child. -/
inductive Node (V : Type) where
  | operand (value : V)
  | operator (op : Char) (left : Option (Node V)) (right : Node V)

/-- The method `evaluate`.  An exception is an `Except.error` carrying its message. -/
def evaluate {V : Type} (A : Arith V) : Node V → Except String V
  | .operand value => .ok value
  | .operator op none right =>
    match evaluate A right with
    | .error e => .error e
    | .ok rightVal =>
      if op = '+' then .ok (A.add A.zero rightVal)
      else if op = '-' then .ok (A.sub A.zero rightVal)
      else if op = '*' then .ok (A.mul A.zero rightVal)
      else if op = '/' then
        if A.eq rightVal A.zero then .error "Division by zero"
        else .ok (A.div A.zero rightVal)
      else if op = '^' then .ok (A.pow A.zero rightVal)
      else if op = 'u' then .ok (A.neg rightVal)
      else if op = 'p' then .ok rightVal
      else .error "Unknown operator"
  | .operator op (some left) right =>
    match evaluate A left with
    | .error e => .error e
    | .ok leftVal =>
      match evaluate A right with
      | .error e => .error e
      | .ok rightVal =>
        if op = '+' then .ok (A.add leftVal rightVal)
        else if op = '-' then .ok (A.sub leftVal rightVal)
        else if op = '*' then .ok (A.mul leftVal rightVal)
        else if op = '/' then
          if A.eq rightVal A.zero then .error "Division by zero"
          else .ok (A.div leftVal rightVal)
        else if op = '^' then .ok (A.pow leftVal rightVal)
        else if op = 'u' then .ok (A.neg rightVal)
        else if op = 'p' then .ok rightVal
        else .error "Unknown operator"

/-! ## The parser -/

/-- The content of the local variables that the parser declares without initialising:
`char token` and `double value` in `parsePrimary`, `char token` in the three loops. -/
structure Indet (V : Type) where
  token : Char
  value : V

/-- Result of a parsing procedure: the tree and the stream it leaves, or the message of
the `std::runtime_error` thrown. -/
abbrev Parsed (V : Type) := Except String (Node V × IStream)

mutual

/-- The procedure `parsePrimary`. -/
def parsePrimary {V : Type} (A : Arith V) (u : Indet V) : Nat → IStream → Option (Parsed V)
  | 0, _ => none
  | fuel + 1, iss =>
    match getChar iss u.token with
    | (s1, token) =>
      if token = '-' then
        match parsePrimary A u fuel s1 with
        | some (.ok (right, s2)) => some (.ok (.operator 'u' none right, s2))
        | other => other
      else if token = '+' then
        match parsePrimary A u fuel s1 with
        | some (.ok (right, s2)) => some (.ok (.operator 'p' none right, s2))
        | other => other
      else if isdigit token || token = '.' then
        match getDouble A (putback s1 token) u.value with
        | (s3, value) => some (.ok (.operand value, s3))
      else if token = '(' then
        match parseExpression A u fuel s1 with
        | some (.ok (node, s2)) =>
          match getChar s2 token with
          | (s3, token1) =>
            if !s3.toBool || token1 ≠ ')' then some (.error "Mismatched parentheses")
            else some (.ok (node, s3))
        | other => other
      else some (.error "Invalid expression")

/-- The `while` loop of `parseExponent` together with the statements after it;
`token` is the current content of the loop variable. -/
def exponentLoop {V : Type} (A : Arith V) (u : Indet V) :
    Nat → Node V → Char → IStream → Option (Parsed V)
  | 0, _, _, _ => none
  | fuel + 1, left, token, iss =>
    match getChar iss token with
    | (s1, token1) =>
      if s1.toBool && token1 = '^' then
        match parsePrimary A u fuel s1 with
        | some (.ok (right, s2)) =>
          exponentLoop A u fuel (.operator token1 (some left) right) token1 s2
        | some (.error e) => some (.error e)
        | none => none
      else some (.ok (left, if s1.toBool then putback s1 token1 else s1))

/-- The procedure `parseExponent`. -/
def parseExponent {V : Type} (A : Arith V) (u : Indet V) : Nat → IStream → Option (Parsed V)
  | 0, _ => none
  | fuel + 1, iss =>
    match parsePrimary A u fuel iss with
    | some (.ok (left, s1)) => exponentLoop A u fuel left u.token s1
    | other => other

/-- The `while` loop of `parseTerm` together with the statements after it. -/
def termLoop {V : Type} (A : Arith V) (u : Indet V) :
    Nat → Node V → Char → IStream → Option (Parsed V)
  | 0, _, _, _ => none
  | fuel + 1, left, token, iss =>
    match getChar iss token with
    | (s1, token1) =>
      if s1.toBool && (token1 = '*' || token1 = '/') then
        match parseExponent A u fuel s1 with
        | some (.ok (right, s2)) =>
          termLoop A u fuel (.operator token1 (some left) right) token1 s2
        | some (.error e) => some (.error e)
        | none => none
      else some (.ok (left, if s1.toBool then putback s1 token1 else s1))

/-- The procedure `parseTerm`. -/
def parseTerm {V : Type} (A : Arith V) (u : Indet V) : Nat → IStream → Option (Parsed V)
  | 0, _ => none
  | fuel + 1, iss =>
    match parseExponent A u fuel iss with
    | some (.ok (left, s1)) => termLoop A u fuel left u.token s1
    | other => other

/-- The `while` loop of `parseExpression` together with the statements after it. -/
def expressionLoop {V : Type} (A : Arith V) (u : Indet V) :
    Nat → Node V → Char → IStream → Option (Parsed V)
  | 0, _, _, _ => none
  | fuel + 1, left, token, iss =>
    match getChar iss token with
    | (s1, token1) =>
      if s1.toBool && (token1 = '+' || token1 = '-') then
        match parseTerm A u fuel s1 with
        | some (.ok (right, s2)) =>
          expressionLoop A u fuel (.operator token1 (some left) right) token1 s2
        | some (.error e) => some (.error e)
        | none => none
      else some (.ok (left, if s1.toBool then putback s1 token1 else s1))

/-- The procedure `parseExpression`. -/
def parseExpression {V : Type} (A : Arith V) (u : Indet V) :
    Nat → IStream → Option (Parsed V)
  | 0, _ => none
  | fuel + 1, iss =>
    match parseTerm A u fuel iss with
    | some (.ok (left, s1)) => expressionLoop A u fuel left u.token s1
    | other => other

end


/-! ## Printing and the request loop -/

/-- The newline written by `std::endl`. -/
def endl : Char := Char.ofNat 10

/-- The method `print`: the text written to `std::cout`, for the indentation `tab_lvl`. -/
def print {V : Type} (A : Arith V) : Node V → List Char → List Char
  | .operand value, tab_lvl => tab_lvl ++ "Operand: ".toList ++ A.fmt value ++ [endl]
  | .operator op none right, tab_lvl =>
    tab_lvl ++ "Operator: ".toList ++ [op] ++ [endl]
      ++ tab_lvl ++ "Left:".toList ++ [endl]
      ++ (tab_lvl ++ "  (null)".toList) ++ [endl]
      ++ tab_lvl ++ "Right:".toList ++ [endl]
      ++ print A right (tab_lvl ++ "  ".toList)
  | .operator op (some left) right, tab_lvl =>
    tab_lvl ++ "Operator: ".toList ++ [op] ++ [endl]
      ++ tab_lvl ++ "Left:".toList ++ [endl]
      ++ print A left (tab_lvl ++ "  ".toList)
      ++ tab_lvl ++ "Right:".toList ++ [endl]
      ++ print A right (tab_lvl ++ "  ".toList)

/-- What one request writes to `std::cout` and to `std::cerr`. -/
structure Output where
  cout : List Char
  cerr : List Char
deriving DecidableEq, Repr

/-- The body of the loop of `main` once `expression` has been read: parse, print the
tree, then write the result line, an exception being reported on `std::cerr`.
In `std::cout << "Result: " << root->evaluate()` the label is written before
`evaluate` runs when the left operand of `<<` is sequenced first (`leftFirst`, the rule
since C++17) and is not written at all when `evaluate` throws first. -/
def request {V : Type} (A : Arith V) (u : Indet V) (leftFirst : Bool) (fuel : Nat)
    (expression : List Char) : Option Output :=
  match parseExpression A u fuel (IStream.mk0 expression) with
  | none => none
  | some (.error what) => some ⟨[], "Error: ".toList ++ what.toList ++ [endl]⟩
  | some (.ok (root, _)) =>
    match evaluate A root with
    | .ok result =>
      some ⟨print A root [] ++ "Result: ".toList ++ A.fmt result ++ [endl], []⟩
    | .error what =>
      some ⟨print A root [] ++ (if leftFirst then "Result: ".toList else []),
        "Error: ".toList ++ what.toList ++ [endl]⟩

/-- The tree `parseExpression` returns to `main` for a text, or the message thrown. -/
def parseText {V : Type} (A : Arith V) (u : Indet V) (fuel : Nat) (text : List Char) :
    Option (Except String (Node V)) :=
  match parseExpression A u fuel (IStream.mk0 text) with
  | none => none
  | some (.error what) => some (.error what)
  | some (.ok (root, _)) => some (.ok root)

/-! ## A concrete carrier: exact fractions -/

/-- A fraction `num / den` in lowest terms; `den = 0` only for the formal infinity. -/
structure Frac where
  num : Int
  den : Nat
deriving DecidableEq, Repr

/-- The fraction `n / d` in lowest terms. -/
def Frac.norm (n : Int) (d : Nat) : Frac :=
  if Nat.gcd n.natAbs d = 0 then ⟨0, 1⟩
  else ⟨n / (Nat.gcd n.natAbs d : Int), d / Nat.gcd n.natAbs d⟩

/-- The inverse of a fraction, zero for zero. -/
def Frac.inv (a : Frac) : Frac :=
  if a.num = 0 then ⟨0, 1⟩
  else if 0 < a.num then Frac.norm a.den a.num.natAbs
  else Frac.norm (-(a.den : Int)) a.num.natAbs

/-- A natural power of a fraction. -/
def Frac.powNat (a : Frac) : Nat → Frac
  | 0 => ⟨1, 1⟩
  | k + 1 => Frac.norm ((Frac.powNat a k).num * a.num) ((Frac.powNat a k).den * a.den)

/-- Exact rational arithmetic.  No operation returns the formal infinity `1/0`, so a
numeral never overflows and `max` is never stored; `pow` is defined for integer exponents
(zero otherwise), and `fmt` writes `num` or `num/den`. -/
def fracArith : Arith Frac where
  strtod sign m e :=
    if 0 ≤ e then Frac.norm ((if sign then -(m : Int) else (m : Int)) * 10 ^ e.toNat) 1
    else Frac.norm (if sign then -(m : Int) else (m : Int)) (10 ^ (-e).toNat)
  infinity := ⟨1, 0⟩
  max := ⟨0, 1⟩
  zero := ⟨0, 1⟩
  eq a b := decide (a = b)
  add a b := Frac.norm (a.num * b.den + b.num * a.den) (a.den * b.den)
  sub a b := Frac.norm (a.num * b.den - b.num * a.den) (a.den * b.den)
  mul a b := Frac.norm (a.num * b.num) (a.den * b.den)
  div a b := Frac.norm (a.num * (Frac.inv b).num) (a.den * (Frac.inv b).den)
  pow a b :=
    if b.den = 1 then
      (if 0 ≤ b.num then Frac.powNat a b.num.toNat else Frac.powNat (Frac.inv a) (-b.num).toNat)
    else ⟨0, 1⟩
  neg a := ⟨-a.num, a.den⟩
  fmt a := if a.den = 1 then (toString a.num).toList
           else (toString a.num).toList ++ '/' :: (toString a.den).toList

/-- Some content for the uninitialised variables. -/
def junk : Indet Frac := ⟨'?', ⟨0, 1⟩⟩


/-! ## A concrete carrier with the range of `double` -/

/-- The least magnitude that `strtod` rounds to infinity in binary64: `2^1024 - 2^970`. -/
def overflowBound : Nat := 2 ^ 1024 - 2 ^ 970

/-- The value `numeric_limits<double>::max()`: `(2^53 - 1) * 2^971`, that is
`2^1024 - 2^971`. -/
def maxDouble : Nat := (2 ^ 53 - 1) * 2 ^ 971

/-- Exact fractions with the range of `double`: a decimal numeral whose magnitude is at
least `overflowBound` converts to infinity, as `strtod` does, and
`max` is `maxDouble`.  Below the bound a numeral converts
exactly (rounding is not modelled), and the arithmetic operations are those of
`fracArith`. -/
def rangedArith : Arith Frac where
  strtod sign m e :=
    if (if 0 ≤ e then decide (overflowBound ≤ m * 10 ^ e.toNat)
        else decide (overflowBound * 10 ^ (-e).toNat ≤ m)) then
      (if sign then ⟨-1, 0⟩ else ⟨1, 0⟩)
    else fracArith.strtod sign m e
  infinity := ⟨1, 0⟩
  max := ⟨(maxDouble : Int), 1⟩
  zero := ⟨0, 1⟩
  eq a b := decide (a = b)
  add := fracArith.add
  sub := fracArith.sub
  mul := fracArith.mul
  div := fracArith.div
  pow := fracArith.pow
  neg := fracArith.neg
  fmt := fracArith.fmt

/-- A numeral too large for `double`: the digit 1 followed by 309 zeros. -/
def bigLiteral : List Char := '1' :: List.replicate 309 '0'

/-! ## The simpler program (`expression-eval.cpp`) -/

namespace Simple

/-- The class hierarchy `Node` of the simpler program: an `OperatorNode` is built by the
parser from two trees, and `evaluate` and `print` use both children unconditionally. -/
inductive Node (V : Type) where
  | operand (value : V)
  | operator (op : Char) (left right : Node V)
deriving DecidableEq, Repr

/-- The method `evaluate` of the simpler program. -/
def evaluate {V : Type} (A : Arith V) : Node V → Except String V
  | .operand value => .ok value
  | .operator op left right =>
    match evaluate A left with
    | .error e => .error e
    | .ok leftVal =>
      match evaluate A right with
      | .error e => .error e
      | .ok rightVal =>
        if op = '+' then .ok (A.add leftVal rightVal)
        else if op = '-' then .ok (A.sub leftVal rightVal)
        else if op = '*' then .ok (A.mul leftVal rightVal)
        else if op = '/' then
          if A.eq rightVal A.zero then .error "Division by zero"
          else .ok (A.div leftVal rightVal)
        else .error "Unknown operator"

/-- Result of a parsing procedure of the simpler program. -/
abbrev Parsed (V : Type) := Except String (Node V × IStream)

mutual

/-- The procedure `parsePrimary` of the simpler program: a sign starts a number. -/
def parsePrimary {V : Type} (A : Arith V) (u : Indet V) : Nat → IStream → Option (Parsed V)
  | 0, _ => none
  | fuel + 1, iss =>
    match getChar iss u.token with
    | (s1, token) =>
      if isdigit token || token = '.' || token = '-' || token = '+' then
        match getDouble A (putback s1 token) u.value with
        | (s3, value) => some (.ok (.operand value, s3))
      else if token = '(' then
        match parseExpression A u fuel s1 with
        | some (.ok (node, s2)) =>
          match getChar s2 token with
          | (s3, token1) =>
            if !s3.toBool || token1 ≠ ')' then some (.error "Mismatched parentheses")
            else some (.ok (node, s3))
        | other => other
      else some (.error "Invalid expression")

/-- The `while` loop of `parseTerm` together with the statements after it. -/
def termLoop {V : Type} (A : Arith V) (u : Indet V) :
    Nat → Node V → Char → IStream → Option (Parsed V)
  | 0, _, _, _ => none
  | fuel + 1, left, token, iss =>
    match getChar iss token with
    | (s1, token1) =>
      if s1.toBool && (token1 = '*' || token1 = '/') then
        match parsePrimary A u fuel s1 with
        | some (.ok (right, s2)) =>
          termLoop A u fuel (.operator token1 left right) token1 s2
        | some (.error e) => some (.error e)
        | none => none
      else some (.ok (left, if s1.toBool then putback s1 token1 else s1))

/-- The procedure `parseTerm` of the simpler program. -/
def parseTerm {V : Type} (A : Arith V) (u : Indet V) : Nat → IStream → Option (Parsed V)
  | 0, _ => none
  | fuel + 1, iss =>
    match parsePrimary A u fuel iss with
    | some (.ok (left, s1)) => termLoop A u fuel left u.token s1
    | other => other

/-- The `while` loop of `parseExpression` together with the statements after it. -/
def expressionLoop {V : Type} (A : Arith V) (u : Indet V) :
    Nat → Node V → Char → IStream → Option (Parsed V)
  | 0, _, _, _ => none
  | fuel + 1, left, token, iss =>
    match getChar iss token with
    | (s1, token1) =>
      if s1.toBool && (token1 = '+' || token1 = '-') then
        match parseTerm A u fuel s1 with
        | some (.ok (right, s2)) =>
          expressionLoop A u fuel (.operator token1 left right) token1 s2
        | some (.error e) => some (.error e)
        | none => none
      else some (.ok (left, if s1.toBool then putback s1 token1 else s1))

/-- The procedure `parseExpression` of the simpler program. -/
def parseExpression {V : Type} (A : Arith V) (u : Indet V) :
    Nat → IStream → Option (Parsed V)
  | 0, _ => none
  | fuel + 1, iss =>
    match parseTerm A u fuel iss with
    | some (.ok (left, s1)) => expressionLoop A u fuel left u.token s1
    | other => other

end

/-- The tree `parseExpression` of the simpler program returns to `main` for a text, or
the message thrown. -/
def parseText {V : Type} (A : Arith V) (u : Indet V) (fuel : Nat) (text : List Char) :
    Option (Except String (Node V)) :=
  match parseExpression A u fuel (IStream.mk0 text) with
  | none => none
  | some (.error what) => some (.error what)
  | some (.ok (root, _)) => some (.ok root)

/-- The tree of the complete program that has the same shape: every operator node of
the simpler program has both children. -/
def Node.embed {V : Type} : Node V → ExprEval.Node V
  | .operand value => .operand value
  | .operator op left right => .operator op (some left.embed) right.embed

end Simple

/-! ## Auxiliary definitions for the proofs -/

/-- A stream with no state bit set. -/
def IStream.clean (b r : List Char) : IStream := ⟨b, r, false, false, false⟩

/-- The stream left by a loop that reads one token and puts it back: leading spaces are
skipped, and the end of input raises `eofbit` and `failbit`. -/
def settle (b r : List Char) : IStream :=
  match skipws b r with
  | (b1, []) => ⟨b1, [], true, true, false⟩
  | (b1, c :: cs) => ⟨b1, c :: cs, false, false, false⟩

/-- The first character after leading spaces. -/
def nextTok : List Char → Option Char
  | [] => none
  | c :: cs => if isspace c then nextTok cs else some c

/-- No character that would extend a numeral comes first. -/
def numStop : List Char → Bool
  | [] => true
  | c :: _ => !isdigit c && !(c = '.') && !(c = 'e') && !(c = 'E')

/-- The text of the fractional part of a numeral: nothing, or a point and digits. -/
def fracText : Option (List Char) → List Char
  | none => []
  | some fp => '.' :: fp

/-- The digits of the fractional part of a numeral. -/
def fracDigits : Option (List Char) → List Char
  | none => []
  | some fp => fp

/-- Concrete syntax of an expression text.  A numeral is its integer digits and an
optional fractional part (a point and digits). -/
inductive Syn where
  | num (ip : List Char) (fp : Option (List Char))
  | paren (e : Syn)
  | neg (p : Syn)
  | pos (p : Syn)
  | bin (op : Char) (l r : Syn)
deriving DecidableEq, Repr

/-- The text of a piece of syntax, written without spaces. -/
def Syn.render : Syn → List Char
  | .num ip fp => ip ++ fracText fp
  | .paren e => '(' :: (e.render ++ [')'])
  | .neg p => '-' :: p.render
  | .pos p => '+' :: p.render
  | .bin op l r => l.render ++ op :: r.render

/-- The grammar rule that derives a piece of syntax: 3 for `primary`, 2 for `exponent`,
1 for `term`, 0 for `expression`. -/
def Syn.level : Syn → Nat
  | .bin op _ _ => if op = '^' then 2 else if op = '*' || op = '/' then 1 else 0
  | _ => 3

/-- Whether the text ends with a numeral. -/
def Syn.endsLit : Syn → Bool
  | .num _ _ => true
  | .paren _ => false
  | .neg p => p.endsLit
  | .pos p => p.endsLit
  | .bin _ _ r => r.endsLit

/-- The value of a numeral with integer digits `ip` and fractional digits `fp`. -/
def litValue {V : Type} (A : Arith V) (ip fp : List Char) : V :=
  A.strtod false (digitsVal (ip ++ fp)) (-(fp.length : Int))

/-- The conversion of a value does not overflow. -/
def inRange {V : Type} (A : Arith V) (v : V) : Bool :=
  !A.eq v A.infinity && !A.eq v (A.neg A.infinity)

/-- Well-formed syntax: every numeral has at least one digit and converts without
overflow, and every operand is derived by the grammar rule of its position. -/
def Syn.wf {V : Type} (A : Arith V) : Syn → Bool
  | .num ip fp =>
    ip.all isdigit && (fracDigits fp).all isdigit && !(ip ++ fracDigits fp).isEmpty
      && inRange A (litValue A ip (fracDigits fp))
  | .paren e => e.wf A
  | .neg p => p.wf A && decide (p.level = 3)
  | .pos p => p.wf A && decide (p.level = 3)
  | .bin op l r =>
    l.wf A && r.wf A &&
      (if op = '^' then decide (2 ≤ l.level) && decide (r.level = 3)
       else if op = '*' || op = '/' then decide (1 ≤ l.level) && decide (2 ≤ r.level)
       else if op = '+' || op = '-' then decide (1 ≤ r.level)
       else false)

/-- The tree the grammar assigns to a piece of syntax: parentheses leave no node, a
binary operator has both children, a sign has only the right child. -/
def Syn.tree {V : Type} (A : Arith V) : Syn → Node V
  | .num ip fp => .operand (litValue A ip (fracDigits fp))
  | .paren e => e.tree A
  | .neg p => .operator 'u' none (p.tree A)
  | .pos p => .operator 'p' none (p.tree A)
  | .bin op l r => .operator op (some (l.tree A)) (r.tree A)

/-- The stream right after the text of `e` has been read from a clean stream:
`eofbit` is raised only when a numeral was scanned up to the end of input. -/
def post (e : Syn) (b r : List Char) : IStream :=
  ⟨e.render.reverse ++ b, r, e.endsLit && r.isEmpty, false, false⟩

/-- A `primary` text is parsed by `parsePrimary` into its tree. -/
def Spec3 {V : Type} (A : Arith V) (u : Indet V) (e : Syn) : Prop :=
  ∀ b r, (e.endsLit = true → numStop r = true) →
    ∃ N, ∀ fuel, N ≤ fuel →
      parsePrimary A u fuel (IStream.clean b (e.render ++ r))
        = some (.ok (e.tree A, post e b r))

/-- An `exponent` text brings `parseExponent` to its loop with the tree as `left`. -/
def Spec2 {V : Type} (A : Arith V) (u : Indet V) (e : Syn) : Prop :=
  ∀ b r, (e.endsLit = true → numStop r = true) →
    ∃ N c, c ≤ N ∧ ∀ fuel, N ≤ fuel → ∀ t,
      parseExponent A u fuel (IStream.clean b (e.render ++ r))
        = exponentLoop A u (fuel - c) (e.tree A) t (post e b r)

/-- A `term` text brings `parseTerm` to its loop with the tree as `left`. -/
def Spec1 {V : Type} (A : Arith V) (u : Indet V) (e : Syn) : Prop :=
  ∀ b r, (e.endsLit = true → numStop r = true) → nextTok r ≠ some '^' →
    ∃ N c, c ≤ N ∧ ∀ fuel, N ≤ fuel → ∀ t,
      parseTerm A u fuel (IStream.clean b (e.render ++ r))
        = termLoop A u (fuel - c) (e.tree A) t (settle (e.render.reverse ++ b) r)

/-- An `expression` text brings `parseExpression` to its loop with the tree as `left`. -/
def Spec0 {V : Type} (A : Arith V) (u : Indet V) (e : Syn) : Prop :=
  ∀ b r, (e.endsLit = true → numStop r = true) → nextTok r ≠ some '^' →
    nextTok r ≠ some '*' → nextTok r ≠ some '/' →
    ∃ N c, c ≤ N ∧ ∀ fuel, N ≤ fuel → ∀ t,
      parseExpression A u fuel (IStream.clean b (e.render ++ r))
        = expressionLoop A u (fuel - c) (e.tree A) t (settle (e.render.reverse ++ b) r)

/-- The procedure `parseExponent` returns on an `exponent` text not followed by `^`. -/
def Ret2 {V : Type} (A : Arith V) (u : Indet V) (e : Syn) : Prop :=
  ∀ b r, (e.endsLit = true → numStop r = true) → nextTok r ≠ some '^' →
    ∃ N, ∀ fuel, N ≤ fuel →
      parseExponent A u fuel (IStream.clean b (e.render ++ r))
        = some (.ok (e.tree A, settle (e.render.reverse ++ b) r))

/-- The procedure `parseTerm` returns on a `term` text not followed by `^`, `*`, `/`. -/
def Ret1 {V : Type} (A : Arith V) (u : Indet V) (e : Syn) : Prop :=
  ∀ b r, (e.endsLit = true → numStop r = true) → nextTok r ≠ some '^' →
    nextTok r ≠ some '*' → nextTok r ≠ some '/' →
    ∃ N, ∀ fuel, N ≤ fuel →
      parseTerm A u fuel (IStream.clean b (e.render ++ r))
        = some (.ok (e.tree A, settle (e.render.reverse ++ b) r))

/-- The text after an expression does not continue it: the next token is not a binary
operator, and no digit, point or exponent marker follows a final numeral. -/
def Ends (e : Syn) (r : List Char) : Prop :=
  (e.endsLit = true → numStop r = true) ∧ nextTok r ≠ some '^' ∧ nextTok r ≠ some '*'
    ∧ nextTok r ≠ some '/' ∧ nextTok r ≠ some '+' ∧ nextTok r ≠ some '-'

/-- The procedure `parseExpression` returns on an expression text that ends there. -/
def Ret0 {V : Type} (A : Arith V) (u : Indet V) (e : Syn) : Prop :=
  ∀ b r, Ends e r →
    ∃ N, ∀ fuel, N ≤ fuel →
      parseExpression A u fuel (IStream.clean b (e.render ++ r))
        = some (.ok (e.tree A, settle (e.render.reverse ++ b) r))

/-- A numeral made of integer digits only. -/
def Syn.int (ds : List Char) : Syn := .num ds none

/-- The fragment of the first property: integer numerals, the four binary operators
`+ - * /` and parentheses. -/
def Syn.arith : Syn → Bool
  | .num _ fp => fp.isNone
  | .paren e => e.arith
  | .neg _ => false
  | .pos _ => false
  | .bin op l r =>
    (decide (op = '+') || decide (op = '-') || decide (op = '*') || decide (op = '/'))
      && l.arith && r.arith

/-- The value of an expression text read as ordinary arithmetic on the carrier: a numeral
denotes its decimal value, parentheses group, an operator applies to the values of its
two operands, a sign to the value of its operand. -/
def Syn.value {V : Type} (A : Arith V) : Syn → V
  | .num ip fp => litValue A ip (fracDigits fp)
  | .paren e => e.value A
  | .neg p => A.neg (p.value A)
  | .pos p => p.value A
  | .bin op l r =>
    if op = '+' then A.add (l.value A) (r.value A)
    else if op = '-' then A.sub (l.value A) (r.value A)
    else if op = '*' then A.mul (l.value A) (r.value A)
    else if op = '/' then A.div (l.value A) (r.value A)
    else A.pow (l.value A) (r.value A)

/-- No division of the text has a divisor equal to zero. -/
def Syn.divSafe {V : Type} (A : Arith V) : Syn → Bool
  | .num _ _ => true
  | .paren e => e.divSafe A
  | .neg p => p.divSafe A
  | .pos p => p.divSafe A
  | .bin op l r =>
    l.divSafe A && r.divSafe A && (!decide (op = '/') || !A.eq (r.value A) A.zero)

/-- A numeral preceded by a sequence of signs. -/
def Syn.signed (ip : List Char) (fp : Option (List Char)) : List Char → Syn
  | [] => .num ip fp
  | c :: cs => if c = '-' then .neg (Syn.signed ip fp cs) else .pos (Syn.signed ip fp cs)

/-- The value of a numeral under a sequence of signs: each `-` negates. -/
def applySigns {V : Type} (A : Arith V) (v : V) : List Char → V
  | [] => v
  | c :: cs => if c = '-' then A.neg (applySigns A v cs) else applySigns A v cs


/-- The indentation of depth `d`: two spaces for each level. -/
def indent (d : Nat) : List Char := List.replicate (2 * d) ' '

/-- The lines of the pre-order rendering of a tree whose root is at depth `d`: the header
of a node at depth `d` is indented by `2 * d` spaces, and both subtrees are one level
deeper; an absent left child is the single line `(null)` one level deeper. -/
def Node.lines {V : Type} (A : Arith V) : Node V → Nat → List (List Char)
  | .operand value, d => [indent d ++ "Operand: ".toList ++ A.fmt value]
  | .operator op none right, d =>
    [indent d ++ "Operator: ".toList ++ [op], indent d ++ "Left:".toList,
      indent (d + 1) ++ "(null)".toList, indent d ++ "Right:".toList]
      ++ Node.lines A right (d + 1)
  | .operator op (some left) right, d =>
    [indent d ++ "Operator: ".toList ++ [op], indent d ++ "Left:".toList]
      ++ Node.lines A left (d + 1) ++ [indent d ++ "Right:".toList]
      ++ Node.lines A right (d + 1)

/-- The text of a sequence of lines, each ended by a newline. -/
def unlines : List (List Char) → List Char
  | [] => []
  | l :: ls => l ++ endl :: unlines ls

/-- Well-formed trees: a node tagged `+`, `-`, `*`, `/` or `^` has both children, a node
tagged `u` or `p` has only the right child, and no other tag occurs. -/
def Node.wellFormed {V : Type} : Node V → Bool
  | .operand _ => true
  | .operator op none right =>
    (decide (op = 'u') || decide (op = 'p')) && right.wellFormed
  | .operator op (some left) right =>
    (decide (op = '+') || decide (op = '-') || decide (op = '*') || decide (op = '/')
        || decide (op = '^'))
      && left.wellFormed && right.wellFormed

/-- A result of a parsing procedure that, when it is a tree, is a well-formed tree. -/
def WFResult {V : Type} (o : Option (Parsed V)) : Prop :=
  ∀ t s, o = some (.ok (t, s)) → t.wellFormed = true

/-- The character of a decimal digit. -/
def digitChar (d : Nat) : Char := Char.ofNat (48 + d)

/-- The decimal digits of `n`, most significant first; `fuel` bounds the number of digits. -/
def decimalAux : Nat → Nat → List Char
  | 0, _ => []
  | fuel + 1, n => if n < 10 then [digitChar n] else decimalAux fuel (n / 10) ++ [digitChar (n % 10)]

/-- The decimal digits of a non-negative integer, without leading zeros. -/
def decimal (n : Nat) : List Char := decimalAux (n + 1) n

/-- The tree with every operand value replaced by its image under `f`. -/
def Node.mapValue {α β : Type} (f : α → β) : Node α → Node β
  | .operand value => .operand (f value)
  | .operator op none right => .operator op none (Node.mapValue f right)
  | .operator op (some left) right =>
    .operator op (some (Node.mapValue f left)) (Node.mapValue f right)

/-- The `double` that holds the non-negative integer `n`. -/
def doubleOf {V : Type} (A : Arith V) (n : Nat) : V := A.strtod false n 0

/-- Every operand of a tree of integers is in the range of `double`. -/
def Node.operandsInRange {V : Type} (A : Arith V) : Node Nat → Bool
  | .operand n => inRange A (doubleOf A n)
  | .operator _ none right => Node.operandsInRange A right
  | .operator _ (some left) right =>
    Node.operandsInRange A left && Node.operandsInRange A right

/-- The fully parenthesized infix text of a tree of integers: an operand is its decimal
digits, a binary node is `(` left tag right `)`, a unary node is `(-` right `)` for the
tag `u` and `(+` right `)` otherwise. -/
def Node.infixText : Node Nat → List Char
  | .operand n => decimal n
  | .operator op none right =>
    '(' :: (if op = 'u' then '-' else '+') :: (Node.infixText right ++ [')'])
  | .operator op (some left) right =>
    '(' :: (Node.infixText left ++ op :: Node.infixText right ++ [')'])

/-- The syntax of the fully parenthesized infix text of a tree of integers. -/
def Node.toSyn : Node Nat → Syn
  | .operand n => .num (decimal n) none
  | .operator op none right =>
    .paren (if op = 'u' then .neg (Node.toSyn right) else .pos (Node.toSyn right))
  | .operator op (some left) right => .paren (.bin op (Node.toSyn left) (Node.toSyn right))

/-- The text `t2` starts like `t1` as far as the numeric scanner can tell when it stops in
front of it: `t2` is empty, or starts with a space, or starts with the first character of
`t1`. -/
def headSim (t1 t2 : List Char) : Prop :=
  t2 = [] ∨ (∃ w ds, t2 = w :: ds ∧ isspace w = true)
    ∨ (∃ c cs1 cs2, t1 = c :: cs1 ∧ t2 = c :: cs2)

/-- The text `t2` is the text `t1` with spaces inserted between its lexical units: the
numeric literals, which are the runs of characters that the numeric scanner consumes at
once from a digit or a point, and the single characters that are neither digits nor
points.  No space is inserted inside a numeric literal. -/
inductive Spacing : List Char → List Char → Prop where
  | nil : Spacing [] []
  | space (w : Char) (t1 t2 : List Char) :
      isspace w = true → Spacing t1 t2 → Spacing t1 (w :: t2)
  | char (c : Char) (t1 t2 : List Char) :
      isdigit c = false → c ≠ '.' → Spacing t1 t2 → Spacing (c :: t1) (c :: t2)
  | num (c : Char) (cs x t1 t2 : List Char) :
      (isdigit c = true ∨ c = '.') →
      extractFloat (c :: cs ++ t1) = ⟨x, (c :: cs).reverse, t1⟩ →
      Spacing t1 t2 → Spacing (c :: cs ++ t1) (c :: cs ++ t2)

/-- Two streams that the parser cannot tell apart: both have failed, or neither has and
what is left of the second is what is left of the first with spaces inserted. -/
def Sim (s1 s2 : IStream) : Prop :=
  (s1.toBool = false ∧ s2.toBool = false)
  ∨ (s1.failbit = false ∧ s1.badbit = false ∧ (s1.eofbit = true → s1.rest = [])
      ∧ s2.failbit = false ∧ s2.badbit = false ∧ (s2.eofbit = true → s2.rest = [])
      ∧ Spacing s1.rest s2.rest)

/-- Two results of a parsing procedure with the same outcome: no result, the same error,
or the same tree with streams that the parser cannot tell apart. -/
inductive ResSim {V : Type} : Option (Parsed V) → Option (Parsed V) → Prop where
  | none : ResSim none none
  | error (e : String) : ResSim (some (.error e)) (some (.error e))
  | ok (t : Node V) (s1 s2 : IStream) : Sim s1 s2 → ResSim (some (.ok (t, s1))) (some (.ok (t, s2)))

/-- The text without its leading spaces. -/
def dropws : List Char → List Char
  | [] => []
  | c :: cs => if isspace c then dropws cs else c :: cs

/-- The next token is not a sign: no `+` or `-` stands where an operand starts. -/
def opndOK (r : List Char) : Bool :=
  decide (nextTok r ≠ some '+') && decide (nextTok r ≠ some '-')

/-- No `^` occurs, and no sign is the first token after a binary operator or after an
opening parenthesis. -/
def fragOK : List Char → Bool
  | [] => true
  | c :: cs =>
    decide (c ≠ '^')
      && (!(decide (c = '+') || decide (c = '-') || decide (c = '*') || decide (c = '/')
            || decide (c = '(')) || opndOK cs)
      && fragOK cs

/-- The texts of the fragment common to the two programs: no `^`, and no `+` or `-` in
operand position (at the start, after a binary operator, after an opening parenthesis). -/
def commonText (text : List Char) : Bool := opndOK text && fragOK text

/-- The syntax of the common fragment: unsigned numerals, the binary operators `+ - * /`
and parentheses. -/
def Syn.common : Syn → Bool
  | .num _ _ => true
  | .paren e => e.common
  | .neg _ => false
  | .pos _ => false
  | .bin op l r =>
    (decide (op = '+') || decide (op = '-') || decide (op = '*') || decide (op = '/'))
      && l.common && r.common

/-- Every operator of a tree of the simpler program is one of `+ - * /`. -/
def Simple.Node.arith {V : Type} : Simple.Node V → Bool
  | .operand _ => true
  | .operator op left right =>
    (decide (op = '+') || decide (op = '-') || decide (op = '*') || decide (op = '/'))
      && left.arith && right.arith

/-- The next extraction of a token from the stream fails. -/
def exhausted (s : IStream) : Prop :=
  s.toBool = false ∨ s.eofbit = true ∨ dropws s.rest = []

/-- Two streams on which the next extraction of a token does the same: it fails on both,
or it skips spaces and finds the same characters. -/
def Obs (s2 s1 : IStream) : Prop :=
  (exhausted s2 ∧ exhausted s1)
  ∨ (s2.failbit = false ∧ s2.badbit = false ∧ s2.eofbit = false
      ∧ s1.failbit = false ∧ s1.badbit = false ∧ s1.eofbit = false
      ∧ dropws s2.rest = dropws s1.rest)

/-- What is left of a stream that has not failed is a text of the common fragment. -/
def FragInv (s : IStream) : Prop := s.toBool = true → fragOK s.rest = true

/-- A stream that has not failed stands where an operand may start. -/
def OpndInv (s : IStream) : Prop := s.toBool = true → opndOK s.rest = true

/-- The same outcome of a parsing procedure of the complete program and of the simpler
program: the same error, or the same tree, built from `+ - * /` only, with streams on
which the next extraction does the same. -/
inductive Agree {V : Type} : Parsed V → Simple.Parsed V → Prop where
  | error (e : String) : Agree (.error e) (.error e)
  | ok (t : Simple.Node V) (x2 x1 : IStream) :
      Obs x2 x1 → FragInv x2 → t.arith = true → Agree (.ok (t.embed, x2)) (.ok (t, x1))

/-- The same outcome of the two programs on a text: the same error, or the same tree. -/
def sameOutcome {V : Type} (r2 : Except String (Node V))
    (r1 : Except String (Simple.Node V)) : Prop :=
  match r2, r1 with
  | .error a, .error b => a = b
  | .ok t2, .ok t1 => t2 = t1.embed
  | _, _ => False

/-- What reading a token does to two streams that differ by inserted spaces: the same
token is read, or kept; the streams are again alike after a token that starts no numeral,
and after the token is put back; and the numeric extraction that follows the putting back
of a digit or a point stores the same value. -/
def GetSim {V : Type} (A : Arith V) (g1 g2 : IStream × Char) : Prop :=
  g1.2 = g2.2 ∧ g1.1.toBool = g2.1.toBool
    ∧ ((isdigit g1.2 || decide (g1.2 = '.')) = false → Sim g1.1 g2.1)
    ∧ (g1.1.toBool = true → Sim (putback g1.1 g1.2) (putback g2.1 g1.2))
    ∧ ((isdigit g1.2 || decide (g1.2 = '.')) = true → ∀ v : V,
        (getDouble A (putback g1.1 g1.2) v).2 = (getDouble A (putback g2.1 g1.2) v).2
        ∧ Sim (getDouble A (putback g1.1 g1.2) v).1 (getDouble A (putback g2.1 g1.2) v).1)

/-- What reading a token does on two streams on which the next extraction does the same,
the first being left with a text of the common fragment. -/
def GetAgree {V : Type} (A : Arith V) (s2 : IStream) (t : Char) (g2 g1 : IStream × Char) : Prop :=
  g2.2 = g1.2 ∧ g2.1.toBool = g1.1.toBool ∧ Obs g2.1 g1.1 ∧ FragInv g2.1
    ∧ ((g2.2 = '+' ∨ g2.2 = '-' ∨ g2.2 = '*' ∨ g2.2 = '/' ∨ g2.2 = '(') → OpndInv g2.1)
    ∧ (g2.1.toBool = false → g2.2 = t)
    ∧ (g2.1.toBool = true → g2.2 ≠ '^'
        ∧ (OpndInv s2 → g2.2 ≠ '-' ∧ g2.2 ≠ '+')
        ∧ Obs (putback g2.1 g2.2) (putback g1.1 g2.2) ∧ FragInv (putback g2.1 g2.2))
    ∧ ((isdigit g2.2 || decide (g2.2 = '.')) = true → ∀ v : V,
        (getDouble A (putback g2.1 g2.2) v).2 = (getDouble A (putback g1.1 g2.2) v).2
        ∧ Obs (getDouble A (putback g2.1 g2.2) v).1 (getDouble A (putback g1.1 g2.2) v).1
        ∧ FragInv (getDouble A (putback g2.1 g2.2) v).1)

/-- The tree of the simpler program for a piece of syntax of the common fragment:
parentheses leave no node, and a binary operator has both children. -/
def Syn.simpleTree {V : Type} (A : Arith V) : Syn → Simple.Node V
  | .num ip fp => .operand (litValue A ip (fracDigits fp))
  | .paren e => e.simpleTree A
  | .neg p => p.simpleTree A
  | .pos p => p.simpleTree A
  | .bin op l r => .operator op (l.simpleTree A) (r.simpleTree A)

/-! ## Lemmas -/

theorem skipws_nextTok_none (b r : List Char) (h : nextTok r = none) :
    ∃ b1, skipws b r = (b1, []) := by
  induction r generalizing b with
  | nil => exact ⟨b, rfl⟩
  | cons c cs ih =>
    simp only [nextTok] at h
    simp only [skipws]
    split at h
    · rename_i hc; simp only [hc, if_true]; exact ih _ h
    · simp at h

theorem skipws_nextTok_some (b r : List Char) (c : Char) (h : nextTok r = some c) :
    ∃ b1 cs, skipws b r = (b1, c :: cs) ∧ isspace c = false := by
  induction r generalizing b with
  | nil => simp [nextTok] at h
  | cons d ds ih =>
    simp only [nextTok] at h
    simp only [skipws]
    split at h
    · rename_i hd; simp only [hd, if_true]; exact ih _ h
    · rename_i hd
      simp only [Option.some.injEq] at h
      subst h
      simp only [hd]
      exact ⟨b, ds, by simp, by simp [hd]⟩

theorem skipws_cons (b : List Char) (c : Char) (cs : List Char) (h : isspace c = false) :
    skipws b (c :: cs) = (b, c :: cs) := by
  simp [skipws, h]

theorem settle_cons (b : List Char) (c : Char) (cs : List Char) (h : isspace c = false) :
    settle b (c :: cs) = IStream.clean b (c :: cs) := by
  simp [settle, skipws_cons b c cs h, IStream.clean]

theorem getChar_clean (b : List Char) (c : Char) (cs : List Char) (t : Char)
    (h : isspace c = false) :
    getChar (IStream.clean b (c :: cs)) t = (IStream.clean (c :: b) cs, c) := by
  simp [getChar, sentry, IStream.clean, IStream.good, skipws_cons b c cs h]

theorem putback_clean (b : List Char) (c : Char) (cs : List Char) :
    putback (IStream.clean (c :: b) cs) c = IStream.clean b (c :: cs) := by
  simp [putback, sentry, IStream.clean, IStream.good]

/-- Reading a token from a stream that has not failed: either the input is exhausted
and the stream fails, or the token is read from a clean position. -/
theorem getChar_cases (s : IStream) (t : Char) (hf : s.failbit = false) (hb : s.badbit = false)
    (he : s.eofbit = true → s.rest = []) :
    (nextTok s.rest = none ∧ getChar s t = (settle s.back s.rest, t)
      ∧ (settle s.back s.rest).toBool = false) ∨
    (∃ b1 c cs, nextTok s.rest = some c ∧ isspace c = false
      ∧ settle s.back s.rest = IStream.clean b1 (c :: cs)
      ∧ getChar s t = (IStream.clean (c :: b1) cs, c)) := by
  obtain ⟨b, r, eof, fl, bd⟩ := s
  simp only at hf hb he
  subst hf hb
  cases hn : nextTok r with
  | none =>
    left
    obtain ⟨b1, h1⟩ := skipws_nextTok_none b r hn
    refine ⟨rfl, ?_, ?_⟩
    · cases eof with
      | true =>
        have hr := he rfl
        subst hr
        simp [getChar, sentry, IStream.good, settle, skipws]
      | false =>
        simp [getChar, sentry, IStream.good, settle, h1]
    · simp [settle, h1, IStream.toBool]
  | some c =>
    right
    obtain ⟨b1, cs, h1, hc⟩ := skipws_nextTok_some b r c hn
    have hne : eof = false := by
      cases eof with
      | false => rfl
      | true => have hr := he rfl; subst hr; simp [nextTok] at hn
    subst hne
    exact ⟨b1, c, cs, rfl, hc, by simp [settle, h1, IStream.clean],
      by simp [getChar, sentry, IStream.good, h1, IStream.clean]⟩

theorem getChar_settle (b r : List Char) (t : Char) :
    (nextTok r = none ∧ getChar (settle b r) t = (settle b r, t)
      ∧ (settle b r).toBool = false) ∨
    (∃ b1 c cs, nextTok r = some c ∧ isspace c = false
      ∧ settle b r = IStream.clean b1 (c :: cs)
      ∧ getChar (settle b r) t = (IStream.clean (c :: b1) cs, c)) := by
  cases hn : nextTok r with
  | none =>
    left
    obtain ⟨b1, h1⟩ := skipws_nextTok_none b r hn
    simp [settle, h1, getChar, sentry, IStream.good, IStream.toBool]
  | some c =>
    right
    obtain ⟨b1, cs, h1, hc⟩ := skipws_nextTok_some b r c hn
    refine ⟨b1, c, cs, rfl, hc, by simp [settle, h1, IStream.clean], ?_⟩
    have : settle b r = IStream.clean b1 (c :: cs) := by simp [settle, h1, IStream.clean]
    rw [this, getChar_clean b1 c cs t hc]

theorem floatLoop_cons (fm fd fs : Bool) (x tk : List Char) (c : Char) (cs : List Char) :
    floatLoop fm fd fs x tk (c :: cs) =
      if isdigit c then floatLoop true fd fs (x ++ [c]) (c :: tk) cs
      else if c = '.' && !fd && !fs then floatLoop fm true fs (x ++ ['.']) (c :: tk) cs
      else if (c = 'e' || c = 'E') && !fs && fm then
        match cs with
        | [] => ⟨x ++ ['e'], c :: tk, []⟩
        | d :: ds =>
          if d = '+' || d = '-' then floatLoop fm fd true (x ++ ['e', d]) (d :: c :: tk) ds
          else floatLoop fm fd true (x ++ ['e']) (c :: tk) (d :: ds)
      else ⟨x, tk, c :: cs⟩ := by
  rw [floatLoop.eq_def]

theorem floatZeros_cons (fm : Bool) (x tk : List Char) (c : Char) (cs : List Char) :
    floatZeros fm x tk (c :: cs) =
      if c = '0' then floatZeros true (if fm then x else x ++ ['0']) (c :: tk) cs
      else floatLoop fm false false x tk (c :: cs) := by
  rw [floatZeros]

theorem floatLoop_digits (ds : List Char) (hds : ∀ c ∈ ds, isdigit c = true)
    (fm fd fs : Bool) (x tk r : List Char) :
    floatLoop fm fd fs x tk (ds ++ r)
      = floatLoop (fm || !ds.isEmpty) fd fs (x ++ ds) (ds.reverse ++ tk) r := by
  induction ds generalizing fm x tk with
  | nil => simp
  | cons c cs ih =>
    have hc : isdigit c = true := hds c (by simp)
    have hcs : ∀ d ∈ cs, isdigit d = true := fun d hd => hds d (by simp [hd])
    rw [List.cons_append, floatLoop_cons, if_pos hc, ih hcs]
    simp

theorem floatLoop_stop (fm fd fs : Bool) (x tk r : List Char) (h : numStop r = true) :
    floatLoop fm fd fs x tk r = ⟨x, tk, r⟩ := by
  cases r with
  | nil => simp [floatLoop]
  | cons c cs =>
    simp only [numStop, Bool.and_eq_true, Bool.not_eq_true', decide_eq_false_iff_not] at h
    obtain ⟨⟨⟨h1, h2⟩, h3⟩, h4⟩ := h
    rw [floatLoop_cons]
    simp [h1, h2, h3, h4]

theorem floatZeros_zeros (zs : List Char) (hzs : ∀ c ∈ zs, c = '0')
    (fm : Bool) (x tk r : List Char) (hr : ∀ c cs, r = c :: cs → c ≠ '0') :
    floatZeros fm x tk (zs ++ r)
      = floatLoop (fm || !zs.isEmpty) false false
          (if fm || zs.isEmpty then x else x ++ ['0']) (zs.reverse ++ tk) r := by
  induction zs generalizing fm x tk with
  | nil =>
    cases r with
    | nil => simp [floatZeros, floatLoop]
    | cons c cs =>
      rw [List.nil_append, floatZeros_cons, if_neg (hr c cs rfl)]
      simp
  | cons z zs ih =>
    have hz : z = '0' := hzs z (by simp)
    have hzs1 : ∀ d ∈ zs, d = '0' := fun d hd => hzs d (by simp [hd])
    subst hz
    rw [List.cons_append, floatZeros_cons, if_pos rfl, ih hzs1]
    cases fm <;> simp

theorem digitsVal_zeros (zs : List Char) (hzs : ∀ c ∈ zs, c = '0') (l : List Char) :
    digitsVal (zs ++ l) = digitsVal l := by
  induction zs with
  | nil => rfl
  | cons z zs ih =>
    have hz : z = '0' := hzs z (by simp)
    have hzs1 : ∀ d ∈ zs, d = '0' := fun d hd => hzs d (by simp [hd])
    subst hz
    have := ih hzs1
    simp only [digitsVal] at this ⊢
    simpa using this

theorem span_digits (ds t : List Char) (hds : ∀ c ∈ ds, isdigit c = true)
    (ht : ∀ c cs, t = c :: cs → isdigit c = false) :
    List.span isdigit (ds ++ t) = (ds, t) := by
  induction ds with
  | nil =>
    cases t with
    | nil => rfl
    | cons c cs => simp [List.span_eq_take_drop, List.takeWhile, List.dropWhile, ht c cs rfl]
  | cons d ds ih =>
    have hd : isdigit d = true := hds d (by simp)
    have hds1 : ∀ c ∈ ds, isdigit c = true := fun c hc => hds c (by simp [hc])
    have := ih hds1
    simp only [List.span_eq_take_drop, Prod.mk.injEq] at this ⊢
    simp [List.takeWhile, List.dropWhile, hd, this.1, this.2]

theorem split_zeros (ip : List Char) :
    ∃ zs ds, ip = zs ++ ds ∧ (∀ c ∈ zs, c = '0') ∧ (∀ c cs, ds = c :: cs → c ≠ '0') := by
  induction ip with
  | nil => exact ⟨[], [], rfl, by simp, by simp⟩
  | cons c ip ih =>
    by_cases hc : c = '0'
    · obtain ⟨zs, ds, h1, h2, h3⟩ := ih
      refine ⟨c :: zs, ds, by simp [h1], ?_, h3⟩
      intro d hd
      rcases List.mem_cons.1 hd with h | h
      · rw [h, hc]
      · exact h2 d h
    · refine ⟨[], c :: ip, rfl, by simp, ?_⟩
      intro d ds hd
      simp only [List.cons.injEq] at hd
      rw [← hd.1]; exact hc

theorem extractFloat_unsigned (l : List Char)
    (h : ∀ c cs, l = c :: cs → c ≠ '+' ∧ c ≠ '-') :
    extractFloat l = floatZeros false [] [] l := by
  cases l with
  | nil => rfl
  | cons c cs =>
    obtain ⟨h1, h2⟩ := h c cs rfl
    simp [extractFloat, h1, h2]

theorem isdigit_zero_of_eq {c : Char} (h : c = '0') : isdigit c = true := by
  subst h; decide

theorem scan_numeral (ip : List Char) (fp : Option (List Char)) (r : List Char)
    (hip : ∀ c ∈ ip, isdigit c = true) (hfp : ∀ c ∈ fracDigits fp, isdigit c = true)
    (hne : ip ++ fracDigits fp ≠ []) (hr : numStop r = true) :
    ∃ xt, extractFloat (ip ++ fracText fp ++ r) = ⟨xt, (ip ++ fracText fp).reverse, r⟩
      ∧ strtodText xt
          = some (false, digitsVal (ip ++ fracDigits fp), -((fracDigits fp).length : Int)) := by
  obtain ⟨zs, ds, hsplit, hzs, hds0⟩ := split_zeros ip
  subst hsplit
  have hdsd : ∀ c ∈ ds, isdigit c = true := fun c hc => hip c (by simp [hc])
  have hr0 : ∀ c cs, r = c :: cs → isdigit c = false ∧ c ≠ '.' ∧ c ≠ 'e' ∧ c ≠ 'E' := by
    intro c cs h
    subst h
    simpa [numStop, and_assoc] using hr
  -- the first character is not a sign
  have hfirst : ∀ c cs, (zs ++ ds ++ fracText fp ++ r) = c :: cs → c ≠ '+' ∧ c ≠ '-' := by
    intro c cs h
    have hc : isdigit c = true ∨ c = '.' := by
      cases zs with
      | cons z zs' =>
        simp only [List.cons_append, List.cons.injEq] at h
        left; rw [← h.1]; exact hip z (by simp)
      | nil =>
        cases ds with
        | cons d ds' =>
          simp only [List.nil_append, List.cons_append, List.cons.injEq] at h
          left; rw [← h.1]; exact hip d (by simp)
        | nil =>
          cases fp with
          | none => simp [fracDigits] at hne
          | some f =>
            simp only [fracText, List.nil_append, List.cons_append, List.cons.injEq] at h
            right; exact h.1.symm
    rcases hc with hc | hc
    · constructor <;> (intro h'; subst h'; simp [isdigit] at hc)
    · subst hc; constructor <;> decide
  have htail0 : ∀ c cs, (ds ++ (fracText fp ++ r)) = c :: cs → c ≠ '0' := by
    intro c cs h
    cases ds with
    | cons d ds' =>
      simp only [List.cons_append, List.cons.injEq] at h
      rw [← h.1]; exact hds0 d ds' rfl
    | nil =>
      cases fp with
      | some f =>
        simp only [fracText, List.nil_append, List.cons_append, List.cons.injEq] at h
        rw [← h.1]; decide
      | none =>
        simp only [fracText, List.nil_append] at h
        intro hc
        have := (hr0 c cs h).1
        rw [isdigit_zero_of_eq hc] at this
        exact Bool.noConfusion this
  have hx0 : ∀ c ∈ (if zs.isEmpty then ([] : List Char) else ['0']) ++ ds, isdigit c = true := by
    intro c hc
    rcases List.mem_append.1 hc with h | h
    · split at h
      · simp at h
      · simp only [List.mem_singleton] at h; exact isdigit_zero_of_eq h
    · exact hdsd c h
  have hval : ∀ l, digitsVal (((if zs.isEmpty then ([] : List Char) else ['0']) ++ ds) ++ l)
      = digitsVal (zs ++ ds ++ l) := by
    intro l
    rw [List.append_assoc, List.append_assoc, digitsVal_zeros zs hzs]
    split
    · rfl
    · exact digitsVal_zeros ['0'] (by simp) _
  have hnex : zs ++ ds = [] → (if zs.isEmpty then ([] : List Char) else ['0']) ++ ds = [] := by
    intro h
    simp only [List.append_eq_nil] at h
    simp [h.1, h.2]
  have hnex2 : (if zs.isEmpty then ([] : List Char) else ['0']) ++ ds = [] → zs ++ ds = [] := by
    intro h
    simp only [List.append_eq_nil] at h
    cases zs with
    | nil => simp [h.2]
    | cons z zs' => simp at h
  rw [extractFloat_unsigned _ hfirst]
  rw [List.append_assoc, List.append_assoc, floatZeros_zeros zs hzs false [] [] _ htail0]
  rw [floatLoop_digits ds hdsd]
  cases fp with
  | none =>
    simp only [fracText, List.nil_append]
    rw [floatLoop_stop _ _ _ _ _ r hr]
    refine ⟨(if zs.isEmpty then ([] : List Char) else ['0']) ++ ds, by simp, ?_⟩
    simp only [fracDigits, List.append_nil] at hne ⊢
    have hne1 : ((if zs.isEmpty then ([] : List Char) else ['0']) ++ ds) ≠ [] :=
      fun h => hne (hnex2 h)
    have hsp := span_digits _ [] hx0 (by simp)
    simp only [List.append_nil] at hsp
    have hv := hval []
    simp only [List.append_nil] at hv
    cases hx : ((if zs.isEmpty then ([] : List Char) else ['0']) ++ ds) with
    | nil => exact absurd hx hne1
    | cons c cs =>
      have hcd : isdigit c = true := hx0 c (by rw [hx]; simp)
      have hc1 : c ≠ '-' := by intro h; subst h; simp [isdigit] at hcd
      have hc2 : c ≠ '+' := by intro h; subst h; simp [isdigit] at hcd
      rw [hx] at hsp hv
      simp only [strtodText, hc1, hc2, if_false, hsp]
      simp [hv]
  | some f =>
    have hpt : isdigit '.' = false := by decide
    rw [fracText, List.cons_append, floatLoop_cons, if_neg (by simp [hpt]), if_pos (by simp)]
    have hfd : ∀ c ∈ f, isdigit c = true := fun c hc => hfp c (by simpa [fracDigits] using hc)
    rw [floatLoop_digits f hfd, floatLoop_stop _ _ _ _ _ r hr]
    refine ⟨(if zs.isEmpty then ([] : List Char) else ['0']) ++ ds ++ '.' :: f, by simp, ?_⟩
    simp only [fracDigits] at hne ⊢
    have hsp := span_digits _ ('.' :: f) hx0 (by intro c cs h; simp only [List.cons.injEq] at h; rw [← h.1]; exact hpt)
    have hsp2 := span_digits f [] hfd (by simp)
    simp only [List.append_nil] at hsp2
    have hv := hval f
    have hne1 : ¬ ((if zs.isEmpty then ([] : List Char) else ['0']) ++ ds = [] ∧ f = []) := by
      rintro ⟨h1, h2⟩
      apply hne
      rw [hnex2 h1, h2]; rfl
    cases hx : ((if zs.isEmpty then ([] : List Char) else ['0']) ++ ds) with
    | nil =>
      rw [hx] at hsp hv hne1
      simp only [List.nil_append] at hsp hv ⊢
      have hf : f ≠ [] := fun h => hne1 ⟨rfl, h⟩
      simp only [strtodText, show ('.' : Char) ≠ '-' by decide, show ('.' : Char) ≠ '+' by decide,
        if_false, hsp, if_true, hsp2]
      simp [hv, hf]
    | cons c cs =>
      have hcd : isdigit c = true := hx0 c (by rw [hx]; simp)
      have hc1 : c ≠ '-' := by intro h; subst h; simp [isdigit] at hcd
      have hc2 : c ≠ '+' := by intro h; subst h; simp [isdigit] at hcd
      rw [hx] at hsp hv
      simp only [List.cons_append] at hsp hv ⊢
      simp only [strtodText, hc1, hc2, if_false, hsp, if_true, hsp2]
      simp [hv]

theorem isspace_of_isdigit {c : Char} (h : isdigit c = true) : isspace c = false := by
  simp only [isdigit, Bool.and_eq_true, decide_eq_true_eq] at h
  simp only [isspace, Bool.or_eq_false_iff, decide_eq_false_iff_not, Bool.and_eq_false_iff]
  omega

theorem convert_inRange {V : Type} (A : Arith V) (xt : List Char) (m : Nat) (e : Int)
    (hx : strtodText xt = some (false, m, e)) (hr : inRange A (A.strtod false m e) = true) :
    convert_to_v A xt = (A.strtod false m e, false) := by
  simp only [inRange, Bool.and_eq_true, Bool.not_eq_true'] at hr
  simp [convert_to_v, hx, hr.1, hr.2]

theorem parsePrimary_num {V : Type} (A : Arith V) (u : Indet V) (ip : List Char)
    (fp : Option (List Char)) (hwf : (Syn.num ip fp).wf A = true) (b r : List Char)
    (hr : numStop r = true) (fuel : Nat) :
    parsePrimary A u (fuel + 1) (IStream.clean b ((Syn.num ip fp).render ++ r))
      = some (.ok ((Syn.num ip fp).tree A, post (Syn.num ip fp) b r)) := by
  simp only [Syn.wf, Bool.and_eq_true, List.all_eq_true, Bool.not_eq_true',
    List.isEmpty_eq_false] at hwf
  obtain ⟨⟨⟨hip, hfp⟩, hne⟩, hrange⟩ := hwf
  obtain ⟨xt, hscan, hconv⟩ := scan_numeral ip fp r hip hfp hne hr
  have hcv := convert_inRange A xt _ _ hconv hrange
  -- the first character of the numeral
  have hfirst : ∃ c cs, ip ++ fracText fp = c :: cs ∧ (isdigit c = true ∨ c = '.') := by
    cases ip with
    | cons d ds => exact ⟨d, ds ++ fracText fp, rfl, Or.inl (hip d (by simp))⟩
    | nil =>
      cases fp with
      | none => simp [fracDigits] at hne
      | some f => exact ⟨'.', f, rfl, Or.inr rfl⟩
  obtain ⟨c, cs, htext, hc⟩ := hfirst
  have hsp : isspace c = false := by
    rcases hc with h | h
    · exact isspace_of_isdigit h
    · subst h; decide
  have hm : c ≠ '-' := by
    rcases hc with h | h
    · intro h'; subst h'; simp [isdigit] at h
    · subst h; decide
  have hp : c ≠ '+' := by
    rcases hc with h | h
    · intro h'; subst h'; simp [isdigit] at h
    · subst h; decide
  have hdig : (isdigit c || decide (c = '.')) = true := by
    rcases hc with h | h
    · simp [h]
    · simp [h]
  rw [parsePrimary]
  simp only [Syn.render, htext, List.cons_append]
  rw [getChar_clean b c (cs ++ r) u.token hsp]
  simp only [hm, hp, if_false, hdig, if_true]
  rw [putback_clean]
  have hscan' : extractFloat (c :: (cs ++ r)) = ⟨xt, (c :: cs).reverse, r⟩ := by
    rw [← htext, ← hscan]; simp [htext]
  simp only [getDouble, sentry, IStream.clean, IStream.good, Bool.not_false, Bool.and_self,
    if_true, skipws_cons b c (cs ++ r) hsp, Bool.false_eq_true, if_false, hscan', hcv]
  simp [Syn.tree, post, Syn.render, htext, Syn.endsLit, litValue]

theorem exponentLoop_succ {V : Type} (A : Arith V) (u : Indet V) (fuel : Nat) (left : Node V)
    (t : Char) (s : IStream) :
    exponentLoop A u (fuel + 1) left t s =
      if (getChar s t).1.toBool && decide ((getChar s t).2 = '^') then
        match parsePrimary A u fuel (getChar s t).1 with
        | some (.ok (right, s2)) =>
          exponentLoop A u fuel (.operator (getChar s t).2 (some left) right) (getChar s t).2 s2
        | some (.error e) => some (.error e)
        | none => none
      else some (.ok (left, if (getChar s t).1.toBool then putback (getChar s t).1 (getChar s t).2
                            else (getChar s t).1)) := by
  rw [exponentLoop]

theorem termLoop_succ {V : Type} (A : Arith V) (u : Indet V) (fuel : Nat) (left : Node V)
    (t : Char) (s : IStream) :
    termLoop A u (fuel + 1) left t s =
      if (getChar s t).1.toBool
          && (decide ((getChar s t).2 = '*') || decide ((getChar s t).2 = '/')) then
        match parseExponent A u fuel (getChar s t).1 with
        | some (.ok (right, s2)) =>
          termLoop A u fuel (.operator (getChar s t).2 (some left) right) (getChar s t).2 s2
        | some (.error e) => some (.error e)
        | none => none
      else some (.ok (left, if (getChar s t).1.toBool then putback (getChar s t).1 (getChar s t).2
                            else (getChar s t).1)) := by
  rw [termLoop]

theorem expressionLoop_succ {V : Type} (A : Arith V) (u : Indet V) (fuel : Nat) (left : Node V)
    (t : Char) (s : IStream) :
    expressionLoop A u (fuel + 1) left t s =
      if (getChar s t).1.toBool
          && (decide ((getChar s t).2 = '+') || decide ((getChar s t).2 = '-')) then
        match parseTerm A u fuel (getChar s t).1 with
        | some (.ok (right, s2)) =>
          expressionLoop A u fuel (.operator (getChar s t).2 (some left) right) (getChar s t).2 s2
        | some (.error e) => some (.error e)
        | none => none
      else some (.ok (left, if (getChar s t).1.toBool then putback (getChar s t).1 (getChar s t).2
                            else (getChar s t).1)) := by
  rw [expressionLoop]

theorem parseExponent_succ {V : Type} (A : Arith V) (u : Indet V) (fuel : Nat) (s : IStream) :
    parseExponent A u (fuel + 1) s =
      match parsePrimary A u fuel s with
      | some (.ok (left, s1)) => exponentLoop A u fuel left u.token s1
      | other => other := by
  rw [parseExponent]

theorem parseTerm_succ {V : Type} (A : Arith V) (u : Indet V) (fuel : Nat) (s : IStream) :
    parseTerm A u (fuel + 1) s =
      match parseExponent A u fuel s with
      | some (.ok (left, s1)) => termLoop A u fuel left u.token s1
      | other => other := by
  rw [parseTerm]

theorem parseExpression_succ {V : Type} (A : Arith V) (u : Indet V) (fuel : Nat)
    (s : IStream) :
    parseExpression A u (fuel + 1) s =
      match parseTerm A u fuel s with
      | some (.ok (left, s1)) => expressionLoop A u fuel left u.token s1
      | other => other := by
  rw [parseExpression]

/-- A failed extraction leaves `failbit` set; a successful one does not depend on the
previous content of the variable. -/
theorem getChar_token (s : IStream) (t t1 : Char) :
    (getChar s t).1 = (getChar s t1).1
      ∧ ((getChar s t).1.toBool = true → (getChar s t).2 = (getChar s t1).2) := by
  unfold getChar
  rcases hs : sentry s false with ⟨s1, ok⟩
  cases ok with
  | false => 
    have hfail : s1.failbit = true := by
      unfold sentry at hs
      split at hs
      · simp only [Bool.false_eq_true, if_false] at hs
        split at hs
        · simp only [Prod.mk.injEq, and_true] at hs; rw [← hs]
        · simp at hs
      · simp only [Prod.mk.injEq, and_true] at hs; rw [← hs]
    simp [IStream.toBool, hfail]
  | true =>
    cases hr : s1.rest with
    | nil => simp [hr, IStream.toBool]
    | cons c cs => simp [hr]

theorem exponentLoop_token {V : Type} (A : Arith V) (u : Indet V) (fuel : Nat) (left : Node V)
    (t t1 : Char) (s : IStream) :
    exponentLoop A u fuel left t s = exponentLoop A u fuel left t1 s := by
  cases fuel with
  | zero => simp [exponentLoop]
  | succ n =>
    rw [exponentLoop_succ, exponentLoop_succ]
    obtain ⟨h1, h2⟩ := getChar_token s t t1
    by_cases hb : (getChar s t).1.toBool = true
    · rw [← h1, ← h2 hb]
    · rw [← h1]; simp [hb]

theorem termLoop_token {V : Type} (A : Arith V) (u : Indet V) (fuel : Nat) (left : Node V)
    (t t1 : Char) (s : IStream) :
    termLoop A u fuel left t s = termLoop A u fuel left t1 s := by
  cases fuel with
  | zero => simp [termLoop]
  | succ n =>
    rw [termLoop_succ, termLoop_succ]
    obtain ⟨h1, h2⟩ := getChar_token s t t1
    by_cases hb : (getChar s t).1.toBool = true
    · rw [← h1, ← h2 hb]
    · rw [← h1]; simp [hb]

theorem expressionLoop_token {V : Type} (A : Arith V) (u : Indet V) (fuel : Nat)
    (left : Node V) (t t1 : Char) (s : IStream) :
    expressionLoop A u fuel left t s = expressionLoop A u fuel left t1 s := by
  cases fuel with
  | zero => simp [expressionLoop]
  | succ n =>
    rw [expressionLoop_succ, expressionLoop_succ]
    obtain ⟨h1, h2⟩ := getChar_token s t t1
    by_cases hb : (getChar s t).1.toBool = true
    · rw [← h1, ← h2 hb]
    · rw [← h1]; simp [hb]

theorem toBool_clean (b r : List Char) : (IStream.clean b r).toBool = true := rfl

theorem exponentLoop_stop {V : Type} (A : Arith V) (u : Indet V) (fuel : Nat) (left : Node V)
    (t : Char) (s : IStream) (hf : s.failbit = false) (hb : s.badbit = false)
    (he : s.eofbit = true → s.rest = []) (hn : nextTok s.rest ≠ some '^') :
    exponentLoop A u (fuel + 1) left t s = some (.ok (left, settle s.back s.rest)) := by
  rw [exponentLoop_succ]
  rcases getChar_cases s t hf hb he with ⟨_, hg, htb⟩ | ⟨b1, c, cs, hc, _, hst, hg⟩
  · rw [hg]; simp [htb]
  · have hne : c ≠ '^' := by intro h; subst h; exact hn hc
    rw [hg, hst]
    simp [toBool_clean, hne, putback_clean]

theorem termLoop_stop {V : Type} (A : Arith V) (u : Indet V) (fuel : Nat) (left : Node V)
    (t : Char) (b r : List Char) (hn1 : nextTok r ≠ some '*') (hn2 : nextTok r ≠ some '/') :
    termLoop A u (fuel + 1) left t (settle b r) = some (.ok (left, settle b r)) := by
  rw [termLoop_succ]
  rcases getChar_settle b r t with ⟨_, hg, htb⟩ | ⟨b1, c, cs, hc, _, hst, hg⟩
  · rw [hg]; simp [htb]
  · have hne1 : c ≠ '*' := by intro h; subst h; exact hn1 hc
    have hne2 : c ≠ '/' := by intro h; subst h; exact hn2 hc
    rw [hg, hst]
    simp [toBool_clean, hne1, hne2, putback_clean]

theorem expressionLoop_stop {V : Type} (A : Arith V) (u : Indet V) (fuel : Nat)
    (left : Node V) (t : Char) (b r : List Char)
    (hn1 : nextTok r ≠ some '+') (hn2 : nextTok r ≠ some '-') :
    expressionLoop A u (fuel + 1) left t (settle b r) = some (.ok (left, settle b r)) := by
  rw [expressionLoop_succ]
  rcases getChar_settle b r t with ⟨_, hg, htb⟩ | ⟨b1, c, cs, hc, _, hst, hg⟩
  · rw [hg]; simp [htb]
  · have hne1 : c ≠ '+' := by intro h; subst h; exact hn1 hc
    have hne2 : c ≠ '-' := by intro h; subst h; exact hn2 hc
    rw [hg, hst]
    simp [toBool_clean, hne1, hne2, putback_clean]

theorem post_cons (e : Syn) (b : List Char) (c : Char) (r : List Char) :
    post e b (c :: r) = IStream.clean (e.render.reverse ++ b) (c :: r) := by
  simp [post, IStream.clean]

theorem post_fields (e : Syn) (b r : List Char) :
    (post e b r).failbit = false ∧ (post e b r).badbit = false
      ∧ ((post e b r).eofbit = true → (post e b r).rest = [])
      ∧ (post e b r).back = e.render.reverse ++ b ∧ (post e b r).rest = r := by
  simp [post]

theorem lift32 {V : Type} (A : Arith V) (u : Indet V) (e : Syn) (h : Spec3 A u e) :
    Spec2 A u e := by
  intro b r hr
  obtain ⟨N, hN⟩ := h b r hr
  refine ⟨N + 1, 1, by omega, ?_⟩
  intro fuel hfuel t
  obtain ⟨f, rfl⟩ : ∃ f, fuel = f + 1 := ⟨fuel - 1, by omega⟩
  rw [parseExponent_succ, hN f (by omega)]
  simp only [Nat.add_sub_cancel]
  exact exponentLoop_token A u f _ _ _ _

theorem ret2 {V : Type} (A : Arith V) (u : Indet V) (e : Syn) (h : Spec2 A u e) :
    Ret2 A u e := by
  intro b r hr hn
  obtain ⟨N, c, hc, hN⟩ := h b r hr
  refine ⟨N + c + 1, ?_⟩
  intro fuel hfuel
  rw [hN fuel (by omega) 'x']
  obtain ⟨f, hf⟩ : ∃ f, fuel - c = f + 1 := ⟨fuel - c - 1, by omega⟩
  obtain ⟨h1, h2, h3, h4, h5⟩ := post_fields e b r
  rw [hf, exponentLoop_stop A u f _ _ _ h1 h2 h3 (by rw [h5]; exact hn), h4, h5]

theorem lift21 {V : Type} (A : Arith V) (u : Indet V) (e : Syn) (h : Ret2 A u e) :
    Spec1 A u e := by
  intro b r hr hn
  obtain ⟨N, hN⟩ := h b r hr hn
  refine ⟨N + 1, 1, by omega, ?_⟩
  intro fuel hfuel t
  obtain ⟨f, rfl⟩ : ∃ f, fuel = f + 1 := ⟨fuel - 1, by omega⟩
  rw [parseTerm_succ, hN f (by omega)]
  simp only [Nat.add_sub_cancel]
  exact termLoop_token A u f _ _ _ _

theorem ret1 {V : Type} (A : Arith V) (u : Indet V) (e : Syn) (h : Spec1 A u e) :
    Ret1 A u e := by
  intro b r hr hn hn1 hn2
  obtain ⟨N, c, hc, hN⟩ := h b r hr hn
  refine ⟨N + c + 1, ?_⟩
  intro fuel hfuel
  rw [hN fuel (by omega) 'x']
  obtain ⟨f, hf⟩ : ∃ f, fuel - c = f + 1 := ⟨fuel - c - 1, by omega⟩
  rw [hf, termLoop_stop A u f _ _ _ _ hn1 hn2]

theorem lift10 {V : Type} (A : Arith V) (u : Indet V) (e : Syn) (h : Ret1 A u e) :
    Spec0 A u e := by
  intro b r hr hn hn1 hn2
  obtain ⟨N, hN⟩ := h b r hr hn hn1 hn2
  refine ⟨N + 1, 1, by omega, ?_⟩
  intro fuel hfuel t
  obtain ⟨f, rfl⟩ : ∃ f, fuel = f + 1 := ⟨fuel - 1, by omega⟩
  rw [parseExpression_succ, hN f (by omega)]
  simp only [Nat.add_sub_cancel]
  exact expressionLoop_token A u f _ _ _ _

theorem ret0 {V : Type} (A : Arith V) (u : Indet V) (e : Syn) (h : Spec0 A u e) :
    Ret0 A u e := by
  intro b r hr
  obtain ⟨hr0, hn, hn1, hn2, hn3, hn4⟩ := hr
  obtain ⟨N, c, hc, hN⟩ := h b r hr0 hn hn1 hn2
  refine ⟨N + c + 1, ?_⟩
  intro fuel hfuel
  rw [hN fuel (by omega) 'x']
  obtain ⟨f, hf⟩ : ∃ f, fuel - c = f + 1 := ⟨fuel - c - 1, by omega⟩
  rw [hf, expressionLoop_stop A u f _ _ _ _ hn3 hn4]

theorem nextTok_cons (c : Char) (r : List Char) (h : isspace c = false) :
    nextTok (c :: r) = some c := by
  simp [nextTok, h]

theorem step2 {V : Type} (A : Arith V) (u : Indet V) (l x : Syn)
    (hl : Spec2 A u l) (hx : Spec3 A u x) : Spec2 A u (.bin '^' l x) := by
  intro b r hr
  obtain ⟨N1, c, hc, h1⟩ := hl b ('^' :: (x.render ++ r)) (fun _ => rfl)
  obtain ⟨N2, h2⟩ := hx ('^' :: (l.render.reverse ++ b)) r hr
  refine ⟨N1 + N2 + c + 1, c + 1, by omega, ?_⟩
  intro fuel hfuel t
  have htext : (Syn.bin '^' l x).render ++ r = l.render ++ '^' :: (x.render ++ r) := by
    simp [Syn.render]
  rw [htext, h1 fuel (by omega) t]
  obtain ⟨f, hf⟩ : ∃ f, fuel - c = f + 1 := ⟨fuel - c - 1, by omega⟩
  have hf2 : fuel - (c + 1) = f := by omega
  rw [hf, hf2, exponentLoop_succ, post_cons, getChar_clean _ _ _ _ (by decide)]
  simp only [toBool_clean, decide_True, Bool.and_self, if_true]
  rw [h2 f (by omega)]
  simp only [Syn.tree]
  have hpost : post x ('^' :: (l.render.reverse ++ b)) r = post (.bin '^' l x) b r := by
    simp [post, Syn.render, Syn.endsLit]
  rw [hpost]
  exact exponentLoop_token A u f _ _ _ _

theorem step1 {V : Type} (A : Arith V) (u : Indet V) (op : Char) (l x : Syn)
    (hop : op = '*' ∨ op = '/') (hl : Spec1 A u l) (hx : Ret2 A u x) :
    Spec1 A u (.bin op l x) := by
  intro b r hr hn
  have hsp : isspace op = false := by rcases hop with h | h <;> (subst h; decide)
  have hns : numStop (op :: (x.render ++ r)) = true := by
    rcases hop with h | h <;> (subst h; rfl)
  have hpow : op ≠ '^' := by rcases hop with h | h <;> (subst h; decide)
  obtain ⟨N1, c, hc, h1⟩ := hl b (op :: (x.render ++ r)) (fun _ => hns)
    (by rw [nextTok_cons _ _ hsp]; simpa using hpow)
  obtain ⟨N2, h2⟩ := hx (op :: (l.render.reverse ++ b)) r hr hn
  refine ⟨N1 + N2 + c + 1, c + 1, by omega, ?_⟩
  intro fuel hfuel t
  have htext : (Syn.bin op l x).render ++ r = l.render ++ op :: (x.render ++ r) := by
    simp [Syn.render]
  rw [htext, h1 fuel (by omega) t]
  obtain ⟨f, hf⟩ : ∃ f, fuel - c = f + 1 := ⟨fuel - c - 1, by omega⟩
  have hf2 : fuel - (c + 1) = f := by omega
  have hopb : (decide (op = '*') || decide (op = '/')) = true := by
    rcases hop with h | h <;> simp [h]
  rw [hf, hf2, termLoop_succ, settle_cons _ _ _ hsp, getChar_clean _ _ _ _ hsp]
  simp only [toBool_clean, hopb, Bool.and_self, if_true]
  rw [h2 f (by omega)]
  simp only [Syn.tree]
  have hback : x.render.reverse ++ op :: (l.render.reverse ++ b)
      = (Syn.bin op l x).render.reverse ++ b := by
    simp [Syn.render]
  rw [hback]
  exact termLoop_token A u f _ _ _ _

theorem step0 {V : Type} (A : Arith V) (u : Indet V) (op : Char) (l x : Syn)
    (hop : op = '+' ∨ op = '-') (hl : Spec0 A u l) (hx : Ret1 A u x) :
    Spec0 A u (.bin op l x) := by
  intro b r hr hn hn1 hn2
  have hsp : isspace op = false := by rcases hop with h | h <;> (subst h; decide)
  have hns : numStop (op :: (x.render ++ r)) = true := by
    rcases hop with h | h <;> (subst h; rfl)
  have hpow : op ≠ '^' := by rcases hop with h | h <;> (subst h; decide)
  have hmul : op ≠ '*' := by rcases hop with h | h <;> (subst h; decide)
  have hdiv : op ≠ '/' := by rcases hop with h | h <;> (subst h; decide)
  obtain ⟨N1, c, hc, h1⟩ := hl b (op :: (x.render ++ r)) (fun _ => hns)
    (by rw [nextTok_cons _ _ hsp]; simpa using hpow)
    (by rw [nextTok_cons _ _ hsp]; simpa using hmul)
    (by rw [nextTok_cons _ _ hsp]; simpa using hdiv)
  obtain ⟨N2, h2⟩ := hx (op :: (l.render.reverse ++ b)) r hr hn hn1 hn2
  refine ⟨N1 + N2 + c + 1, c + 1, by omega, ?_⟩
  intro fuel hfuel t
  have htext : (Syn.bin op l x).render ++ r = l.render ++ op :: (x.render ++ r) := by
    simp [Syn.render]
  rw [htext, h1 fuel (by omega) t]
  obtain ⟨f, hf⟩ : ∃ f, fuel - c = f + 1 := ⟨fuel - c - 1, by omega⟩
  have hf2 : fuel - (c + 1) = f := by omega
  have hopb : (decide (op = '+') || decide (op = '-')) = true := by
    rcases hop with h | h <;> simp [h]
  rw [hf, hf2, expressionLoop_succ, settle_cons _ _ _ hsp, getChar_clean _ _ _ _ hsp]
  simp only [toBool_clean, hopb, Bool.and_self, if_true]
  rw [h2 f (by omega)]
  simp only [Syn.tree]
  have hback : x.render.reverse ++ op :: (l.render.reverse ++ b)
      = (Syn.bin op l x).render.reverse ++ b := by
    simp [Syn.render]
  rw [hback]
  exact expressionLoop_token A u f _ _ _ _

theorem parsePrimary_succ {V : Type} (A : Arith V) (u : Indet V) (fuel : Nat) (s : IStream) :
    parsePrimary A u (fuel + 1) s =
      if (getChar s u.token).2 = '-' then
        match parsePrimary A u fuel (getChar s u.token).1 with
        | some (.ok (right, s2)) => some (.ok (.operator 'u' none right, s2))
        | other => other
      else if (getChar s u.token).2 = '+' then
        match parsePrimary A u fuel (getChar s u.token).1 with
        | some (.ok (right, s2)) => some (.ok (.operator 'p' none right, s2))
        | other => other
      else if isdigit (getChar s u.token).2 || (getChar s u.token).2 = '.' then
        some (.ok (.operand (getDouble A (putback (getChar s u.token).1 (getChar s u.token).2)
            u.value).2,
          (getDouble A (putback (getChar s u.token).1 (getChar s u.token).2) u.value).1))
      else if (getChar s u.token).2 = '(' then
        match parseExpression A u fuel (getChar s u.token).1 with
        | some (.ok (node, s2)) =>
          if !(getChar s2 (getChar s u.token).2).1.toBool
              || (getChar s2 (getChar s u.token).2).2 ≠ ')' then
            some (.error "Mismatched parentheses")
          else some (.ok (node, (getChar s2 (getChar s u.token).2).1))
        | other => other
      else some (.error "Invalid expression") := by
  rw [parsePrimary]

theorem prim_neg {V : Type} (A : Arith V) (u : Indet V) (p : Syn) (h : Spec3 A u p) :
    Spec3 A u (.neg p) := by
  intro b r hr
  obtain ⟨N, hN⟩ := h ('-' :: b) r hr
  refine ⟨N + 1, ?_⟩
  intro fuel hfuel
  obtain ⟨f, rfl⟩ : ∃ f, fuel = f + 1 := ⟨fuel - 1, by omega⟩
  rw [parsePrimary_succ]
  simp only [Syn.render, List.cons_append, getChar_clean b '-' _ _ (by decide), if_true]
  rw [hN f (by omega)]
  simp [Syn.tree, post, Syn.render, Syn.endsLit]

theorem prim_pos {V : Type} (A : Arith V) (u : Indet V) (p : Syn) (h : Spec3 A u p) :
    Spec3 A u (.pos p) := by
  intro b r hr
  obtain ⟨N, hN⟩ := h ('+' :: b) r hr
  refine ⟨N + 1, ?_⟩
  intro fuel hfuel
  obtain ⟨f, rfl⟩ : ∃ f, fuel = f + 1 := ⟨fuel - 1, by omega⟩
  rw [parsePrimary_succ]
  simp only [Syn.render, List.cons_append, getChar_clean b '+' _ _ (by decide),
    show ('+' : Char) ≠ '-' by decide, if_false, if_true]
  rw [hN f (by omega)]
  simp [Syn.tree, post, Syn.render, Syn.endsLit]

theorem prim_paren {V : Type} (A : Arith V) (u : Indet V) (e : Syn) (h : Ret0 A u e) :
    Spec3 A u (.paren e) := by
  intro b r _
  have hnt : nextTok (')' :: r) = some ')' := nextTok_cons _ _ (by decide)
  obtain ⟨N, hN⟩ := h ('(' :: b) (')' :: r)
    ⟨fun _ => rfl, by rw [hnt]; decide, by rw [hnt]; decide, by rw [hnt]; decide,
      by rw [hnt]; decide, by rw [hnt]; decide⟩
  refine ⟨N + 1, ?_⟩
  intro fuel hfuel
  obtain ⟨f, rfl⟩ : ∃ f, fuel = f + 1 := ⟨fuel - 1, by omega⟩
  rw [parsePrimary_succ]
  simp only [Syn.render, List.cons_append, List.append_assoc, List.singleton_append,
    List.nil_append, getChar_clean b '(' _ _ (by decide),
    show ('(' : Char) ≠ '-' by decide, show ('(' : Char) ≠ '+' by decide,
    show (isdigit '(' || decide (('(' : Char) = '.')) = false by decide, if_false, if_true,
    Bool.false_eq_true]
  rw [hN f (by omega), settle_cons _ _ _ (by decide)]
  simp only [getChar_clean _ ')' _ _ (by decide)]
  simp [IStream.toBool, Syn.tree, post, Syn.render, Syn.endsLit, IStream.clean]

theorem parse_levels {V : Type} (A : Arith V) (u : Indet V) (e : Syn)
    (hwf : e.wf A = true) :
    (e.level = 3 → Spec3 A u e) ∧ (2 ≤ e.level → Spec2 A u e)
      ∧ (1 ≤ e.level → Spec1 A u e) ∧ Spec0 A u e := by
  induction e with
  | num ip fp =>
    have h3 : Spec3 A u (.num ip fp) := by
      intro b r hr
      exact ⟨1, fun fuel hfuel => by
        obtain ⟨f, rfl⟩ : ∃ f, fuel = f + 1 := ⟨fuel - 1, by omega⟩
        exact parsePrimary_num A u ip fp hwf b r (hr rfl) f⟩
    have h2 := lift32 A u _ h3
    have h1 := lift21 A u _ (ret2 A u _ h2)
    exact ⟨fun _ => h3, fun _ => h2, fun _ => h1, lift10 A u _ (ret1 A u _ h1)⟩
  | paren e ih =>
    have h3 : Spec3 A u (.paren e) := prim_paren A u e (ret0 A u e (ih hwf).2.2.2)
    have h2 := lift32 A u _ h3
    have h1 := lift21 A u _ (ret2 A u _ h2)
    exact ⟨fun _ => h3, fun _ => h2, fun _ => h1, lift10 A u _ (ret1 A u _ h1)⟩
  | neg p ih =>
    simp only [Syn.wf, Bool.and_eq_true, decide_eq_true_eq] at hwf
    have h3 : Spec3 A u (.neg p) := prim_neg A u p ((ih hwf.1).1 hwf.2)
    have h2 := lift32 A u _ h3
    have h1 := lift21 A u _ (ret2 A u _ h2)
    exact ⟨fun _ => h3, fun _ => h2, fun _ => h1, lift10 A u _ (ret1 A u _ h1)⟩
  | pos p ih =>
    simp only [Syn.wf, Bool.and_eq_true, decide_eq_true_eq] at hwf
    have h3 : Spec3 A u (.pos p) := prim_pos A u p ((ih hwf.1).1 hwf.2)
    have h2 := lift32 A u _ h3
    have h1 := lift21 A u _ (ret2 A u _ h2)
    exact ⟨fun _ => h3, fun _ => h2, fun _ => h1, lift10 A u _ (ret1 A u _ h1)⟩
  | bin op l x ihl ihx =>
    simp only [Syn.wf, Bool.and_eq_true] at hwf
    obtain ⟨⟨hwl, hwx⟩, hop⟩ := hwf
    by_cases hpow : op = '^'
    · subst hpow
      simp only [if_true, Bool.and_eq_true, decide_eq_true_eq] at hop
      have h2 : Spec2 A u (.bin '^' l x) :=
        step2 A u l x ((ihl hwl).2.1 hop.1) ((ihx hwx).1 hop.2)
      have h1 := lift21 A u _ (ret2 A u _ h2)
      exact ⟨fun h => by simp [Syn.level] at h, fun _ => h2, fun _ => h1,
        lift10 A u _ (ret1 A u _ h1)⟩
    · by_cases hmul : op = '*' ∨ op = '/'
      · have hmb : (decide (op = '*') || decide (op = '/')) = true := by
          rcases hmul with h | h <;> simp [h]
        simp only [hpow, if_false, hmb, if_true, Bool.and_eq_true, decide_eq_true_eq] at hop
        have h1 : Spec1 A u (.bin op l x) :=
          step1 A u op l x hmul ((ihl hwl).2.2.1 hop.1) (ret2 A u _ ((ihx hwx).2.1 hop.2))
        exact ⟨fun h => by simp [Syn.level, hpow, hmb] at h,
          fun h => by simp [Syn.level, hpow, hmb] at h, fun _ => h1,
          lift10 A u _ (ret1 A u _ h1)⟩
      · have hmb : (decide (op = '*') || decide (op = '/')) = false := by
          simp only [not_or] at hmul
          simp [hmul.1, hmul.2]
        simp only [hpow, if_false, hmb, Bool.false_eq_true] at hop
        by_cases hadd : op = '+' ∨ op = '-'
        · have hab : (decide (op = '+') || decide (op = '-')) = true := by
            rcases hadd with h | h <;> simp [h]
          simp only [hab, if_true, decide_eq_true_eq] at hop
          have h0 : Spec0 A u (.bin op l x) :=
            step0 A u op l x hadd (ihl hwl).2.2.2 (ret1 A u _ ((ihx hwx).2.2.1 hop))
          exact ⟨fun h => by simp [Syn.level, hpow, hmb] at h,
            fun h => by simp [Syn.level, hpow, hmb] at h,
            fun h => by simp [Syn.level, hpow, hmb] at h, h0⟩
        · have hab : (decide (op = '+') || decide (op = '-')) = false := by
            simp only [not_or] at hadd
            simp [hadd.1, hadd.2]
          simp [hab] at hop

/-- The parser on a well-formed text followed by something that does not continue it:
`parseExpression` returns the tree of the grammar and leaves the stream settled right
after the text. -/
theorem parseExpression_wf {V : Type} (A : Arith V) (u : Indet V) (e : Syn)
    (hwf : e.wf A = true) (b r : List Char) (hr : Ends e r) :
    ∃ N, ∀ fuel, N ≤ fuel →
      parseExpression A u fuel (IStream.clean b (e.render ++ r))
        = some (.ok (e.tree A, settle (e.render.reverse ++ b) r)) :=
  ret0 A u e (parse_levels A u e hwf).2.2.2 b r hr

theorem mk0_clean (text : List Char) : IStream.mk0 text = IStream.clean [] text := rfl

theorem parseText_wf {V : Type} (A : Arith V) (u : Indet V) (e : Syn)
    (hwf : e.wf A = true) (r : List Char) (hr : Ends e r) :
    ∃ N, ∀ fuel, N ≤ fuel → parseText A u fuel (e.render ++ r) = some (.ok (e.tree A)) := by
  obtain ⟨N, hN⟩ := parseExpression_wf A u e hwf [] r hr
  exact ⟨N, fun fuel hfuel => by simp [parseText, mk0_clean, hN fuel hfuel]⟩

theorem ends_nil (e : Syn) : Ends e [] :=
  ⟨fun _ => rfl, by simp [nextTok], by simp [nextTok], by simp [nextTok], by simp [nextTok],
    by simp [nextTok]⟩

theorem parseText_wf_nil {V : Type} (A : Arith V) (u : Indet V) (e : Syn)
    (hwf : e.wf A = true) :
    ∃ N, ∀ fuel, N ≤ fuel → parseText A u fuel e.render = some (.ok (e.tree A)) := by
  obtain ⟨N, hN⟩ := parseText_wf A u e hwf [] (ends_nil e)
  exact ⟨N, fun fuel hfuel => by simpa using hN fuel hfuel⟩

theorem evaluate_binary {V : Type} (A : Arith V) (op : Char) (l r : Node V) (lv rv : V)
    (hl : evaluate A l = .ok lv) (hr : evaluate A r = .ok rv) :
    evaluate A (.operator op (some l) r) =
      if op = '+' then .ok (A.add lv rv)
      else if op = '-' then .ok (A.sub lv rv)
      else if op = '*' then .ok (A.mul lv rv)
      else if op = '/' then
        if A.eq rv A.zero then .error "Division by zero" else .ok (A.div lv rv)
      else if op = '^' then .ok (A.pow lv rv)
      else if op = 'u' then .ok (A.neg rv)
      else if op = 'p' then .ok rv
      else .error "Unknown operator" := by
  rw [evaluate, hl, hr]

theorem evaluate_unary {V : Type} (A : Arith V) (op : Char) (r : Node V) (rv : V)
    (hr : evaluate A r = .ok rv) :
    evaluate A (.operator op none r) =
      if op = '+' then .ok (A.add A.zero rv)
      else if op = '-' then .ok (A.sub A.zero rv)
      else if op = '*' then .ok (A.mul A.zero rv)
      else if op = '/' then
        if A.eq rv A.zero then .error "Division by zero" else .ok (A.div A.zero rv)
      else if op = '^' then .ok (A.pow A.zero rv)
      else if op = 'u' then .ok (A.neg rv)
      else if op = 'p' then .ok rv
      else .error "Unknown operator" := by
  rw [evaluate, hr]

/-- On a well-formed text without a zero divisor the tree evaluates to the value of the
text. -/
theorem evaluate_tree {V : Type} (A : Arith V) (e : Syn) (hwf : e.wf A = true)
    (hsafe : e.divSafe A = true) : evaluate A (e.tree A) = .ok (e.value A) := by
  induction e with
  | num ip fp => simp [Syn.tree, Syn.value, evaluate]
  | paren e ih => exact ih hwf hsafe
  | neg p ih =>
    simp only [Syn.wf, Bool.and_eq_true] at hwf
    simp only [Syn.tree, Syn.value]
    rw [evaluate_unary A 'u' _ _ (ih hwf.1 hsafe)]
    rfl
  | pos p ih =>
    simp only [Syn.wf, Bool.and_eq_true] at hwf
    simp only [Syn.tree, Syn.value]
    rw [evaluate_unary A 'p' _ _ (ih hwf.1 hsafe)]
    rfl
  | bin op l r ihl ihr =>
    simp only [Syn.wf, Bool.and_eq_true] at hwf
    simp only [Syn.divSafe, Bool.and_eq_true, Bool.or_eq_true, Bool.not_eq_true',
      decide_eq_false_iff_not] at hsafe
    obtain ⟨⟨hwl, hwr⟩, hop⟩ := hwf
    obtain ⟨⟨hsl, hsr⟩, hz⟩ := hsafe
    simp only [Syn.tree, Syn.value]
    rw [evaluate_binary A op _ _ _ _ (ihl hwl hsl) (ihr hwr hsr)]
    by_cases h1 : op = '+'
    · simp [h1]
    by_cases h2 : op = '-'
    · simp [h2]
    by_cases h3 : op = '*'
    · simp [h3]
    by_cases h4 : op = '/'
    · have hz' : A.eq (r.value A) A.zero = false := by
        rcases hz with h | h
        · exact absurd h4 h
        · exact h
      simp [h4, hz']
    by_cases h5 : op = '^'
    · simp [h5]
    · simp [h1, h2, h3, h4, h5] at hop


theorem level_pow (l r : Syn) : (Syn.bin '^' l r).level = 2 := rfl

theorem level_neg (p : Syn) : (Syn.neg p).level = 3 := rfl

theorem level_pos (p : Syn) : (Syn.pos p).level = 3 := rfl

theorem level_paren (e : Syn) : (Syn.paren e).level = 3 := rfl

theorem level_num (ip : List Char) (fp : Option (List Char)) : (Syn.num ip fp).level = 3 := rfl

theorem applySigns_parity {V : Type} (A : Arith V) (hinv : ∀ x, A.neg (A.neg x) = x) (v : V)
    (signs : List Char) :
    applySigns A v signs = if signs.count '-' % 2 = 0 then v else A.neg v := by
  induction signs with
  | nil => rfl
  | cons c cs ih =>
    by_cases hc : c = '-'
    · subst hc
      simp only [applySigns, if_true, List.count_cons_self, ih]
      by_cases hpar : List.count '-' cs % 2 = 0
      · have : (List.count '-' cs + 1) % 2 ≠ 0 := by omega
        simp [hpar, this]
      · have : (List.count '-' cs + 1) % 2 = 0 := by omega
        simp [hpar, this, hinv]
    · simp only [applySigns, hc, if_false, ih]
      rw [List.count_cons_of_ne (Ne.symm hc)]

/-! ## Failures -/

theorem nextTok_ws (ws : List Char) (hws : ∀ w ∈ ws, isspace w = true) (c : Char)
    (hc : isspace c = false) (rest : List Char) : nextTok (ws ++ c :: rest) = some c := by
  induction ws with
  | nil => exact nextTok_cons c rest hc
  | cons w ws ih =>
    have hw : isspace w = true := hws w (by simp)
    simp only [List.cons_append, nextTok, hw, if_true]
    exact ih (fun d hd => hws d (by simp [hd]))

theorem parsePrimary_invalid {V : Type} (A : Arith V) (u : Indet V) (fuel : Nat)
    (s : IStream) (hf : s.failbit = false) (hb : s.badbit = false)
    (he : s.eofbit = true → s.rest = []) (c : Char) (hn : nextTok s.rest = some c)
    (h1 : c ≠ '-') (h2 : c ≠ '+') (h3 : isdigit c = false) (h4 : c ≠ '.') (h5 : c ≠ '(') :
    parsePrimary A u (fuel + 1) s = some (.error "Invalid expression") := by
  rcases getChar_cases s u.token hf hb he with ⟨hnone, _, _⟩ | ⟨b1, d, cs, hd, _, _, hg⟩
  · rw [hnone] at hn; exact Option.noConfusion hn
  · rw [hn] at hd
    simp only [Option.some.injEq] at hd
    subst hd
    rw [parsePrimary_succ]
    simp only [hg, h1, h2, h3, h4, h5, if_false, Bool.false_eq_true, Bool.or_self,
      decide_False]

theorem parseExponent_error {V : Type} (A : Arith V) (u : Indet V) (fuel : Nat) (s : IStream)
    (m : String) (h : parsePrimary A u fuel s = some (.error m)) :
    parseExponent A u (fuel + 1) s = some (.error m) := by
  rw [parseExponent_succ, h]

theorem parseTerm_error {V : Type} (A : Arith V) (u : Indet V) (fuel : Nat) (s : IStream)
    (m : String) (h : parseExponent A u fuel s = some (.error m)) :
    parseTerm A u (fuel + 1) s = some (.error m) := by
  rw [parseTerm_succ, h]

theorem parseExpression_error {V : Type} (A : Arith V) (u : Indet V) (fuel : Nat)
    (s : IStream) (m : String) (h : parseTerm A u fuel s = some (.error m)) :
    parseExpression A u (fuel + 1) s = some (.error m) := by
  rw [parseExpression_succ, h]

/-- An exception thrown by `parsePrimary` at the start of the text reaches the caller of
`parseExpression`. -/
theorem parseText_error {V : Type} (A : Arith V) (u : Indet V) (fuel : Nat)
    (text : List Char) (m : String)
    (h : parsePrimary A u fuel (IStream.mk0 text) = some (.error m)) :
    parseText A u (fuel + 3) text = some (.error m) := by
  have h1 := parseExpression_error A u _ _ m
    (parseTerm_error A u _ _ m (parseExponent_error A u _ _ m h))
  simp [parseText, h1]

theorem termLoop_error {V : Type} (A : Arith V) (u : Indet V) (fuel : Nat) (left : Node V)
    (t op : Char) (b r : List Char) (hop : op = '*' ∨ op = '/') (m : String)
    (h : parseExponent A u fuel (IStream.clean (op :: b) r) = some (.error m)) :
    termLoop A u (fuel + 1) left t (settle b (op :: r)) = some (.error m) := by
  have hsp : isspace op = false := by rcases hop with h | h <;> (subst h; decide)
  have hopb : (decide (op = '*') || decide (op = '/')) = true := by
    rcases hop with h | h <;> simp [h]
  rw [termLoop_succ, settle_cons _ _ _ hsp, getChar_clean _ _ _ _ hsp]
  simp only [toBool_clean, hopb, Bool.and_self, if_true]
  rw [h]

theorem expressionLoop_error {V : Type} (A : Arith V) (u : Indet V) (fuel : Nat)
    (left : Node V) (t op : Char) (b r : List Char) (hop : op = '+' ∨ op = '-') (m : String)
    (h : parseTerm A u fuel (IStream.clean (op :: b) r) = some (.error m)) :
    expressionLoop A u (fuel + 1) left t (settle b (op :: r)) = some (.error m) := by
  have hsp : isspace op = false := by rcases hop with h | h <;> (subst h; decide)
  have hopb : (decide (op = '+') || decide (op = '-')) = true := by
    rcases hop with h | h <;> simp [h]
  rw [expressionLoop_succ, settle_cons _ _ _ hsp, getChar_clean _ _ _ _ hsp]
  simp only [toBool_clean, hopb, Bool.and_self, if_true]
  rw [h]

theorem parsePrimary_paren_error {V : Type} (A : Arith V) (u : Indet V) (fuel : Nat)
    (b r : List Char) (m : String)
    (h : parseExpression A u fuel (IStream.clean ('(' :: b) r) = some (.error m)) :
    parsePrimary A u (fuel + 1) (IStream.clean b ('(' :: r)) = some (.error m) := by
  rw [parsePrimary_succ]
  simp only [getChar_clean b '(' _ _ (by decide),
    show ('(' : Char) ≠ '-' by decide, show ('(' : Char) ≠ '+' by decide,
    show (isdigit '(' || decide (('(' : Char) = '.')) = false by decide, if_false, if_true,
    Bool.false_eq_true]
  rw [h]

/-- After a well-formed text that ends where the next token is not `)`, the primary
opened by `(` throws "Mismatched parentheses". -/
theorem parsePrimary_mismatched {V : Type} (A : Arith V) (u : Indet V) (e : Syn)
    (hwf : e.wf A = true) (b r : List Char) (hr : Ends e r) (hclose : nextTok r ≠ some ')') :
    ∃ N, ∀ fuel, N ≤ fuel →
      parsePrimary A u fuel (IStream.clean b ('(' :: (e.render ++ r)))
        = some (.error "Mismatched parentheses") := by
  obtain ⟨N, hN⟩ := parseExpression_wf A u e hwf ('(' :: b) r hr
  refine ⟨N + 1, fun fuel hfuel => ?_⟩
  obtain ⟨f, rfl⟩ : ∃ f, fuel = f + 1 := ⟨fuel - 1, by omega⟩
  rw [parsePrimary_succ]
  simp only [getChar_clean b '(' _ _ (by decide),
    show ('(' : Char) ≠ '-' by decide, show ('(' : Char) ≠ '+' by decide,
    show (isdigit '(' || decide (('(' : Char) = '.')) = false by decide, if_false, if_true,
    Bool.false_eq_true]
  rw [hN f (by omega)]
  rcases getChar_settle (e.render.reverse ++ '(' :: b) r '(' with
    ⟨_, hg, htb⟩ | ⟨b1, c, cs, hc, _, _, hg⟩
  · simp [hg, htb]
  · have hne : c ≠ ')' := by intro h; subst h; exact hclose hc
    simp [hg, hne]


/-! ## The end of input where an operand is expected -/

theorem getChar_failed (s : IStream) (t : Char) (h : s.failbit = true) :
    getChar s t = (s, t) := by
  obtain ⟨b, r, e, f, bd⟩ := s
  simp only at h
  subst h
  simp [getChar, sentry, IStream.good]

theorem getChar_eof (b : List Char) (t : Char) :
    getChar (IStream.clean b []) t = (⟨b, [], true, true, false⟩, t) := by
  simp [getChar, sentry, IStream.good, IStream.clean, skipws]

theorem exponentLoop_failed {V : Type} (A : Arith V) (u : Indet V) (fuel : Nat)
    (left : Node V) (t : Char) (s : IStream) (h : s.failbit = true) :
    exponentLoop A u (fuel + 1) left t s = some (.ok (left, s)) := by
  rw [exponentLoop_succ, getChar_failed s t h]
  simp [IStream.toBool, h]

theorem termLoop_failed {V : Type} (A : Arith V) (u : Indet V) (fuel : Nat)
    (left : Node V) (t : Char) (s : IStream) (h : s.failbit = true) :
    termLoop A u (fuel + 1) left t s = some (.ok (left, s)) := by
  rw [termLoop_succ, getChar_failed s t h]
  simp [IStream.toBool, h]

theorem expressionLoop_failed {V : Type} (A : Arith V) (u : Indet V) (fuel : Nat)
    (left : Node V) (t : Char) (s : IStream) (h : s.failbit = true) :
    expressionLoop A u (fuel + 1) left t s = some (.ok (left, s)) := by
  rw [expressionLoop_succ, getChar_failed s t h]
  simp [IStream.toBool, h]

/-- At the end of input `parsePrimary` branches on the content `token` had before the
failed extraction: when that content is a digit, it returns an operand holding the
content `value` had, and throws nothing. -/
theorem parsePrimary_eof_digit {V : Type} (A : Arith V) (u : Indet V) (fuel : Nat)
    (b : List Char) (hd : isdigit u.token = true) :
    parsePrimary A u (fuel + 1) (IStream.clean b [])
      = some (.ok (.operand u.value, ⟨b, [], false, true, false⟩)) := by
  have h1 : u.token ≠ '-' := by intro h; rw [h] at hd; exact absurd hd (by decide)
  have h2 : u.token ≠ '+' := by intro h; rw [h] at hd; exact absurd hd (by decide)
  rw [parsePrimary_succ]
  simp only [getChar_eof, h1, h2, if_false, hd, Bool.true_or, if_true]
  simp [putback, sentry, IStream.good, getDouble]

theorem parseTerm_eof_digit {V : Type} (A : Arith V) (u : Indet V) (fuel : Nat)
    (b : List Char) (hd : isdigit u.token = true) :
    parseTerm A u (fuel + 3) (IStream.clean b [])
      = some (.ok (.operand u.value, ⟨b, [], false, true, false⟩)) := by
  rw [parseTerm_succ, parseExponent_succ, parsePrimary_eof_digit A u fuel b hd]
  simp only []
  rw [exponentLoop_failed A u fuel _ _ _ rfl]
  simp only []
  rw [termLoop_failed A u (fuel + 1) _ _ _ rfl]

/-- At the end of input, when the content `token` had is `-`, `parsePrimary` calls itself
on the same failed stream and never returns. -/
theorem parsePrimary_failed_minus {V : Type} (A : Arith V) (u : Indet V)
    (hm : u.token = '-') (fuel : Nat) (s : IStream) (h : s.failbit = true) :
    parsePrimary A u fuel s = none := by
  induction fuel with
  | zero => rw [parsePrimary]
  | succ n ih =>
    rw [parsePrimary_succ, getChar_failed s _ h]
    simp only [hm, if_true, ih]

theorem parseText_eof_minus {V : Type} (A : Arith V) (u : Indet V) (hm : u.token = '-')
    (fuel : Nat) : parseText A u fuel [] = none := by
  have hP : ∀ n, parsePrimary A u n (IStream.mk0 []) = none := by
    intro n
    cases n with
    | zero => rw [parsePrimary]
    | succ n =>
      rw [parsePrimary_succ, mk0_clean, getChar_eof]
      simp only [hm, if_true]
      rw [parsePrimary_failed_minus A u hm n ⟨[], [], true, true, false⟩ rfl]
  have hE : ∀ n, parseExponent A u n (IStream.mk0 []) = none := by
    intro n
    cases n with
    | zero => rw [parseExponent]
    | succ n => rw [parseExponent_succ, hP n]
  have hT : ∀ n, parseTerm A u n (IStream.mk0 []) = none := by
    intro n
    cases n with
    | zero => rw [parseTerm]
    | succ n => rw [parseTerm_succ, hE n]
  have hX : ∀ n, parseExpression A u n (IStream.mk0 []) = none := by
    intro n
    cases n with
    | zero => rw [parseExpression]
    | succ n => rw [parseExpression_succ, hT n]
  simp [parseText, hX fuel]

theorem expressionLoop_step {V : Type} (A : Arith V) (u : Indet V) (fuel : Nat)
    (left right : Node V) (t op : Char) (b r : List Char) (hop : op = '+' ∨ op = '-')
    (s2 : IStream)
    (h : parseTerm A u fuel (IStream.clean (op :: b) r) = some (.ok (right, s2))) :
    expressionLoop A u (fuel + 1) left t (settle b (op :: r))
      = expressionLoop A u fuel (.operator op (some left) right) op s2 := by
  have hsp : isspace op = false := by rcases hop with h | h <;> (subst h; decide)
  have hopb : (decide (op = '+') || decide (op = '-')) = true := by
    rcases hop with h | h <;> simp [h]
  rw [expressionLoop_succ, settle_cons _ _ _ hsp, getChar_clean _ _ _ _ hsp]
  simp only [toBool_clean, hopb, Bool.and_self, if_true]
  rw [h]


/-! ## The properties -/

/-- C1 as amended: for every expression text built from integer numerals that convert to
`double` without overflow, the binary operators `+ - * /` and parentheses by the grammar
in which `*` and `/` bind tighter than `+` and `-` and equal operators associate to the
left, with no zero divisor, `parseExpression` returns a tree and `evaluate` on it returns
the value of the text under that reading. -/
theorem C1_standard_arithmetic {V : Type} (A : Arith V) (u : Indet V) (e : Syn)
    (hwf : e.wf A = true) (_harith : e.arith = true) (hsafe : e.divSafe A = true) :
    ∃ N, ∀ fuel, N ≤ fuel →
      ∃ root, parseText A u fuel e.render = some (.ok root)
        ∧ evaluate A root = .ok (e.value A) := by
  obtain ⟨N, hN⟩ := parseText_wf_nil A u e hwf
  exact ⟨N, fun fuel hfuel => ⟨e.tree A, hN fuel hfuel, evaluate_tree A e hwf hsafe⟩⟩

/-- C1 as amended, at `8-3-2` and at `2+3*4`, with exact arithmetic: the values are 3
and 14. -/
theorem C1_standard_arithmetic_witness :
    (∃ N, ∀ fuel, N ≤ fuel →
      ∃ root, parseText fracArith junk fuel "8-3-2".toList = some (.ok root)
        ∧ evaluate fracArith root = .ok ⟨3, 1⟩)
    ∧ (∃ N, ∀ fuel, N ≤ fuel →
      ∃ root, parseText fracArith junk fuel "2+3*4".toList = some (.ok root)
        ∧ evaluate fracArith root = .ok ⟨14, 1⟩) :=
  ⟨C1_standard_arithmetic fracArith junk
      (.bin '-' (.bin '-' (.int ['8']) (.int ['3'])) (.int ['2']))
      (by decide) (by decide) (by decide),
   C1_standard_arithmetic fracArith junk
      (.bin '+' (.int ['2']) (.bin '*' (.int ['3']) (.int ['4'])))
      (by decide) (by decide) (by decide)⟩


/-- C2 as amended: for all primaries `a`, `b`, `c` whose numerals convert to `double`
without overflow, the text `a^b^c` is parsed into
`Operator('^', Operator('^', A, B), C)`, and for each of the operators `* / + -` the text
`a op b^c` is parsed into `Operator(op, A, Operator('^', B, C))`. -/
theorem C2_power_binds_tighter_folds_left {V : Type} (A : Arith V) (u : Indet V)
    (a b c : Syn) (ha : a.wf A = true) (hb : b.wf A = true) (hc : c.wf A = true)
    (hla : a.level = 3) (hlb : b.level = 3) (hlc : c.level = 3) :
    (∃ N, ∀ fuel, N ≤ fuel →
      parseText A u fuel (a.render ++ '^' :: (b.render ++ '^' :: c.render))
        = some (.ok (.operator '^'
            (some (.operator '^' (some (a.tree A)) (b.tree A))) (c.tree A))))
    ∧ (∀ op, op = '*' ∨ op = '/' ∨ op = '+' ∨ op = '-' →
      ∃ N, ∀ fuel, N ≤ fuel →
        parseText A u fuel (a.render ++ op :: (b.render ++ '^' :: c.render))
          = some (.ok (.operator op (some (a.tree A))
              (.operator '^' (some (b.tree A)) (c.tree A))))) := by
  constructor
  · have hwf : (Syn.bin '^' (.bin '^' a b) c).wf A = true := by
      simp [Syn.wf, ha, hb, hc, hla, hlb, hlc, level_pow]
    obtain ⟨N, hN⟩ := parseText_wf_nil A u _ hwf
    exact ⟨N, fun fuel hfuel => by simpa [Syn.render, Syn.tree] using hN fuel hfuel⟩
  · intro op hop
    have hwf : (Syn.bin op a (.bin '^' b c)).wf A = true := by
      rcases hop with h | h | h | h <;> subst h <;>
        simp [Syn.wf, ha, hb, hc, hla, hlb, hlc, level_pow]
    obtain ⟨N, hN⟩ := parseText_wf_nil A u _ hwf
    exact ⟨N, fun fuel hfuel => by simpa [Syn.render, Syn.tree] using hN fuel hfuel⟩

/-- C2 as amended, at `2^3^2` and `2*3^2`, with exact arithmetic: the first tree is the left fold
and evaluates to 64. -/
theorem C2_power_binds_tighter_folds_left_witness :
    ((∃ N, ∀ fuel, N ≤ fuel →
      parseText fracArith junk fuel "2^3^2".toList
        = some (.ok (.operator '^'
            (some (.operator '^' (some (.operand ⟨2, 1⟩)) (.operand ⟨3, 1⟩)))
            (.operand ⟨2, 1⟩))))
    ∧ (∀ op, op = '*' ∨ op = '/' ∨ op = '+' ∨ op = '-' →
      ∃ N, ∀ fuel, N ≤ fuel →
        parseText fracArith junk fuel ("2".toList ++ op :: "3^2".toList)
          = some (.ok (.operator op (some (.operand ⟨2, 1⟩))
              (.operator '^' (some (.operand ⟨3, 1⟩)) (.operand ⟨2, 1⟩))))))
    ∧ evaluate fracArith (.operator '^'
        (some (.operator '^' (some (.operand ⟨2, 1⟩)) (.operand ⟨3, 1⟩)))
        (.operand ⟨2, 1⟩)) = .ok ⟨64, 1⟩ :=
  ⟨C2_power_binds_tighter_folds_left fracArith junk (.int ['2']) (.int ['3']) (.int ['2'])
      (by decide) (by decide) (by decide) (by decide) (by decide) (by decide),
    by rfl⟩

/-- C3 as amended: for all integer numerals `a` and `b` that convert to `double` without
overflow, the text `-a^b` is parsed into
`Operator('^', Operator('u', absent, Operand a), Operand b)` and evaluates to
`pow (-a) b`: the sign binds tighter than `^`. -/
theorem C3_sign_binds_tighter_than_power {V : Type} (A : Arith V) (u : Indet V)
    (a b : List Char) (ha : (Syn.int a).wf A = true) (hb : (Syn.int b).wf A = true) :
    (∃ N, ∀ fuel, N ≤ fuel →
      parseText A u fuel ('-' :: (a ++ '^' :: b))
        = some (.ok (.operator '^'
            (some (.operator 'u' none (.operand (litValue A a []))))
            (.operand (litValue A b [])))))
    ∧ evaluate A (.operator '^'
          (some (.operator 'u' none (.operand (litValue A a []))))
          (.operand (litValue A b [])))
        = .ok (A.pow (A.neg (litValue A a [])) (litValue A b [])) := by
  constructor
  · have hwf : (Syn.bin '^' (.neg (.int a)) (.int b)).wf A = true := by
      simp [Syn.wf, level_neg, level_num, Syn.int] at ha hb ⊢
      exact ⟨ha, hb⟩
    obtain ⟨N, hN⟩ := parseText_wf_nil A u _ hwf
    exact ⟨N, fun fuel hfuel => by
      simpa [Syn.render, Syn.tree, Syn.int, fracText, fracDigits] using hN fuel hfuel⟩
  · rfl

/-- C3 as amended, at `-2^2`, with exact arithmetic: the value is `(-2)^2 = 4`. -/
theorem C3_sign_binds_tighter_than_power_witness :
    (∃ N, ∀ fuel, N ≤ fuel →
      parseText fracArith junk fuel "-2^2".toList
        = some (.ok (.operator '^'
            (some (.operator 'u' none (.operand ⟨2, 1⟩))) (.operand ⟨2, 1⟩))))
    ∧ evaluate fracArith (.operator '^'
          (some (.operator 'u' none (.operand ⟨2, 1⟩))) (.operand ⟨2, 1⟩))
        = .ok ⟨4, 1⟩ :=
  C3_sign_binds_tighter_than_power fracArith junk ['2'] ['2'] (by decide) (by decide)


/-- C4: for every sequence of `+` and `-` signs followed by a numeral of value `v`, the
text is parsed and evaluates to `v` with one negation applied per `-`; wherever negation
is an involution this is `v` for an even number of `-` signs and `-v` for an odd one. -/
theorem C4_repeated_signs {V : Type} (A : Arith V) (u : Indet V) (signs ip : List Char)
    (fp : Option (List Char)) (hs : ∀ c ∈ signs, c = '+' ∨ c = '-')
    (hwf : (Syn.num ip fp).wf A = true) :
    ∃ N, ∀ fuel, N ≤ fuel →
      ∃ root, parseText A u fuel (signs ++ (Syn.num ip fp).render) = some (.ok root)
        ∧ evaluate A root = .ok (applySigns A (litValue A ip (fracDigits fp)) signs)
        ∧ ((∀ x, A.neg (A.neg x) = x) →
            evaluate A root = .ok (if signs.count '-' % 2 = 0
              then litValue A ip (fracDigits fp)
              else A.neg (litValue A ip (fracDigits fp)))) := by
  have hsyn : (Syn.signed ip fp signs).wf A = true ∧ (Syn.signed ip fp signs).level = 3
      ∧ (Syn.signed ip fp signs).render = signs ++ (Syn.num ip fp).render
      ∧ evaluate A ((Syn.signed ip fp signs).tree A)
          = .ok (applySigns A (litValue A ip (fracDigits fp)) signs) := by
    induction signs with
    | nil => exact ⟨hwf, rfl, rfl, rfl⟩
    | cons c cs ih =>
      obtain ⟨h1, h2, h3, h4⟩ := ih (fun d hd => hs d (by simp [hd]))
      rcases hs c (by simp) with h | h
      · subst h
        refine ⟨?_, rfl, ?_, ?_⟩
        · simp [Syn.signed, Syn.wf, h1, h2]
        · simp [Syn.signed, Syn.render, h3]
        · simp only [Syn.signed, show ('+' : Char) ≠ '-' by decide, if_false, Syn.tree,
            applySigns]
          rw [evaluate_unary A 'p' _ _ h4]
          rfl
      · subst h
        refine ⟨?_, rfl, ?_, ?_⟩
        · simp [Syn.signed, Syn.wf, h1, h2]
        · simp [Syn.signed, Syn.render, h3]
        · simp only [Syn.signed, if_true, Syn.tree, applySigns]
          rw [evaluate_unary A 'u' _ _ h4]
          rfl
  obtain ⟨h1, _, h3, h4⟩ := hsyn
  obtain ⟨N, hN⟩ := parseText_wf_nil A u _ h1
  refine ⟨N, fun fuel hfuel => ⟨_, by rw [← h3]; exact hN fuel hfuel, h4, ?_⟩⟩
  intro hinv
  rw [h4, applySigns_parity A hinv]

/-- C4 at `--5` and `-+5`, with exact arithmetic: the values are 5 and -5. -/
theorem C4_repeated_signs_witness :
    (∃ N, ∀ fuel, N ≤ fuel →
      ∃ root, parseText fracArith junk fuel "--5".toList = some (.ok root)
        ∧ evaluate fracArith root = .ok ⟨5, 1⟩
        ∧ ((∀ x, fracArith.neg (fracArith.neg x) = x) → evaluate fracArith root = .ok ⟨5, 1⟩))
    ∧ (∃ N, ∀ fuel, N ≤ fuel →
      ∃ root, parseText fracArith junk fuel "-+5".toList = some (.ok root)
        ∧ evaluate fracArith root = .ok ⟨-5, 1⟩
        ∧ ((∀ x, fracArith.neg (fracArith.neg x) = x) → evaluate fracArith root = .ok ⟨-5, 1⟩))
    ∧ (∀ x, fracArith.neg (fracArith.neg x) = x) :=
  ⟨C4_repeated_signs fracArith junk ['-', '-'] ['5'] none (by decide) (by decide),
   C4_repeated_signs fracArith junk ['-', '+'] ['5'] none (by decide) (by decide),
   fun x => by simp [fracArith]⟩


/-- C5 as amended: for every well-formed text `e` whose numerals convert to `double`
without overflow, the text `(e)` is parsed into exactly the tree of `e`, with no node for
the parentheses; and in front of `*` or `/` the parenthesized text is, as a whole, the
left operand, whatever operators `e` contains. -/
theorem C5_parentheses_group {V : Type} (A : Arith V) (u : Indet V) (e : Syn)
    (hwf : e.wf A = true) :
    (∃ N, ∀ fuel, N ≤ fuel →
      parseText A u fuel ('(' :: (e.render ++ [')'])) = some (.ok (e.tree A))
        ∧ parseText A u fuel e.render = some (.ok (e.tree A)))
    ∧ (∀ (op : Char) (x : Syn), op = '*' ∨ op = '/' → x.wf A = true → 2 ≤ x.level →
      ∃ N, ∀ fuel, N ≤ fuel →
        parseText A u fuel ('(' :: (e.render ++ [')']) ++ op :: x.render)
          = some (.ok (.operator op (some (e.tree A)) (x.tree A)))) := by
  constructor
  · obtain ⟨N1, h1⟩ := parseText_wf_nil A u (.paren e) hwf
    obtain ⟨N2, h2⟩ := parseText_wf_nil A u e hwf
    exact ⟨N1 + N2, fun fuel hfuel =>
      ⟨by simpa [Syn.render, Syn.tree] using h1 fuel (by omega), h2 fuel (by omega)⟩⟩
  · intro op x hop hx hlx
    have hwf2 : (Syn.bin op (.paren e) x).wf A = true := by
      rcases hop with h | h <;> subst h <;> simp [Syn.wf, hwf, hx, hlx, level_paren]
    obtain ⟨N, hN⟩ := parseText_wf_nil A u _ hwf2
    exact ⟨N, fun fuel hfuel => by simpa [Syn.render, Syn.tree] using hN fuel hfuel⟩

/-- C5 as amended, at `2+3`, with exact arithmetic: `(2+3)` and `2+3` give the same tree,
`(2+3)*4` is parsed into `Operator('*', Operator('+', 2, 3), 4)`, which evaluates to 20. -/
theorem C5_parentheses_group_witness :
    ((∃ N, ∀ fuel, N ≤ fuel →
      parseText fracArith junk fuel "(2+3)".toList
          = some (.ok (.operator '+' (some (.operand ⟨2, 1⟩)) (.operand ⟨3, 1⟩)))
        ∧ parseText fracArith junk fuel "2+3".toList
          = some (.ok (.operator '+' (some (.operand ⟨2, 1⟩)) (.operand ⟨3, 1⟩))))
    ∧ (∃ N, ∀ fuel, N ≤ fuel →
        parseText fracArith junk fuel "(2+3)*4".toList
          = some (.ok (.operator '*'
              (some (.operator '+' (some (.operand ⟨2, 1⟩)) (.operand ⟨3, 1⟩)))
              (.operand ⟨4, 1⟩)))))
    ∧ evaluate fracArith (.operator '*'
          (some (.operator '+' (some (.operand ⟨2, 1⟩)) (.operand ⟨3, 1⟩)))
          (.operand ⟨4, 1⟩)) = .ok ⟨20, 1⟩ :=
  ⟨⟨(C5_parentheses_group fracArith junk (.bin '+' (.int ['2']) (.int ['3'])) (by decide)).1,
    (C5_parentheses_group fracArith junk (.bin '+' (.int ['2']) (.int ['3'])) (by decide)).2
      '*' (.int ['4']) (Or.inl rfl) (by decide) (by decide)⟩,
   by rfl⟩

/-- C6: for an operator node `/` whose two children evaluate to `lv` and `rv`, `evaluate`
fails with "Division by zero" exactly when `rv == 0`, and otherwise returns `lv / rv`. -/
theorem C6_division_by_zero {V : Type} (A : Arith V) (l r : Node V) (lv rv : V)
    (hl : evaluate A l = .ok lv) (hr : evaluate A r = .ok rv) :
    (evaluate A (.operator '/' (some l) r) = .error "Division by zero"
        ↔ A.eq rv A.zero = true)
    ∧ (A.eq rv A.zero = false → evaluate A (.operator '/' (some l) r) = .ok (A.div lv rv)) := by
  rw [evaluate_binary A '/' l r lv rv hl hr]
  simp only [show ('/' : Char) ≠ '+' by decide, show ('/' : Char) ≠ '-' by decide,
    show ('/' : Char) ≠ '*' by decide, if_false, if_true]
  cases h : A.eq rv A.zero <;> simp

/-- C6 with exact arithmetic at `5/0`, `0/0` and `5/(2-2)`: all three fail with
"Division by zero". -/
theorem C6_division_by_zero_witness :
    evaluate fracArith (.operator '/' (some (.operand ⟨5, 1⟩)) (.operand ⟨0, 1⟩))
        = .error "Division by zero"
    ∧ evaluate fracArith (.operator '/' (some (.operand ⟨0, 1⟩)) (.operand ⟨0, 1⟩))
        = .error "Division by zero"
    ∧ evaluate fracArith (.operator '/' (some (.operand ⟨5, 1⟩))
          (.operator '-' (some (.operand ⟨2, 1⟩)) (.operand ⟨2, 1⟩)))
        = .error "Division by zero" :=
  ⟨(C6_division_by_zero fracArith (.operand ⟨5, 1⟩) (.operand ⟨0, 1⟩) ⟨5, 1⟩ ⟨0, 1⟩ rfl rfl).1.2
      (by decide),
   (C6_division_by_zero fracArith (.operand ⟨0, 1⟩) (.operand ⟨0, 1⟩) ⟨0, 1⟩ ⟨0, 1⟩ rfl rfl).1.2
      (by decide),
   (C6_division_by_zero fracArith (.operand ⟨5, 1⟩)
      (.operator '-' (some (.operand ⟨2, 1⟩)) (.operand ⟨2, 1⟩)) ⟨5, 1⟩ ⟨0, 1⟩ rfl rfl).1.2
      (by decide)⟩


/-- C7 does not hold as stated: on the input `5/0`, whichever operand of `<<` is evaluated
first, the request writes the dump of the tree to `std::cout` before the error line goes
to `std::cerr`, so its output is not the error line alone. -/
theorem C7_tree_dump_is_written :
    ∃ N, ∀ fuel, N ≤ fuel → ∀ leftFirst,
      request fracArith junk leftFirst fuel "5/0".toList
        = some ⟨"Operator: /".toList ++ [endl] ++ "Left:".toList ++ [endl]
              ++ "  Operand: 5".toList ++ [endl] ++ "Right:".toList ++ [endl]
              ++ "  Operand: 0".toList ++ [endl]
              ++ (if leftFirst then "Result: ".toList else []),
            "Error: Division by zero".toList ++ [endl]⟩ := by
  obtain ⟨N, hN⟩ := parseExpression_wf fracArith junk (.bin '/' (.int ['5']) (.int ['0']))
    (by decide) [] [] (ends_nil _)
  refine ⟨N, fun fuel hfuel leftFirst => ?_⟩
  have h := hN fuel hfuel
  have htext : (Syn.bin '/' (.int ['5']) (.int ['0'])).render ++ [] = "5/0".toList := by decide
  rw [htext] at h
  have hev : evaluate fracArith ((Syn.bin '/' (.int ['5']) (.int ['0'])).tree fracArith)
      = .error "Division by zero" := by rfl
  have hpr : print fracArith ((Syn.bin '/' (.int ['5']) (.int ['0'])).tree fracArith) []
      = "Operator: /".toList ++ [endl] ++ "Left:".toList ++ [endl]
          ++ "  Operand: 5".toList ++ [endl] ++ "Right:".toList ++ [endl]
          ++ "  Operand: 0".toList ++ [endl] := by decide
  simp only [request, mk0_clean, h, hev, hpr]
  cases leftFirst <;> rfl

/-- C7 as amended: when the tree of a well-formed text fails to evaluate with "Division by
zero", the request writes the dump of the tree to `std::cout`, writes no result value
(at most the label `Result: `, when the left operand of `<<` is evaluated first), and
writes the line `Error: Division by zero` to `std::cerr`. -/
theorem C7_division_by_zero_output {V : Type} (A : Arith V) (u : Indet V) (e : Syn)
    (hwf : e.wf A = true) (hfail : evaluate A (e.tree A) = .error "Division by zero")
    (leftFirst : Bool) :
    ∃ N, ∀ fuel, N ≤ fuel →
      request A u leftFirst fuel e.render
        = some ⟨print A (e.tree A) [] ++ (if leftFirst then "Result: ".toList else []),
            "Error: ".toList ++ "Division by zero".toList ++ [endl]⟩ := by
  obtain ⟨N, hN⟩ := parseExpression_wf A u e hwf [] [] (ends_nil e)
  refine ⟨N, fun fuel hfuel => ?_⟩
  have h := hN fuel hfuel
  rw [List.append_nil] at h
  simp only [request, mk0_clean, h, hfail]

/-- C7 as amended, at `5/0` with exact arithmetic. -/
theorem C7_division_by_zero_output_witness :
    ∃ N, ∀ fuel, N ≤ fuel →
      request fracArith junk true fuel "5/0".toList
        = some ⟨print fracArith (.operator '/' (some (.operand ⟨5, 1⟩)) (.operand ⟨0, 1⟩)) []
              ++ "Result: ".toList,
            "Error: ".toList ++ "Division by zero".toList ++ [endl]⟩ :=
  C7_division_by_zero_output fracArith junk (.bin '/' (.int ['5']) (.int ['0'])) (by decide)
    (by rfl) true


/-- C8 does not hold as stated: the text `(2+3`, which is `(` and the well-formed `2+3`,
followed by the character `*` (then `@`) does not fail with "Mismatched parentheses" but
with "Invalid expression": the operator continues the expression. -/
theorem C8_operator_after_open_text :
    ∃ N, ∀ fuel, N ≤ fuel →
      parseText fracArith junk fuel "(2+3*@".toList = some (.error "Invalid expression") := by
  -- the operand of `*` is invalid
  have hA : ∀ f, parseExponent fracArith junk (f + 2)
      (IStream.clean ['*', '3', '+', '2', '('] ['@']) = some (.error "Invalid expression") :=
    fun f => parseExponent_error fracArith junk _ _ _
      (parsePrimary_invalid fracArith junk f _ rfl rfl (by decide) '@' rfl
        (by decide) (by decide) (by decide) (by decide) (by decide))
  -- hence the term `3*@` fails
  obtain ⟨N1, c1, hc1, h1⟩ := (parse_levels fracArith junk (.int ['3']) (by decide)).2.2.1
    (by decide) ['+', '2', '('] ['*', '@'] (fun _ => rfl) (by decide)
  have hB : ∀ fuel, N1 + c1 + 3 ≤ fuel → parseTerm fracArith junk fuel
      (IStream.clean ['+', '2', '('] ['3', '*', '@']) = some (.error "Invalid expression") := by
    intro fuel hfuel
    have h := h1 fuel (by omega) 'x'
    obtain ⟨f, hf⟩ : ∃ f, fuel - c1 = f + 2 + 1 := ⟨fuel - c1 - 3, by omega⟩
    rw [hf] at h
    refine h.trans ?_
    exact termLoop_error fracArith junk (f + 2) _ 'x' '*' _ _ (Or.inl rfl) _ (hA f)
  -- hence the expression `2+3*@` fails
  obtain ⟨N0, c0, hc0, h0⟩ := (parse_levels fracArith junk (.int ['2']) (by decide)).2.2.2
    ['('] ['+', '3', '*', '@'] (fun _ => rfl) (by decide) (by decide) (by decide)
  refine ⟨N0 + c0 + N1 + c1 + 8, fun fuel hfuel => ?_⟩
  obtain ⟨g, hg⟩ : ∃ g, fuel = g + 1 + 3 := ⟨fuel - 4, by omega⟩
  rw [hg]
  apply parseText_error
  apply parsePrimary_paren_error
  have h := h0 g (by omega) 'x'
  obtain ⟨f, hf⟩ : ∃ f, g - c0 = f + 1 := ⟨g - c0 - 1, by omega⟩
  rw [hf] at h
  refine h.trans ?_
  exact expressionLoop_error fracArith junk f _ 'x' '+' _ _ (Or.inl rfl) _ (hB f (by omega))

/-- C8 as amended: for every well-formed text `e` followed by nothing, or by text whose
first token is neither `)` nor a binary operator `^ * / + -` (and, after a final numeral,
does not start with a digit, `.`, `e` or `E`), parsing `(` then `e` then that text fails
with "Mismatched parentheses" and returns no tree. -/
theorem C8_mismatched_parentheses {V : Type} (A : Arith V) (u : Indet V) (e : Syn)
    (hwf : e.wf A = true) (r : List Char) (hr : Ends e r) (hclose : nextTok r ≠ some ')') :
    ∃ N, ∀ fuel, N ≤ fuel →
      parseText A u fuel ('(' :: (e.render ++ r)) = some (.error "Mismatched parentheses") := by
  obtain ⟨N, hN⟩ := parsePrimary_mismatched A u e hwf [] r hr hclose
  refine ⟨N + 3, fun fuel hfuel => ?_⟩
  obtain ⟨f, rfl⟩ : ∃ f, fuel = f + 3 := ⟨fuel - 3, by omega⟩
  exact parseText_error A u f _ _ (hN f (by omega))

/-- C8 as amended, at `(2+3` and at `(2+3@`, with exact arithmetic. -/
theorem C8_mismatched_parentheses_witness :
    (∃ N, ∀ fuel, N ≤ fuel →
      parseText fracArith junk fuel "(2+3".toList = some (.error "Mismatched parentheses"))
    ∧ (∃ N, ∀ fuel, N ≤ fuel →
      parseText fracArith junk fuel "(2+3@".toList = some (.error "Mismatched parentheses")) :=
  ⟨C8_mismatched_parentheses fracArith junk (.bin '+' (.int ['2']) (.int ['3'])) (by decide) []
      (ends_nil _) (by decide),
   C8_mismatched_parentheses fracArith junk (.bin '+' (.int ['2']) (.int ['3'])) (by decide) ['@']
      ⟨fun _ => rfl, by decide, by decide, by decide, by decide, by decide⟩ (by decide)⟩


/-- C9: for every text whose first character after leading spaces is none of a digit,
`.`, `-`, `+` or `(`, `parseExpression` throws "Invalid expression" and returns no tree. -/
theorem C9_invalid_leading_token {V : Type} (A : Arith V) (u : Indet V)
    (ws rest : List Char) (c : Char) (hws : ∀ w ∈ ws, isspace w = true)
    (hc : isspace c = false) (h1 : isdigit c = false) (h2 : c ≠ '.') (h3 : c ≠ '-')
    (h4 : c ≠ '+') (h5 : c ≠ '(') (fuel : Nat) (hfuel : 4 ≤ fuel) :
    parseText A u fuel (ws ++ c :: rest) = some (.error "Invalid expression") := by
  obtain ⟨f, rfl⟩ : ∃ f, fuel = f + 1 + 3 := ⟨fuel - 4, by omega⟩
  exact parseText_error A u (f + 1) _ _
    (parsePrimary_invalid A u f _ rfl rfl (fun h => Bool.noConfusion h) c
      (nextTok_ws ws hws c hc rest) h3 h4 h1 h2 h5)

/-- C9 at `@5`, with exact arithmetic. -/
theorem C9_invalid_leading_token_witness :
    parseText fracArith junk 4 "@5".toList = some (.error "Invalid expression") :=
  C9_invalid_leading_token fracArith junk [] ['5'] '@' (by simp) (by decide) (by decide)
    (by decide) (by decide) (by decide) (by decide) 4 (Nat.le_refl 4)

/-- C10, the code at the failing inputs: `parsePrimary` does not test whether
`iss >> token` extracted anything.  With a digit left in `token` (here `7`, and any `v`
left in `value`), the text `2+` is parsed into `Operator('+', 2, Operand v)` and the empty
text into `Operand v`, with no error; with `-` left in `token` the parser never returns on
the empty text. -/
theorem C10_end_of_input_not_detected (v : Frac) :
    (∃ N, ∀ fuel, N ≤ fuel →
      parseText fracArith ⟨'7', v⟩ fuel "2+".toList
        = some (.ok (.operator '+' (some (.operand ⟨2, 1⟩)) (.operand v))))
    ∧ (∀ fuel, 4 ≤ fuel → parseText fracArith ⟨'7', v⟩ fuel [] = some (.ok (.operand v)))
    ∧ (∀ fuel, parseText fracArith ⟨'-', v⟩ fuel [] = none) := by
  refine ⟨?_, ?_, fun fuel => parseText_eof_minus fracArith ⟨'-', v⟩ rfl fuel⟩
  · obtain ⟨N0, c0, hc0, h0⟩ := (parse_levels fracArith ⟨'7', v⟩ (.int ['2']) (by decide)).2.2.2
      [] ['+'] (fun _ => rfl) (by decide) (by decide) (by decide)
    refine ⟨N0 + c0 + 5, fun fuel hfuel => ?_⟩
    have h := h0 fuel (by omega) 'x'
    obtain ⟨f, hf⟩ : ∃ f, fuel - c0 = f + 1 + 3 + 1 := ⟨fuel - c0 - 5, by omega⟩
    rw [hf] at h
    have h2 := expressionLoop_step fracArith ⟨'7', v⟩ (f + 1 + 3)
      ((Syn.int ['2']).tree fracArith) (.operand v) 'x' '+' ['2'] [] (Or.inl rfl) _
      (parseTerm_eof_digit fracArith ⟨'7', v⟩ (f + 1) ['+', '2'] rfl)
    have h3 := expressionLoop_failed fracArith ⟨'7', v⟩ (f + 3)
      (.operator '+' (some ((Syn.int ['2']).tree fracArith)) (.operand v)) '+'
      ⟨['+', '2'], [], false, true, false⟩ rfl
    have h4 : parseExpression fracArith ⟨'7', v⟩ fuel (IStream.mk0 "2+".toList)
        = some (.ok (.operator '+' (some ((Syn.int ['2']).tree fracArith)) (.operand v),
            ⟨['+', '2'], [], false, true, false⟩)) :=
      h.trans (h2.trans h3)
    simp only [parseText, h4]
    rfl
  · intro fuel hfuel
    obtain ⟨f, rfl⟩ : ∃ f, fuel = f + 3 + 1 := ⟨fuel - 4, by omega⟩
    have h1 := parseTerm_eof_digit fracArith ⟨'7', v⟩ f [] rfl
    have h2 : parseExpression fracArith ⟨'7', v⟩ (f + 3 + 1) (IStream.mk0 [])
        = some (.ok (.operand v, ⟨[], [], false, true, false⟩)) := by
      rw [parseExpression_succ, mk0_clean, h1]
      simp only []
      rw [expressionLoop_failed fracArith ⟨'7', v⟩ (f + 2) _ _ _ rfl]
    simp only [parseText, h2]


/-! ## Numerals as the scanner reads them -/

/-- The primary that starts with a digit or a point: the operand holds whatever the
numeric extraction stores, and the stream is left where the scanner stopped, with `failbit`
when the conversion failed. -/
theorem parsePrimary_scan {V : Type} (A : Arith V) (u : Indet V) (fuel : Nat)
    (b : List Char) (c : Char) (cs : List Char) (hc : isdigit c = true ∨ c = '.') :
    parsePrimary A u (fuel + 1) (IStream.clean b (c :: cs))
      = some (.ok (.operand (convert_to_v A (extractFloat (c :: cs)).xtrc).1,
          ⟨(extractFloat (c :: cs)).taken ++ b, (extractFloat (c :: cs)).rest,
            (extractFloat (c :: cs)).rest.isEmpty,
            (convert_to_v A (extractFloat (c :: cs)).xtrc).2, false⟩)) := by
  have hsp : isspace c = false := by
    rcases hc with h | h
    · exact isspace_of_isdigit h
    · subst h; decide
  have hm : c ≠ '-' := by
    rcases hc with h | h
    · intro h'; subst h'; simp [isdigit] at h
    · subst h; decide
  have hp : c ≠ '+' := by
    rcases hc with h | h
    · intro h'; subst h'; simp [isdigit] at h
    · subst h; decide
  have hdig : (isdigit c || decide (c = '.')) = true := by
    rcases hc with h | h
    · simp [h]
    · simp [h]
  rw [parsePrimary_succ]
  simp only [getChar_clean b c cs u.token hsp, hm, hp, if_false, hdig, if_true]
  rw [putback_clean]
  simp [getDouble, sentry, IStream.clean, IStream.good, skipws_cons b c cs hsp]

/-- A point that no digit follows is scanned alone. -/
theorem extractFloat_point (r : List Char) (hr : ∀ c cs, r = c :: cs → isdigit c = false) :
    extractFloat ('.' :: r) = ⟨['.'], ['.'], r⟩ := by
  rw [extractFloat_unsigned _ (by intro c cs h; simp only [List.cons.injEq] at h; rw [← h.1]; decide),
    floatZeros_cons, if_neg (by decide), floatLoop_cons, if_neg (by decide), if_pos (by decide)]
  cases r with
  | nil => simp [floatLoop]
  | cons d ds =>
    rw [floatLoop_cons]
    simp [hr d ds rfl]


/-- The three loops on a stream that has already failed: `parseExpression` returns what
`parsePrimary` returned. -/
theorem parseExpression_failed_after {V : Type} (A : Arith V) (u : Indet V) (fuel : Nat)
    (s s1 : IStream) (t : Node V) (hfail : s1.failbit = true)
    (h : parsePrimary A u fuel s = some (.ok (t, s1))) :
    parseExpression A u (fuel + 3) s = some (.ok (t, s1)) := by
  rw [parseExpression_succ, parseTerm_succ, parseExponent_succ, h]
  simp only []
  cases fuel with
  | zero => rw [parsePrimary] at h; exact Option.noConfusion h
  | succ n =>
    rw [exponentLoop_failed A u n _ _ _ hfail]
    simp only []
    rw [termLoop_failed A u (n + 1) _ _ _ hfail]
    simp only []
    rw [expressionLoop_failed A u (n + 2) _ _ _ hfail]

/-- C19: on a text that starts with a point followed by no digit, `parseExpression` throws
nothing and returns the single leaf `Operand 0`; the stream is left failed, with every
character after the point unread (the input `.` itself, and `.+5`). -/
theorem C19_point_without_digits {V : Type} (A : Arith V) (u : Indet V) (r : List Char)
    (hr : ∀ c cs, r = c :: cs → isdigit c = false) (fuel : Nat) (hfuel : 4 ≤ fuel) :
    parseExpression A u fuel (IStream.mk0 ('.' :: r))
        = some (.ok (.operand A.zero, ⟨['.'], r, r.isEmpty, true, false⟩))
      ∧ parseText A u fuel ('.' :: r) = some (.ok (.operand A.zero)) := by
  obtain ⟨f, rfl⟩ : ∃ f, fuel = f + 1 + 3 := ⟨fuel - 4, by omega⟩
  have h1 := parsePrimary_scan A u f [] '.' r (Or.inr rfl)
  rw [extractFloat_point r hr] at h1
  have hst : strtodText ['.'] = none := by decide
  have hcv : convert_to_v A ['.'] = (A.zero, true) := by
    simp [convert_to_v, hst]
  simp only [hcv, List.append_nil] at h1
  have h2 := parseExpression_failed_after A u (f + 1) _ _ _ rfl h1
  exact ⟨h2, by simp only [parseText, mk0_clean, h2]⟩

/-- C19 at `.` and at `.+5`, with exact arithmetic. -/
theorem C19_point_without_digits_witness :
    parseText fracArith junk 4 ".".toList = some (.ok (.operand ⟨0, 1⟩))
      ∧ parseText fracArith junk 4 ".+5".toList = some (.ok (.operand ⟨0, 1⟩)) :=
  ⟨(C19_point_without_digits fracArith junk [] (by simp) 4 (Nat.le_refl 4)).2,
   (C19_point_without_digits fracArith junk ['+', '5']
      (by intro c cs h; simp only [List.cons.injEq] at h; rw [← h.1]; decide)
      4 (Nat.le_refl 4)).2⟩


/-- The scanner after the mantissa of a numeral: the digits are collected (leading zeros
as one), a mantissa has been found, and the loop goes on with what follows. -/
theorem scan_mantissa (ip : List Char) (fp : Option (List Char)) (t : List Char)
    (hip : ∀ c ∈ ip, isdigit c = true) (hfp : ∀ c ∈ fracDigits fp, isdigit c = true)
    (hne : ip ++ fracDigits fp ≠ [])
    (ht : ∀ c cs, t = c :: cs → isdigit c = false ∧ c ≠ '.') :
    ∃ xi, (∀ c ∈ xi, isdigit c = true) ∧ (∀ l, digitsVal (xi ++ l) = digitsVal (ip ++ l))
      ∧ (xi = [] → ip = [])
      ∧ extractFloat (ip ++ fracText fp ++ t)
          = floatLoop true fp.isSome false (xi ++ fracText fp) (ip ++ fracText fp).reverse t := by
  obtain ⟨zs, ds, hsplit, hzs, hds0⟩ := split_zeros ip
  subst hsplit
  have hdsd : ∀ c ∈ ds, isdigit c = true := fun c hc => hip c (by simp [hc])
  have hfirst : ∀ c cs, (zs ++ ds ++ fracText fp ++ t) = c :: cs → c ≠ '+' ∧ c ≠ '-' := by
    intro c cs h
    have hc : isdigit c = true ∨ c = '.' := by
      cases zs with
      | cons z zs' =>
        simp only [List.cons_append, List.cons.injEq] at h
        left; rw [← h.1]; exact hip z (by simp)
      | nil =>
        cases ds with
        | cons d ds' =>
          simp only [List.nil_append, List.cons_append, List.cons.injEq] at h
          left; rw [← h.1]; exact hip d (by simp)
        | nil =>
          cases fp with
          | none => simp [fracDigits] at hne
          | some f =>
            simp only [fracText, List.nil_append, List.cons_append, List.cons.injEq] at h
            right; exact h.1.symm
    rcases hc with hc | hc
    · constructor <;> (intro h'; subst h'; simp [isdigit] at hc)
    · subst hc; constructor <;> decide
  have htail0 : ∀ c cs, (ds ++ (fracText fp ++ t)) = c :: cs → c ≠ '0' := by
    intro c cs h
    cases ds with
    | cons d ds' =>
      simp only [List.cons_append, List.cons.injEq] at h
      rw [← h.1]; exact hds0 d ds' rfl
    | nil =>
      cases fp with
      | some f =>
        simp only [fracText, List.nil_append, List.cons_append, List.cons.injEq] at h
        rw [← h.1]; decide
      | none =>
        simp only [fracText, List.nil_append] at h
        intro hc
        have := (ht c cs h).1
        rw [isdigit_zero_of_eq hc] at this
        exact Bool.noConfusion this
  refine ⟨(if zs.isEmpty then ([] : List Char) else ['0']) ++ ds, ?_, ?_, ?_, ?_⟩
  · intro c hc
    rcases List.mem_append.1 hc with h | h
    · split at h
      · simp at h
      · simp only [List.mem_singleton] at h; exact isdigit_zero_of_eq h
    · exact hdsd c h
  · intro l
    rw [List.append_assoc, List.append_assoc, digitsVal_zeros zs hzs]
    split
    · rfl
    · exact digitsVal_zeros ['0'] (by simp) _
  · intro h
    simp only [List.append_eq_nil] at h
    cases zs with
    | nil => simp [h.2]
    | cons z zs' => simp at h
  · rw [extractFloat_unsigned _ hfirst]
    rw [List.append_assoc, List.append_assoc, floatZeros_zeros zs hzs false [] [] _ htail0]
    rw [floatLoop_digits ds hdsd]
    cases fp with
    | none =>
      have hfm : (!zs.isEmpty || !ds.isEmpty) = true := by
        cases zs with
        | cons z zs' => simp
        | nil =>
          cases ds with
          | cons d ds' => simp
          | nil => simp [fracDigits] at hne
      simp only [fracText, List.nil_append, Bool.false_or, List.append_nil, Option.isSome,
        List.reverse_append, Bool.false_eq_true, if_false]
      rw [hfm]
    | some f =>
      have hpt : isdigit '.' = false := by decide
      have hfd : ∀ c ∈ f, isdigit c = true := fun c hc => hfp c (by simpa [fracDigits] using hc)
      rw [fracText, List.cons_append, floatLoop_cons, if_neg (by simp [hpt]), if_pos (by simp),
        floatLoop_digits f hfd]
      have hfm : (!zs.isEmpty || !ds.isEmpty || !f.isEmpty) = true := by
        cases zs with
        | cons z zs' => simp
        | nil =>
          cases ds with
          | cons d ds' => simp
          | nil =>
            cases f with
            | cons g f' => simp
            | nil => simp [fracDigits] at hne
      simp only [Bool.false_or, Option.isSome, Bool.false_eq_true, if_false]
      rw [hfm]
      simp

theorem floatLoop_stop_sci (fm fd : Bool) (x tk r : List Char)
    (hr : ∀ c cs, r = c :: cs → isdigit c = false) :
    floatLoop fm fd true x tk r = ⟨x, tk, r⟩ := by
  cases r with
  | nil => simp [floatLoop]
  | cons c cs =>
    rw [floatLoop_cons]
    simp [hr c cs rfl]

/-- The scanner on an exponent part: the marker, an optional sign and digits. -/
theorem scan_exponent_part (fd : Bool) (x tk : List Char) (m : Char) (sg ed r : List Char)
    (hm : m = 'e' ∨ m = 'E') (hsg : sg = [] ∨ sg = ['+'] ∨ sg = ['-'])
    (hed : ∀ c ∈ ed, isdigit c = true) (hed0 : ed ≠ [])
    (hr : ∀ c cs, r = c :: cs → isdigit c = false) :
    floatLoop true fd false x tk (m :: (sg ++ ed) ++ r)
      = ⟨x ++ 'e' :: (sg ++ ed), (m :: (sg ++ ed)).reverse ++ tk, r⟩ := by
  have hmd : isdigit m = false := by rcases hm with h | h <;> (subst h; decide)
  have hmp : m ≠ '.' := by rcases hm with h | h <;> (subst h; decide)
  have hme : (decide (m = 'e') || decide (m = 'E')) = true := by
    rcases hm with h | h <;> (subst h; decide)
  obtain ⟨d, ed', rfl⟩ : ∃ d ed', ed = d :: ed' := by
    cases ed with
    | nil => exact absurd rfl hed0
    | cons d ed' => exact ⟨d, ed', rfl⟩
  have hd : isdigit d = true := hed d (by simp)
  have hd1 : d ≠ '+' := by intro h; subst h; simp [isdigit] at hd
  have hd2 : d ≠ '-' := by intro h; subst h; simp [isdigit] at hd
  rw [List.cons_append, floatLoop_cons]
  simp only [hmd, Bool.false_eq_true, if_false, hmp, decide_False, Bool.false_and, hme,
    Bool.not_false, Bool.and_self, if_true]
  rcases hsg with h | h | h
  · subst h
    simp only [List.nil_append, List.cons_append, hd1, hd2, decide_False, Bool.or_self,
      Bool.false_eq_true, if_false]
    rw [← List.cons_append, floatLoop_digits (d :: ed') hed, floatLoop_stop_sci _ _ _ _ _ hr]
    simp
  · subst h
    simp only [List.cons_append, List.nil_append, decide_True, Bool.true_or, if_true]
    rw [← List.cons_append, floatLoop_digits (d :: ed') hed, floatLoop_stop_sci _ _ _ _ _ hr]
    simp
  · subst h
    simp only [List.cons_append, List.nil_append, decide_True, Bool.or_true, if_true]
    rw [← List.cons_append, floatLoop_digits (d :: ed') hed, floatLoop_stop_sci _ _ _ _ _ hr]
    simp


/-- The decimal numeral `strtod` reads from a collected text with an exponent part. -/
theorem strtodText_exponent (xi : List Char) (fp : Option (List Char)) (sg ed : List Char)
    (hxi : ∀ c ∈ xi, isdigit c = true) (hfp : ∀ c ∈ fracDigits fp, isdigit c = true)
    (hne : xi ++ fracDigits fp ≠ []) (hsg : sg = [] ∨ sg = ['+'] ∨ sg = ['-'])
    (hed : ∀ c ∈ ed, isdigit c = true) (hed0 : ed ≠ []) :
    strtodText (xi ++ fracText fp ++ 'e' :: (sg ++ ed))
      = some (false, digitsVal (xi ++ fracDigits fp),
          (if sg = ['-'] then -(digitsVal ed : Int) else (digitsVal ed : Int))
            - ((fracDigits fp).length : Int)) := by
  have hpt : isdigit '.' = false := by decide
  have hee : isdigit 'e' = false := by decide
  obtain ⟨d, ed', hedeq⟩ : ∃ d ed', ed = d :: ed' := by
    cases ed with
    | nil => exact absurd rfl hed0
    | cons d ed' => exact ⟨d, ed', rfl⟩
  have hd : isdigit d = true := hed d (by simp [hedeq])
  have hd1 : d ≠ '+' := by intro h; subst h; simp [isdigit] at hd
  have hd2 : d ≠ '-' := by intro h; subst h; simp [isdigit] at hd
  have hspe := span_digits ed [] hed (by simp)
  simp only [List.append_nil] at hspe
  have hhead : ∀ c cs, fracText fp ++ 'e' :: (sg ++ ed) = c :: cs → isdigit c = false := by
    intro c cs h
    cases fp with
    | none => simp only [fracText, List.nil_append, List.cons.injEq] at h; rw [← h.1]; exact hee
    | some f => simp only [fracText, List.cons_append, List.cons.injEq] at h; rw [← h.1]; exact hpt
  have hsp1 := span_digits xi (fracText fp ++ 'e' :: (sg ++ ed)) hxi hhead
  have hfirst : ∀ c cs, xi ++ fracText fp ++ 'e' :: (sg ++ ed) = c :: cs → c ≠ '-' ∧ c ≠ '+' := by
    intro c cs h
    have hc : isdigit c = true ∨ c = '.' := by
      cases xi with
      | cons y ys =>
        simp only [List.cons_append, List.cons.injEq] at h
        left; rw [← h.1]; exact hxi y (by simp)
      | nil =>
        cases fp with
        | none => simp [fracDigits] at hne
        | some f =>
          simp only [fracText, List.nil_append, List.cons_append, List.cons.injEq] at h
          right; exact h.1.symm
    rcases hc with hc | hc
    · constructor <;> (intro h'; subst h'; simp [isdigit] at hc)
    · subst hc; constructor <;> decide
  have htw : List.takeWhile isdigit ed = ed ∧ List.dropWhile isdigit ed = [] := by
    have h := hspe
    simp only [List.span_eq_take_drop, Prod.mk.injEq] at h
    exact h
  rw [hedeq] at htw
  cases hx : xi ++ fracText fp ++ 'e' :: (sg ++ ed) with
  | nil => simp at hx
  | cons c cs =>
    obtain ⟨hc1, hc2⟩ := hfirst c cs hx
    rw [List.append_assoc] at hx
    rw [hx] at hsp1
    cases fp with
    | none =>
      simp only [fracText, List.nil_append, fracDigits, List.append_nil] at hsp1 hne ⊢
      have hxe : xi.isEmpty = false := by simpa using hne
      simp only [strtodText, hc1, hc2, if_false, hsp1, hee, Bool.false_eq_true,
        show ('e' : Char) ≠ '.' by decide, List.isEmpty_nil, hxe, Bool.false_and, if_true,
        List.append_nil, List.length_nil]
      rcases hsg with h | h | h <;> subst h <;>
        simp [hedeq, hd1, hd2, htw.1, htw.2, List.span_eq_take_drop]
    | some f =>
      have hfd : ∀ c ∈ f, isdigit c = true := fun c hc => hfp c (by simpa [fracDigits] using hc)
      have hsp2 := span_digits f ('e' :: (sg ++ ed)) hfd
        (by intro c cs h; simp only [List.cons.injEq] at h; rw [← h.1]; exact hee)
      simp only [fracText, fracDigits, List.cons_append] at hsp1 hne ⊢
      have hxe : (xi.isEmpty && f.isEmpty) = false := by
        cases xi with
        | cons y ys => simp
        | nil =>
          cases f with
          | cons g gs => simp
          | nil => simp at hne
      simp only [strtodText, hc1, hc2, if_false, hsp1, if_true, hsp2, hxe, Bool.false_eq_true]
      rcases hsg with h | h | h <;> subst h <;>
        simp [hedeq, hd1, hd2, htw.1, htw.2, List.span_eq_take_drop]

/-- A numeral with an exponent part is scanned as one numeral: mantissa digits, the marker
`e` or `E`, an optional sign and exponent digits, up to a character that is not a digit. -/
theorem scan_exponent_numeral (ip : List Char) (fp : Option (List Char)) (m : Char)
    (sg ed r : List Char)
    (hip : ∀ c ∈ ip, isdigit c = true) (hfp : ∀ c ∈ fracDigits fp, isdigit c = true)
    (hne : ip ++ fracDigits fp ≠ []) (hm : m = 'e' ∨ m = 'E')
    (hsg : sg = [] ∨ sg = ['+'] ∨ sg = ['-'])
    (hed : ∀ c ∈ ed, isdigit c = true) (hed0 : ed ≠ [])
    (hr : ∀ c cs, r = c :: cs → isdigit c = false) :
    ∃ xt, extractFloat (ip ++ fracText fp ++ m :: (sg ++ ed) ++ r)
          = ⟨xt, (ip ++ fracText fp ++ m :: (sg ++ ed)).reverse, r⟩
      ∧ strtodText xt
          = some (false, digitsVal (ip ++ fracDigits fp),
              (if sg = ['-'] then -(digitsVal ed : Int) else (digitsVal ed : Int))
                - ((fracDigits fp).length : Int)) := by
  have hmd : isdigit m = false ∧ m ≠ '.' := by
    rcases hm with h | h <;> (subst h; exact ⟨by decide, by decide⟩)
  obtain ⟨xi, hxi, hval, hxnil, hscan⟩ := scan_mantissa ip fp (m :: (sg ++ ed) ++ r) hip hfp hne
    (by intro c cs h; simp only [List.cons_append, List.cons.injEq] at h; rw [← h.1]; exact hmd)
  have hne' : xi ++ fracDigits fp ≠ [] := by
    intro h
    simp only [List.append_eq_nil] at h
    exact hne (by rw [hxnil h.1, h.2]; rfl)
  refine ⟨xi ++ fracText fp ++ 'e' :: (sg ++ ed), ?_, ?_⟩
  · rw [List.append_assoc (ip ++ fracText fp), hscan,
      scan_exponent_part _ _ _ m sg ed r hm hsg hed hed0 hr]
    simp
  · rw [strtodText_exponent xi fp sg ed hxi hfp hne' hsg hed hed0, hval]


/-- When `parsePrimary` leaves a stream whose next token is no binary operator, the three
loops leave the tree as it is and `parseExpression` returns it. -/
theorem parseExpression_after_primary {V : Type} (A : Arith V) (u : Indet V) (fuel : Nat)
    (s s1 : IStream) (t : Node V) (hf : s1.failbit = false) (hb : s1.badbit = false)
    (he : s1.eofbit = true → s1.rest = [])
    (hn : nextTok s1.rest ≠ some '^' ∧ nextTok s1.rest ≠ some '*' ∧ nextTok s1.rest ≠ some '/'
      ∧ nextTok s1.rest ≠ some '+' ∧ nextTok s1.rest ≠ some '-')
    (h : parsePrimary A u (fuel + 1) s = some (.ok (t, s1))) :
    parseExpression A u (fuel + 1 + 3) s = some (.ok (t, settle s1.back s1.rest)) := by
  rw [parseExpression_succ, parseTerm_succ, parseExponent_succ, h]
  simp only []
  rw [exponentLoop_stop A u fuel _ _ _ hf hb he hn.1]
  simp only []
  rw [termLoop_stop A u (fuel + 1) _ _ _ _ hn.2.1 hn.2.2.1]
  simp only []
  rw [expressionLoop_stop A u (fuel + 2) _ _ _ _ hn.2.2.2.1 hn.2.2.2.2]

/-- The primary that is a numeral with an exponent part. -/
theorem parsePrimary_exponent_numeral {V : Type} (A : Arith V) (u : Indet V) (b : List Char)
    (ip : List Char) (fp : Option (List Char)) (m : Char) (sg ed r : List Char)
    (hip : ∀ c ∈ ip, isdigit c = true) (hfp : ∀ c ∈ fracDigits fp, isdigit c = true)
    (hne : ip ++ fracDigits fp ≠ []) (hm : m = 'e' ∨ m = 'E')
    (hsg : sg = [] ∨ sg = ['+'] ∨ sg = ['-'])
    (hed : ∀ c ∈ ed, isdigit c = true) (hed0 : ed ≠ [])
    (hr : ∀ c cs, r = c :: cs → isdigit c = false)
    (hrange : inRange A (A.strtod false (digitsVal (ip ++ fracDigits fp))
      ((if sg = ['-'] then -(digitsVal ed : Int) else (digitsVal ed : Int))
        - ((fracDigits fp).length : Int))) = true) (fuel : Nat) :
    parsePrimary A u (fuel + 1)
        (IStream.clean b (ip ++ fracText fp ++ m :: (sg ++ ed) ++ r))
      = some (.ok (.operand (A.strtod false (digitsVal (ip ++ fracDigits fp))
            ((if sg = ['-'] then -(digitsVal ed : Int) else (digitsVal ed : Int))
              - ((fracDigits fp).length : Int))),
          ⟨(ip ++ fracText fp ++ m :: (sg ++ ed)).reverse ++ b, r, r.isEmpty, false, false⟩)) := by
  obtain ⟨xt, hscan, hconv⟩ := scan_exponent_numeral ip fp m sg ed r hip hfp hne hm hsg hed hed0 hr
  have hcv := convert_inRange A xt _ _ hconv hrange
  have hfirst : ∃ c cs, ip ++ fracText fp ++ m :: (sg ++ ed) ++ r = c :: cs
      ∧ (isdigit c = true ∨ c = '.') := by
    cases ip with
    | cons d ds => exact ⟨d, _, rfl, Or.inl (hip d (by simp))⟩
    | nil =>
      cases fp with
      | none => simp [fracDigits] at hne
      | some f => exact ⟨'.', _, rfl, Or.inr rfl⟩
  obtain ⟨c, cs, htext, hc⟩ := hfirst
  rw [htext] at hscan ⊢
  rw [parsePrimary_scan A u fuel b c cs hc, hscan, hcv]

/-- C14 does not hold as stated: on the input `1e10` the operand that is parsed has the
value `10^10`, not 1, and the whole text is consumed. -/
theorem C14_exponent_is_scanned :
    ∃ N, ∀ fuel, N ≤ fuel →
      parseExpression fracArith junk fuel (IStream.mk0 "1e10".toList)
        = some (.ok (.operand ⟨10000000000, 1⟩, ⟨"01e1".toList, [], true, true, false⟩)) := by
  refine ⟨4, fun fuel hfuel => ?_⟩
  obtain ⟨f, rfl⟩ : ∃ f, fuel = f + 1 + 3 := ⟨fuel - 4, by omega⟩
  have h1 := parsePrimary_exponent_numeral fracArith junk [] ['1'] none 'e' [] ['1', '0'] []
    (by decide) (by simp [fracDigits]) (by decide) (Or.inl rfl) (Or.inl rfl) (by decide)
    (by decide) (by simp) (by decide) f
  exact parseExpression_after_primary fracArith junk f _ _ _ rfl rfl (fun _ => rfl)
    ⟨by decide, by decide, by decide, by decide, by decide⟩ h1

/-- C14 as amended: the numeric scanner accepts the plain decimal form (optional leading
digits, optional point, optional fractional digits, at least one digit) and also an
exponent part after it (`e` or `E`, an optional sign, digits).  The operand parsed from
such a text holds the mantissa times the power of ten, and the scan stops at the first
character after the exponent digits. -/
theorem C14_numeral_forms {V : Type} (A : Arith V) (u : Indet V) (b : List Char)
    (ip : List Char) (fp : Option (List Char)) (hwf : (Syn.num ip fp).wf A = true) :
    (∀ r, numStop r = true → ∀ fuel,
      parsePrimary A u (fuel + 1) (IStream.clean b (ip ++ fracText fp ++ r))
        = some (.ok (.operand (A.strtod false (digitsVal (ip ++ fracDigits fp))
              (-((fracDigits fp).length : Int))),
            ⟨(ip ++ fracText fp).reverse ++ b, r, r.isEmpty, false, false⟩)))
    ∧ (∀ (m : Char) (sg ed r : List Char), (m = 'e' ∨ m = 'E') →
      (sg = [] ∨ sg = ['+'] ∨ sg = ['-']) → (∀ c ∈ ed, isdigit c = true) → ed ≠ [] →
      (∀ c cs, r = c :: cs → isdigit c = false) →
      inRange A (A.strtod false (digitsVal (ip ++ fracDigits fp))
        ((if sg = ['-'] then -(digitsVal ed : Int) else (digitsVal ed : Int))
          - ((fracDigits fp).length : Int))) = true → ∀ fuel,
      parsePrimary A u (fuel + 1)
          (IStream.clean b (ip ++ fracText fp ++ m :: (sg ++ ed) ++ r))
        = some (.ok (.operand (A.strtod false (digitsVal (ip ++ fracDigits fp))
              ((if sg = ['-'] then -(digitsVal ed : Int) else (digitsVal ed : Int))
                - ((fracDigits fp).length : Int))),
            ⟨(ip ++ fracText fp ++ m :: (sg ++ ed)).reverse ++ b, r, r.isEmpty,
              false, false⟩))) := by
  have hwf' := hwf
  simp only [Syn.wf, Bool.and_eq_true, List.all_eq_true, Bool.not_eq_true',
    List.isEmpty_eq_false] at hwf'
  obtain ⟨⟨⟨hip, hfp⟩, hne⟩, _⟩ := hwf'
  constructor
  · intro r hr fuel
    have h := parsePrimary_num A u ip fp hwf b r hr fuel
    simpa [Syn.render, Syn.tree, post, Syn.endsLit, litValue] using h
  · intro m sg ed r hm hsg hed hed0 hr hrange fuel
    exact parsePrimary_exponent_numeral A u b ip fp m sg ed r hip hfp hne hm hsg hed hed0 hr
      hrange fuel

/-- C14 as amended, at `1e10` and at `1`, with exact arithmetic: the values are `10^10`
and 1. -/
theorem C14_numeral_forms_witness :
    parsePrimary fracArith junk 1 (IStream.clean [] "1".toList)
        = some (.ok (.operand ⟨1, 1⟩, ⟨"1".toList, [], true, false, false⟩))
    ∧ parsePrimary fracArith junk 1 (IStream.clean [] "1e10".toList)
        = some (.ok (.operand ⟨10000000000, 1⟩, ⟨"01e1".toList, [], true, false, false⟩)) :=
  ⟨(C14_numeral_forms fracArith junk [] ['1'] none (by decide)).1 [] rfl 0,
   (C14_numeral_forms fracArith junk [] ['1'] none (by decide)).2 'e' [] ['1', '0'] []
      (Or.inl rfl) (Or.inl rfl) (by decide) (by decide) (by simp) (by decide) 0⟩


/-- C11 does not hold for every character outside the token set: the letter `e` followed
by a digit extends a final numeral.  The text `3` is parsed into `Operand 3`, and `3e1`
into `Operand 30`. -/
theorem C11_exponent_suffix_changes_tree :
    ∃ N, ∀ fuel, N ≤ fuel →
      parseText fracArith junk fuel "3".toList = some (.ok (.operand ⟨3, 1⟩))
        ∧ parseText fracArith junk fuel "3e1".toList = some (.ok (.operand ⟨30, 1⟩)) := by
  refine ⟨4, fun fuel hfuel => ?_⟩
  obtain ⟨f, rfl⟩ : ∃ f, fuel = f + 1 + 3 := ⟨fuel - 4, by omega⟩
  have h1 := parsePrimary_num fracArith junk ['3'] none (by decide) [] [] rfl f
  have h2 := parseExpression_after_primary fracArith junk f _ _ _ rfl rfl (fun _ => rfl)
    ⟨by decide, by decide, by decide, by decide, by decide⟩ h1
  have h3 := parsePrimary_exponent_numeral fracArith junk [] ['3'] none 'e' [] ['1'] []
    (by decide) (by simp [fracDigits]) (by decide) (Or.inl rfl) (Or.inl rfl) (by decide)
    (by decide) (by simp) (by decide) f
  have h4 := parseExpression_after_primary fracArith junk f _ _ _ rfl rfl (fun _ => rfl)
    ⟨by decide, by decide, by decide, by decide, by decide⟩ h3
  constructor
  · simp only [parseText, mk0_clean]
    rw [show "3".toList = Syn.render (.num ['3'] none) ++ [] from rfl, h2]
    rfl
  · simp only [parseText, mk0_clean]
    rw [show "3e1".toList = ['3'] ++ fracText none ++ 'e' :: ([] ++ ['1']) ++ [] from rfl, h4]
    rfl

/-- C11 as amended: trailing input that does not continue the expression is not rejected.
For every well-formed expression text `e` and every suffix `r` whose first token is not a
binary operator and which, when `e` ends with a numeral, does not start with a digit, a
point, `e` or `E` (in particular every `r` that begins with `)` or with `@`),
`parseExpression` on `e ++ r` succeeds and returns the same tree as on `e`. -/
theorem C11_trailing_input_not_rejected {V : Type} (A : Arith V) (u : Indet V) (e : Syn)
    (hwf : e.wf A = true) (r : List Char) (hr : Ends e r) :
    ∃ N, ∀ fuel, N ≤ fuel →
      parseText A u fuel (e.render ++ r) = some (.ok (e.tree A))
        ∧ parseText A u fuel (e.render ++ r) = parseText A u fuel e.render := by
  obtain ⟨N1, h1⟩ := parseText_wf A u e hwf r hr
  obtain ⟨N2, h2⟩ := parseText_wf_nil A u e hwf
  exact ⟨N1 + N2, fun fuel hfuel =>
    ⟨h1 fuel (by omega), by rw [h1 fuel (by omega), h2 fuel (by omega)]⟩⟩

/-- C11 as amended, at `2+3)` and at `2+3@7`, with exact arithmetic: both texts are parsed
into the tree of `2+3`, which evaluates to 5. -/
theorem C11_trailing_input_not_rejected_witness :
    (Ends (.bin '+' (.int ['2']) (.int ['3'])) [')']
      ∧ ∃ N, ∀ fuel, N ≤ fuel →
        parseText fracArith junk fuel "2+3)".toList
            = some (.ok (.operator '+' (some (.operand ⟨2, 1⟩)) (.operand ⟨3, 1⟩)))
          ∧ parseText fracArith junk fuel "2+3)".toList
            = parseText fracArith junk fuel "2+3".toList)
    ∧ (Ends (.bin '+' (.int ['2']) (.int ['3'])) ['@', '7']
      ∧ ∃ N, ∀ fuel, N ≤ fuel →
        parseText fracArith junk fuel "2+3@7".toList
            = some (.ok (.operator '+' (some (.operand ⟨2, 1⟩)) (.operand ⟨3, 1⟩)))
          ∧ parseText fracArith junk fuel "2+3@7".toList
            = parseText fracArith junk fuel "2+3".toList)
    ∧ evaluate fracArith (.operator '+' (some (.operand ⟨2, 1⟩)) (.operand ⟨3, 1⟩))
        = .ok ⟨5, 1⟩ :=
  ⟨⟨⟨fun _ => rfl, by decide, by decide, by decide, by decide, by decide⟩,
    C11_trailing_input_not_rejected fracArith junk (.bin '+' (.int ['2']) (.int ['3']))
      (by decide) [')'] ⟨fun _ => rfl, by decide, by decide, by decide, by decide, by decide⟩⟩,
   ⟨⟨fun _ => rfl, by decide, by decide, by decide, by decide, by decide⟩,
    C11_trailing_input_not_rejected fracArith junk (.bin '+' (.int ['2']) (.int ['3']))
      (by decide) ['@', '7']
      ⟨fun _ => rfl, by decide, by decide, by decide, by decide, by decide⟩⟩,
   by rfl⟩


theorem indent_succ (d : Nat) : indent (d + 1) = indent d ++ "  ".toList := by
  simp only [indent, Nat.mul_succ, List.replicate_add]
  rfl

theorem unlines_append (xs ys : List (List Char)) :
    unlines (xs ++ ys) = unlines xs ++ unlines ys := by
  induction xs with
  | nil => rfl
  | cons x xs ih => simp [unlines, ih]

/-- C15: `print` is defined on every tree, and what it writes is the pre-order, indented
rendering.  An operand is the one line `Operand: <value>`.  An operator at indentation
`t` is the line `Operator: <tag>`, the line `Left:`, the left subtree at indentation `t`
plus two spaces (the one line `(null)` at that indentation when the left child is
absent), the line `Right:`, and the right subtree at indentation `t` plus two spaces.
Hence, printed from depth `d`, the text is the sequence of lines in which every node at
depth `k` has its header indented by `2 * k` spaces. -/
theorem C15_print_is_indented_preorder {V : Type} (A : Arith V) :
    (∀ (value : V) (t : List Char),
      print A (.operand value) t = unlines [t ++ "Operand: ".toList ++ A.fmt value])
    ∧ (∀ (op : Char) (left right : Node V) (t : List Char),
      print A (.operator op (some left) right) t
        = unlines [t ++ "Operator: ".toList ++ [op], t ++ "Left:".toList]
          ++ print A left (t ++ "  ".toList)
          ++ unlines [t ++ "Right:".toList]
          ++ print A right (t ++ "  ".toList))
    ∧ (∀ (op : Char) (right : Node V) (t : List Char),
      print A (.operator op none right) t
        = unlines [t ++ "Operator: ".toList ++ [op], t ++ "Left:".toList,
            t ++ "  ".toList ++ "(null)".toList, t ++ "Right:".toList]
          ++ print A right (t ++ "  ".toList))
    ∧ (∀ (root : Node V) (d : Nat), print A root (indent d) = unlines (root.lines A d)) := by
  refine ⟨fun value t => by simp [print, unlines],
    fun op left right t => by simp [print, unlines],
    fun op right t => by simp [print, unlines], ?_⟩
  intro root
  induction root using Node.rec (motive_2 := fun o => ∀ l, o = some l →
      ∀ d, print A l (indent d) = unlines (Node.lines A l d)) with
  | operand value => intro d; simp [print, Node.lines, unlines]
  | operator op left right ihl ihr =>
    intro d
    cases left with
    | none =>
      simp [print, Node.lines, unlines, unlines_append, indent_succ, ← ihr (d + 1)]
    | some l =>
      simp [print, Node.lines, unlines, unlines_append, indent_succ, ← ihr (d + 1),
        ← ihl l rfl (d + 1)]
  | none => rename_i l h d; exact Option.noConfusion h
  | some val ih => rename_i l h d; cases h; exact ih d


theorem wfResult_none {V : Type} : WFResult (none : Option (Parsed V)) :=
  fun _ _ h => Option.noConfusion h

theorem wfResult_error {V : Type} (e : String) :
    WFResult (some (.error e) : Option (Parsed V)) := by
  intro t s h
  simp only [Option.some.injEq] at h
  exact Except.noConfusion h

theorem wfResult_ok {V : Type} (t : Node V) (s : IStream) (h : t.wellFormed = true) :
    WFResult (some (.ok (t, s)) : Option (Parsed V)) := by
  intro t1 s1 h1
  simp only [Option.some.injEq, Except.ok.injEq, Prod.mk.injEq] at h1
  rw [← h1.1]
  exact h

/-- Every tree returned by one of the seven parsing procedures is well formed, the loops
being entered with a well-formed `left`. -/
theorem parse_wellFormed {V : Type} (A : Arith V) (u : Indet V) (fuel : Nat) :
    (∀ s, WFResult (parsePrimary A u fuel s))
    ∧ (∀ left t s, left.wellFormed = true → WFResult (exponentLoop A u fuel left t s))
    ∧ (∀ s, WFResult (parseExponent A u fuel s))
    ∧ (∀ left t s, left.wellFormed = true → WFResult (termLoop A u fuel left t s))
    ∧ (∀ s, WFResult (parseTerm A u fuel s))
    ∧ (∀ left t s, left.wellFormed = true → WFResult (expressionLoop A u fuel left t s))
    ∧ (∀ s, WFResult (parseExpression A u fuel s)) := by
  induction fuel with
  | zero =>
    refine ⟨?_, ?_, ?_, ?_, ?_, ?_, ?_⟩
    · intro s; rw [parsePrimary]; exact wfResult_none
    · intro l t s _; rw [exponentLoop]; exact wfResult_none
    · intro s; rw [parseExponent]; exact wfResult_none
    · intro l t s _; rw [termLoop]; exact wfResult_none
    · intro s; rw [parseTerm]; exact wfResult_none
    · intro l t s _; rw [expressionLoop]; exact wfResult_none
    · intro s; rw [parseExpression]; exact wfResult_none
  | succ n ih =>
    obtain ⟨ihP, ihEL, ihE, ihTL, ihT, ihXL, ihX⟩ := ih
    refine ⟨?_, ?_, ?_, ?_, ?_, ?_, ?_⟩
    · intro s
      rw [parsePrimary_succ]
      split
      · have hp := ihP (getChar s u.token).1
        rcases h : parsePrimary A u n (getChar s u.token).1 with _ | r
        · exact wfResult_none
        · rcases r with e | ⟨right, s2⟩
          · exact wfResult_error e
          · exact wfResult_ok _ _ (by simpa [Node.wellFormed] using hp right s2 h)
      · split
        · have hp := ihP (getChar s u.token).1
          rcases h : parsePrimary A u n (getChar s u.token).1 with _ | r
          · exact wfResult_none
          · rcases r with e | ⟨right, s2⟩
            · exact wfResult_error e
            · exact wfResult_ok _ _ (by simpa [Node.wellFormed] using hp right s2 h)
        · split
          · exact wfResult_ok _ _ rfl
          · split
            · have hp := ihX (getChar s u.token).1
              rcases h : parseExpression A u n (getChar s u.token).1 with _ | r
              · exact wfResult_none
              · rcases r with e | ⟨node, s2⟩
                · exact wfResult_error e
                · simp only []
                  split
                  · exact wfResult_error _
                  · exact wfResult_ok _ _ (hp node s2 h)
            · exact wfResult_error _
    · intro left t s hl
      rw [exponentLoop_succ]
      split
      · rename_i hc
        simp only [Bool.and_eq_true, decide_eq_true_eq] at hc
        have hp := ihP (getChar s t).1
        rcases h : parsePrimary A u n (getChar s t).1 with _ | r
        · exact wfResult_none
        · rcases r with e | ⟨right, s2⟩
          · exact wfResult_error e
          · exact ihEL _ _ _ (by simp [Node.wellFormed, hc.2, hl, hp right s2 h])
      · exact wfResult_ok _ _ hl
    · intro s
      rw [parseExponent_succ]
      have hp := ihP s
      rcases h : parsePrimary A u n s with _ | r
      · exact wfResult_none
      · rcases r with e | ⟨left, s1⟩
        · exact wfResult_error e
        · exact ihEL _ _ _ (hp left s1 h)
    · intro left t s hl
      rw [termLoop_succ]
      split
      · rename_i hc
        simp only [Bool.and_eq_true, Bool.or_eq_true, decide_eq_true_eq] at hc
        have hp := ihE (getChar s t).1
        rcases h : parseExponent A u n (getChar s t).1 with _ | r
        · exact wfResult_none
        · rcases r with e | ⟨right, s2⟩
          · exact wfResult_error e
          · refine ihTL _ _ _ ?_
            rcases hc.2 with h2 | h2 <;> simp [Node.wellFormed, h2, hl, hp right s2 h]
      · exact wfResult_ok _ _ hl
    · intro s
      rw [parseTerm_succ]
      have hp := ihE s
      rcases h : parseExponent A u n s with _ | r
      · exact wfResult_none
      · rcases r with e | ⟨left, s1⟩
        · exact wfResult_error e
        · exact ihTL _ _ _ (hp left s1 h)
    · intro left t s hl
      rw [expressionLoop_succ]
      split
      · rename_i hc
        simp only [Bool.and_eq_true, Bool.or_eq_true, decide_eq_true_eq] at hc
        have hp := ihT (getChar s t).1
        rcases h : parseTerm A u n (getChar s t).1 with _ | r
        · exact wfResult_none
        · rcases r with e | ⟨right, s2⟩
          · exact wfResult_error e
          · refine ihXL _ _ _ ?_
            rcases hc.2 with h2 | h2 <;> simp [Node.wellFormed, h2, hl, hp right s2 h]
      · exact wfResult_ok _ _ hl
    · intro s
      rw [parseExpression_succ]
      have hp := ihT s
      rcases h : parseTerm A u n s with _ | r
      · exact wfResult_none
      · rcases r with e | ⟨left, s1⟩
        · exact wfResult_error e
        · exact ihXL _ _ _ (hp left s1 h)

/-- Evaluating a well-formed tree returns a value or fails with "Division by zero". -/
theorem evaluate_wellFormed {V : Type} (A : Arith V) (root : Node V)
    (hwf : root.wellFormed = true) :
    (∃ v, evaluate A root = .ok v) ∨ evaluate A root = .error "Division by zero" := by
  induction root using Node.rec (motive_2 := fun o => ∀ l, o = some l →
      l.wellFormed = true →
      (∃ v, evaluate A l = .ok v) ∨ evaluate A l = .error "Division by zero") with
  | operand value => exact Or.inl ⟨value, rfl⟩
  | operator op left right ihl ihr =>
    cases left with
    | none =>
      simp only [Node.wellFormed, Bool.and_eq_true, Bool.or_eq_true, decide_eq_true_eq] at hwf
      rcases ihr hwf.2 with ⟨rv, hr⟩ | hr
      · rw [evaluate_unary A op right rv hr]
        rcases hwf.1 with h | h <;> subst h
        · exact Or.inl ⟨A.neg rv, by simp⟩
        · exact Or.inl ⟨rv, by simp⟩
      · exact Or.inr (by rw [evaluate, hr])
    | some l =>
      simp only [Node.wellFormed, Bool.and_eq_true, Bool.or_eq_true, decide_eq_true_eq] at hwf
      rcases ihl l rfl hwf.1.2 with ⟨lv, hl⟩ | hl
      · rcases ihr hwf.2 with ⟨rv, hr⟩ | hr
        · rw [evaluate_binary A op l right lv rv hl hr]
          rcases hwf.1.1 with (((h | h) | h) | h) | h <;> subst h
          · exact Or.inl ⟨A.add lv rv, by simp⟩
          · exact Or.inl ⟨A.sub lv rv, by simp⟩
          · exact Or.inl ⟨A.mul lv rv, by simp⟩
          · cases hz : A.eq rv A.zero
            · exact Or.inl ⟨A.div lv rv, by simp [hz]⟩
            · exact Or.inr (by simp [hz])
          · exact Or.inl ⟨A.pow lv rv, by simp⟩
        · exact Or.inr (by rw [evaluate, hl, hr])
      · exact Or.inr (by rw [evaluate, hl])
  | none => rename_i l h hw; exact Option.noConfusion h
  | some val ih => rename_i l h hw; cases h; exact ih hw

/-- C12: every tree returned by a successful `parseExpression` is well formed: a node
tagged `+`, `-`, `*`, `/` or `^` has both children, a node tagged `u` or `p` has no left
child and a right child, and no other tag occurs.  Hence evaluating it never fails with
"Unknown operator": it returns a value or fails with "Division by zero". -/
theorem C12_parsed_tree_is_well_formed {V : Type} (A : Arith V) (u : Indet V) (fuel : Nat)
    (s s1 : IStream) (root : Node V)
    (h : parseExpression A u fuel s = some (.ok (root, s1))) :
    root.wellFormed = true
      ∧ evaluate A root ≠ .error "Unknown operator"
      ∧ ((∃ v, evaluate A root = .ok v) ∨ evaluate A root = .error "Division by zero") := by
  have hwf := (parse_wellFormed A u fuel).2.2.2.2.2.2 s root s1 h
  have hev := evaluate_wellFormed A root hwf
  refine ⟨hwf, ?_, hev⟩
  rcases hev with ⟨v, hv⟩ | hv <;> rw [hv]
  · exact fun h => Except.noConfusion h
  · intro h
    simp only [Except.error.injEq] at h
    exact absurd h (by decide)

/-- C12 at `5/(2-2)`, with exact arithmetic: the tree returned is well formed, and its
evaluation fails with "Division by zero", not with "Unknown operator". -/
theorem C12_parsed_tree_is_well_formed_witness :
    ∃ N, ∀ fuel, N ≤ fuel → ∃ root s1,
      parseExpression fracArith junk fuel (IStream.mk0 "5/(2-2)".toList) = some (.ok (root, s1))
        ∧ root = .operator '/' (some (.operand ⟨5, 1⟩))
            (.operator '-' (some (.operand ⟨2, 1⟩)) (.operand ⟨2, 1⟩))
        ∧ root.wellFormed = true
        ∧ evaluate fracArith root ≠ .error "Unknown operator"
        ∧ ((∃ v, evaluate fracArith root = .ok v)
          ∨ evaluate fracArith root = .error "Division by zero") := by
  obtain ⟨N, hN⟩ := parseExpression_wf fracArith junk
    (.bin '/' (.int ['5']) (.paren (.bin '-' (.int ['2']) (.int ['2'])))) (by decide) [] []
    (ends_nil _)
  exact ⟨N, fun fuel hfuel => ⟨_, _, hN fuel hfuel, rfl,
    C12_parsed_tree_is_well_formed fracArith junk fuel _ _ _ (hN fuel hfuel)⟩⟩


theorem digitChar_spec (d : Nat) (h : d < 10) :
    isdigit (digitChar d) = true ∧ (digitChar d).toNat - 48 = d := by
  interval_cases d <;> exact ⟨by decide, by decide⟩

theorem digitsVal_snoc (xs : List Char) (c : Char) :
    digitsVal (xs ++ [c]) = 10 * digitsVal xs + (c.toNat - 48) := by
  simp [digitsVal, List.foldl_append]

theorem decimalAux_spec (fuel : Nat) :
    ∀ n, n < fuel → (∀ c ∈ decimalAux fuel n, isdigit c = true) ∧ decimalAux fuel n ≠ []
      ∧ digitsVal (decimalAux fuel n) = n := by
  induction fuel with
  | zero => intro n h; omega
  | succ f ih =>
    intro n h
    rw [decimalAux]
    split
    · rename_i h10
      refine ⟨?_, by simp, ?_⟩
      · intro c hc
        simp only [List.mem_singleton] at hc
        rw [hc]
        exact (digitChar_spec n h10).1
      · have := digitsVal_snoc [] (digitChar n)
        simp only [List.nil_append] at this
        rw [this, (digitChar_spec n h10).2]
        simp [digitsVal]
    · rename_i h10
      obtain ⟨h1, h2, h3⟩ := ih (n / 10) (by omega)
      have hd := digitChar_spec (n % 10) (Nat.mod_lt n (by decide))
      refine ⟨?_, by simp, ?_⟩
      · intro c hc
        rcases List.mem_append.1 hc with hc | hc
        · exact h1 c hc
        · simp only [List.mem_singleton] at hc
          rw [hc]
          exact hd.1
      · rw [digitsVal_snoc, h3, hd.2]
        omega

theorem decimal_spec (n : Nat) :
    (decimal n).all isdigit = true ∧ (decimal n).isEmpty = false ∧ digitsVal (decimal n) = n := by
  obtain ⟨h1, h2, h3⟩ := decimalAux_spec (n + 1) n (Nat.lt_succ_self n)
  refine ⟨by simpa [decimal, List.all_eq_true] using h1, ?_, h3⟩
  cases h : decimal n with
  | nil => exact absurd h h2
  | cons c cs => rfl

/-- The syntax of the fully parenthesized text of a well-formed tree of integers: its
text, its grammar rule, its well-formedness and its tree. -/
theorem toSyn_spec {V : Type} (A : Arith V) (t : Node Nat) (hwf : t.wellFormed = true)
    (hrange : t.operandsInRange A = true) :
    t.toSyn.render = t.infixText ∧ t.toSyn.level = 3 ∧ t.toSyn.wf A = true
      ∧ t.toSyn.tree A = t.mapValue (doubleOf A) := by
  induction t using Node.rec (motive_2 := fun o => ∀ l, o = some l →
      l.wellFormed = true → l.operandsInRange A = true →
      l.toSyn.render = l.infixText ∧ l.toSyn.level = 3 ∧ l.toSyn.wf A = true
        ∧ l.toSyn.tree A = l.mapValue (doubleOf A)) with
  | operand n =>
    obtain ⟨h1, h2, h3⟩ := decimal_spec n
    simp only [Node.operandsInRange, doubleOf] at hrange
    refine ⟨by simp [Node.toSyn, Node.infixText, Syn.render, fracText], rfl, ?_, ?_⟩
    · simp [Node.toSyn, Syn.wf, h1, h2, fracDigits, litValue, h3, hrange]
    · simp [Node.toSyn, Syn.tree, Node.mapValue, fracDigits, litValue, h3, doubleOf]
  | operator op left right ihl ihr =>
    cases left with
    | none =>
      simp only [Node.wellFormed, Bool.and_eq_true, Bool.or_eq_true, decide_eq_true_eq] at hwf
      simp only [Node.operandsInRange] at hrange
      obtain ⟨r1, r2, r3, r4⟩ := ihr hwf.2 hrange
      rcases hwf.1 with h | h <;> subst h
      · refine ⟨by simp [Node.toSyn, Node.infixText, Syn.render, r1], rfl, ?_, ?_⟩
        · simp [Node.toSyn, Syn.wf, r2, r3]
        · simp [Node.toSyn, Syn.tree, Node.mapValue, r4]
      · refine ⟨by simp [Node.toSyn, Node.infixText, Syn.render, r1], rfl, ?_, ?_⟩
        · simp [Node.toSyn, Syn.wf, r2, r3]
        · simp [Node.toSyn, Syn.tree, Node.mapValue, r4]
    | some l =>
      simp only [Node.wellFormed, Bool.and_eq_true, Bool.or_eq_true, decide_eq_true_eq] at hwf
      simp only [Node.operandsInRange, Bool.and_eq_true] at hrange
      obtain ⟨l1, l2, l3, l4⟩ := ihl l rfl hwf.1.2 hrange.1
      obtain ⟨r1, r2, r3, r4⟩ := ihr hwf.2 hrange.2
      refine ⟨by simp [Node.toSyn, Node.infixText, Syn.render, l1, r1], rfl, ?_, ?_⟩
      · rcases hwf.1.1 with (((h | h) | h) | h) | h <;> subst h <;>
          simp [Node.toSyn, Syn.wf, l2, l3, r2, r3]
      · simp [Node.toSyn, Syn.tree, Node.mapValue, l4, r4]
  | none => rename_i l h hw hr; exact Option.noConfusion h
  | some val ih => rename_i l h hw hr; cases h; exact ih hw hr

/-- C17: for every well-formed tree whose operands hold non-negative integers (binary
nodes tagged `+ - * / ^` with two children, unary nodes with only a right child), parsing
its fully parenthesized infix text with `parseExpression` returns exactly that tree, each
operand being the `double` that holds the integer. -/
theorem C17_round_trip {V : Type} (A : Arith V) (u : Indet V) (t : Node Nat)
    (hwf : t.wellFormed = true) (hrange : t.operandsInRange A = true) :
    ∃ N, ∀ fuel, N ≤ fuel →
      parseText A u fuel t.infixText = some (.ok (t.mapValue (doubleOf A))) := by
  obtain ⟨h1, _, h3, h4⟩ := toSyn_spec A t hwf hrange
  obtain ⟨N, hN⟩ := parseText_wf_nil A u t.toSyn h3
  exact ⟨N, fun fuel hfuel => by rw [← h1, ← h4]; exact hN fuel hfuel⟩

/-- C17 at the tree of `((2+3)*(-14))`, with exact arithmetic. -/
theorem C17_round_trip_witness :
    ∃ N, ∀ fuel, N ≤ fuel →
      parseText fracArith junk fuel "((2+3)*(-14))".toList
        = some (.ok (.operator '*' (some (.operator '+' (some (.operand ⟨2, 1⟩)) (.operand ⟨3, 1⟩)))
            (.operator 'u' none (.operand ⟨14, 1⟩)))) :=
  C17_round_trip fracArith junk
    (.operator '*' (some (.operator '+' (some (.operand 2)) (.operand 3)))
      (.operator 'u' none (.operand 14)))
    (by decide) (by decide)


/-- A parsing procedure that starts with `parsePrimary` has no result when `parsePrimary`
has none, whatever the fuel. -/
theorem parseText_none_of_primary {V : Type} (A : Arith V) (u : Indet V) (text : List Char)
    (hP : ∀ n, parsePrimary A u n (IStream.mk0 text) = none) (fuel : Nat) :
    parseText A u fuel text = none := by
  have hE : ∀ n, parseExponent A u n (IStream.mk0 text) = none := by
    intro n
    cases n with
    | zero => rw [parseExponent]
    | succ n => rw [parseExponent_succ, hP n]
  have hT : ∀ n, parseTerm A u n (IStream.mk0 text) = none := by
    intro n
    cases n with
    | zero => rw [parseTerm]
    | succ n => rw [parseTerm_succ, hE n]
  have hX : ∀ n, parseExpression A u n (IStream.mk0 text) = none := by
    intro n
    cases n with
    | zero => rw [parseExpression]
    | succ n => rw [parseExpression_succ, hT n]
  simp [parseText, hX fuel]

/-- C16 fails on the code at the end of the input: `parsePrimary` reads its token
without testing the stream, so with the character `-` left in its uninitialised `token`
every call made at the end of the input calls `parsePrimary` again on the same stream.
On the empty text and on the text `-` no amount of fuel gives a result: the recursion
never returns. -/
theorem C16_recursion_without_progress {V : Type} (A : Arith V) (u : Indet V)
    (hm : u.token = '-') (fuel : Nat) :
    parseText A u fuel [] = none ∧ parseText A u fuel ['-'] = none := by
  refine ⟨parseText_none_of_primary A u [] ?_ fuel, parseText_none_of_primary A u ['-'] ?_ fuel⟩
  · intro n
    cases n with
    | zero => rw [parsePrimary]
    | succ n =>
      rw [parsePrimary_succ, mk0_clean, getChar_eof]
      simp only [hm, if_true]
      rw [parsePrimary_failed_minus A u hm n ⟨[], [], true, true, false⟩ rfl]
  · intro n
    cases n with
    | zero => rw [parsePrimary]
    | succ n =>
      rw [parsePrimary_succ, mk0_clean, getChar_clean [] '-' [] _ (by decide)]
      simp only [if_true]
      cases n with
      | zero => rw [parsePrimary]
      | succ n =>
        rw [parsePrimary_succ, getChar_eof]
        simp only [hm, if_true]
        rw [parsePrimary_failed_minus A u hm n ⟨['-'], [], true, true, false⟩ rfl]

/-- C16 at the carrier of exact fractions, with `-` left in the uninitialised `token`:
a fuel of one million gives no result on the empty text or on `-`. -/
theorem C16_recursion_without_progress_witness :
    parseText fracArith ⟨'-', ⟨0, 1⟩⟩ 1000000 [] = none
      ∧ parseText fracArith ⟨'-', ⟨0, 1⟩⟩ 1000000 "-".toList = none :=
  C16_recursion_without_progress fracArith ⟨'-', ⟨0, 1⟩⟩ rfl 1000000


/-! ## The scanner looks at one character at a time -/

theorem isdigit_of_isspace {c : Char} (h : isspace c = true) : isdigit c = false := by
  cases hd : isdigit c with
  | false => rfl
  | true => rw [isspace_of_isdigit hd] at h; exact Bool.noConfusion h

theorem floatLoop_space (fm fd fs : Bool) (x tk : List Char) (w : Char) (ds : List Char)
    (hw : isspace w = true) : floatLoop fm fd fs x tk (w :: ds) = ⟨x, tk, w :: ds⟩ := by
  have h1 : isdigit w = false := isdigit_of_isspace hw
  have h2 : w ≠ '.' := by intro h; subst h; exact absurd hw (by decide)
  have h3 : w ≠ 'e' := by intro h; subst h; exact absurd hw (by decide)
  have h4 : w ≠ 'E' := by intro h; subst h; exact absurd hw (by decide)
  rw [floatLoop_cons]
  simp [h1, h2, h3, h4]

theorem floatLoop_headSim_nil (fm fd fs : Bool) (x tk t : List Char) (h : headSim [] t) :
    floatLoop fm fd fs x tk t = ⟨x, tk, t⟩ := by
  rcases h with h | ⟨w, ds, h, hw⟩ | ⟨c, cs, cs1, h, _⟩
  · subst h; simp [floatLoop]
  · subst h; exact floatLoop_space fm fd fs x tk w ds hw
  · exact List.noConfusion h

/-- The run of the main loop of the scanner: the characters it consumes are a prefix of
the input, and it consumes the same prefix, with the same collected text, whenever that
prefix is followed by the end of the input, by a space, or by the same character. -/
theorem floatLoop_run (k : Nat) :
    ∀ (l : List Char), l.length ≤ k → ∀ (fm fd fs : Bool) (x tk : List Char),
      ∃ n, l = n ++ (floatLoop fm fd fs x tk l).rest
        ∧ (floatLoop fm fd fs x tk l).taken = n.reverse ++ tk
        ∧ ∀ t, headSim (floatLoop fm fd fs x tk l).rest t →
          floatLoop fm fd fs x tk (n ++ t)
            = ⟨(floatLoop fm fd fs x tk l).xtrc, (floatLoop fm fd fs x tk l).taken, t⟩ := by
  induction k with
  | zero =>
    intro l hl fm fd fs x tk
    have : l = [] := List.length_eq_zero.1 (Nat.le_zero.1 hl)
    subst this
    exact ⟨[], by simp [floatLoop], by simp [floatLoop], fun t ht => by
      simpa [floatLoop] using floatLoop_headSim_nil fm fd fs x tk t (by simpa [floatLoop] using ht)⟩
  | succ k ih =>
    intro l hl fm fd fs x tk
    cases l with
    | nil =>
      exact ⟨[], by simp [floatLoop], by simp [floatLoop], fun t ht => by
        simpa [floatLoop] using
          floatLoop_headSim_nil fm fd fs x tk t (by simpa [floatLoop] using ht)⟩
    | cons c cs =>
      have hcs : cs.length ≤ k := by simpa using hl
      by_cases hd : isdigit c = true
      · obtain ⟨n, h1, h2, h3⟩ := ih cs hcs true fd fs (x ++ [c]) (c :: tk)
        have hE : floatLoop fm fd fs x tk (c :: cs)
            = floatLoop true fd fs (x ++ [c]) (c :: tk) cs := by
          rw [floatLoop_cons, if_pos hd]
        refine ⟨c :: n, ?_, ?_, ?_⟩
        · rw [hE, List.cons_append, ← h1]
        · rw [hE, h2]; simp
        · intro t ht
          rw [hE] at ht ⊢
          rw [List.cons_append, floatLoop_cons, if_pos hd]
          exact h3 t ht
      · by_cases hp : (decide (c = '.') && !fd && !fs) = true
        · obtain ⟨n, h1, h2, h3⟩ := ih cs hcs fm true fs (x ++ ['.']) (c :: tk)
          have hE : floatLoop fm fd fs x tk (c :: cs)
              = floatLoop fm true fs (x ++ ['.']) (c :: tk) cs := by
            rw [floatLoop_cons, if_neg hd, if_pos hp]
          refine ⟨c :: n, ?_, ?_, ?_⟩
          · rw [hE, List.cons_append, ← h1]
          · rw [hE, h2]; simp
          · intro t ht
            rw [hE] at ht ⊢
            rw [List.cons_append, floatLoop_cons, if_neg hd, if_pos hp]
            exact h3 t ht
        · by_cases he : ((decide (c = 'e') || decide (c = 'E')) && !fs && fm) = true
          · cases cs with
            | nil =>
              have hE : floatLoop fm fd fs x tk [c] = ⟨x ++ ['e'], c :: tk, []⟩ := by
                rw [floatLoop_cons, if_neg hd, if_neg hp, if_pos he]
              refine ⟨[c], ?_, ?_, ?_⟩
              · rw [hE]; rfl
              · rw [hE]; rfl
              · intro t ht
                rw [hE] at ht ⊢
                simp only at ht
                rcases ht with h | ⟨w, ds, h, hw⟩ | ⟨c1, cs1, cs2, h, _⟩
                · subst h; exact hE
                · subst h
                  have hw1 : w ≠ '+' := by intro h; subst h; exact absurd hw (by decide)
                  have hw2 : w ≠ '-' := by intro h; subst h; exact absurd hw (by decide)
                  rw [List.singleton_append, floatLoop_cons, if_neg hd, if_neg hp, if_pos he]
                  simp only [hw1, hw2, decide_False, Bool.or_self, Bool.false_eq_true, if_false]
                  exact floatLoop_space fm fd true _ _ w ds hw
                · exact List.noConfusion h
            | cons d ds =>
              by_cases hs : (decide (d = '+') || decide (d = '-')) = true
              · have hds : ds.length ≤ k := by
                  simp only [List.length_cons] at hcs; omega
                obtain ⟨n, h1, h2, h3⟩ := ih ds hds fm fd true (x ++ ['e', d]) (d :: c :: tk)
                have hE : floatLoop fm fd fs x tk (c :: d :: ds)
                    = floatLoop fm fd true (x ++ ['e', d]) (d :: c :: tk) ds := by
                  rw [floatLoop_cons, if_neg hd, if_neg hp, if_pos he]
                  simp only [hs, if_true]
                refine ⟨c :: d :: n, ?_, ?_, ?_⟩
                · rw [hE, List.cons_append, List.cons_append, ← h1]
                · rw [hE, h2]; simp
                · intro t ht
                  rw [hE] at ht ⊢
                  rw [List.cons_append, List.cons_append, floatLoop_cons, if_neg hd, if_neg hp,
                    if_pos he]
                  simp only [hs, if_true]
                  exact h3 t ht
              · obtain ⟨n, h1, h2, h3⟩ := ih (d :: ds) hcs fm fd true (x ++ ['e']) (c :: tk)
                have hE : floatLoop fm fd fs x tk (c :: d :: ds)
                    = floatLoop fm fd true (x ++ ['e']) (c :: tk) (d :: ds) := by
                  rw [floatLoop_cons, if_neg hd, if_neg hp, if_pos he]
                  simp only [hs, Bool.false_eq_true, if_false]
                refine ⟨c :: n, ?_, ?_, ?_⟩
                · rw [hE, List.cons_append, ← h1]
                · rw [hE, h2]; simp
                · intro t ht
                  rw [hE] at ht ⊢
                  have h3t := h3 t ht
                  rw [List.cons_append, floatLoop_cons, if_neg hd, if_neg hp, if_pos he]
                  cases hnt : n ++ t with
                  | nil =>
                    rw [hnt] at h3t
                    simp only [floatLoop] at h3t
                    simp only []
                    exact h3t
                  | cons d1 ds1 =>
                    have hd1 : (decide (d1 = '+') || decide (d1 = '-')) = false := by
                      cases n with
                      | nil =>
                        simp only [List.nil_append] at hnt h1
                        rw [← h1] at ht
                        rcases ht with h | ⟨w, ds2, h, hw⟩ | ⟨c1, cs1, cs2, h, h'⟩
                        · rw [h] at hnt; exact List.noConfusion hnt
                        · rw [h] at hnt
                          simp only [List.cons.injEq] at hnt
                          rw [← hnt.1]
                          have hw1 : w ≠ '+' := by intro h; subst h; exact absurd hw (by decide)
                          have hw2 : w ≠ '-' := by intro h; subst h; exact absurd hw (by decide)
                          simp [hw1, hw2]
                        · rw [h'] at hnt
                          simp only [List.cons.injEq] at hnt h
                          rw [← hnt.1, ← h.1]
                          simpa using hs
                      | cons d2 n2 =>
                        simp only [List.cons_append, List.cons.injEq] at hnt h1
                        rw [← hnt.1, ← h1.1]
                        simpa using hs
                    simp only [hd1, Bool.false_eq_true, if_false]
                    rw [← hnt]
                    exact h3t
          · have hE : floatLoop fm fd fs x tk (c :: cs) = ⟨x, tk, c :: cs⟩ := by
              rw [floatLoop_cons, if_neg hd, if_neg hp, if_neg he]
            refine ⟨[], ?_, ?_, ?_⟩
            · rw [hE]; rfl
            · rw [hE]; rfl
            · intro t ht
              rw [hE] at ht ⊢
              simp only at ht
              rcases ht with h | ⟨w, ds, h, hw⟩ | ⟨c1, cs1, cs2, h, h'⟩
              · subst h; simp [floatLoop]
              · subst h; exact floatLoop_space fm fd fs x tk w ds hw
              · simp only [List.cons.injEq] at h
                rw [h', ← h.1, List.nil_append, floatLoop_cons, if_neg hd, if_neg hp, if_neg he]

theorem floatZeros_run (l : List Char) :
    ∀ (fm : Bool) (x tk : List Char),
      ∃ n, l = n ++ (floatZeros fm x tk l).rest
        ∧ (floatZeros fm x tk l).taken = n.reverse ++ tk
        ∧ ∀ t, headSim (floatZeros fm x tk l).rest t →
          floatZeros fm x tk (n ++ t)
            = ⟨(floatZeros fm x tk l).xtrc, (floatZeros fm x tk l).taken, t⟩ := by
  induction l with
  | nil =>
    intro fm x tk
    refine ⟨[], by simp [floatZeros], by simp [floatZeros], fun t ht => ?_⟩
    simp only [floatZeros] at ht ⊢
    rcases ht with h | ⟨w, ds, h, hw⟩ | ⟨c, cs, cs1, h, _⟩
    · subst h; simp [floatZeros]
    · subst h
      have hw0 : w ≠ '0' := by intro h; subst h; exact absurd hw (by decide)
      rw [List.nil_append, floatZeros_cons, if_neg hw0]
      exact floatLoop_space fm false false x tk w ds hw
    · exact List.noConfusion h
  | cons c cs ih =>
    intro fm x tk
    by_cases hz : c = '0'
    · obtain ⟨n, h1, h2, h3⟩ := ih true (if fm then x else x ++ ['0']) (c :: tk)
      have hE : floatZeros fm x tk (c :: cs)
          = floatZeros true (if fm then x else x ++ ['0']) (c :: tk) cs := by
        rw [floatZeros_cons, if_pos hz]
      refine ⟨c :: n, ?_, ?_, ?_⟩
      · rw [hE, List.cons_append, ← h1]
      · rw [hE, h2]; simp
      · intro t ht
        rw [hE] at ht ⊢
        rw [List.cons_append, floatZeros_cons, if_pos hz]
        exact h3 t ht
    · obtain ⟨n, h1, h2, h3⟩ := floatLoop_run (c :: cs).length (c :: cs) (Nat.le_refl _)
        fm false false x tk
      have hE : floatZeros fm x tk (c :: cs) = floatLoop fm false false x tk (c :: cs) := by
        rw [floatZeros_cons, if_neg hz]
      refine ⟨n, ?_, ?_, ?_⟩
      · rw [hE]; exact h1
      · rw [hE]; exact h2
      · intro t ht
        rw [hE] at ht ⊢
        have h3t := h3 t ht
        cases hnt : n ++ t with
        | nil =>
          rw [hnt] at h3t
          simp only [floatLoop] at h3t
          simp only [floatZeros]
          exact h3t
        | cons d1 ds1 =>
          have hd1 : d1 ≠ '0' := by
            cases n with
            | nil =>
              simp only [List.nil_append] at hnt h1
              rw [← h1] at ht
              rcases ht with h | ⟨w, ds2, h, hw⟩ | ⟨c1, cs1, cs2, h, h'⟩
              · rw [h] at hnt; exact List.noConfusion hnt
              · rw [h] at hnt
                simp only [List.cons.injEq] at hnt
                rw [← hnt.1]
                intro h; subst h; exact absurd hw (by decide)
              · rw [h'] at hnt
                simp only [List.cons.injEq] at hnt h
                rw [← hnt.1, ← h.1]
                exact hz
            | cons d2 n2 =>
              simp only [List.cons_append, List.cons.injEq] at hnt h1
              rw [← hnt.1, ← h1.1]
              exact hz
          rw [floatZeros_cons, if_neg hd1, ← hnt]
          exact h3t

/-- The run of the numeric scanner from a digit or a point depends on what follows the
characters it consumes only through the first character that follows. -/
theorem extractFloat_local (c : Char) (cs x t1 t2 : List Char)
    (hc : isdigit c = true ∨ c = '.')
    (h : extractFloat (c :: cs ++ t1) = ⟨x, (c :: cs).reverse, t1⟩) (ht : headSim t1 t2) :
    extractFloat (c :: cs ++ t2) = ⟨x, (c :: cs).reverse, t2⟩ := by
  have hsign : ∀ (l : List Char) (d : Char) (ds : List Char),
      l = d :: ds → d = c → d ≠ '+' ∧ d ≠ '-' := by
    intro l d ds _ hd
    subst hd
    rcases hc with h | h
    · exact ⟨by intro h'; subst h'; simp [isdigit] at h, by intro h'; subst h'; simp [isdigit] at h⟩
    · subst h; exact ⟨by decide, by decide⟩
  have hu1 : extractFloat (c :: cs ++ t1) = floatZeros false [] [] (c :: cs ++ t1) :=
    extractFloat_unsigned _ (fun d ds hl => by
      simp only [List.cons_append, List.cons.injEq] at hl
      exact hsign _ d ds rfl hl.1.symm)
  have hu2 : extractFloat (c :: cs ++ t2) = floatZeros false [] [] (c :: cs ++ t2) :=
    extractFloat_unsigned _ (fun d ds hl => by
      simp only [List.cons_append, List.cons.injEq] at hl
      exact hsign _ d ds rfl hl.1.symm)
  obtain ⟨n, h1, h2, h3⟩ := floatZeros_run (c :: cs ++ t1) false [] []
  rw [← hu1, h] at h1 h2 h3
  simp only at h1 h2 h3
  have hn : n = c :: cs := (List.append_cancel_right h1).symm
  subst hn
  rw [hu2]
  exact h3 t2 ht

theorem spacing_headSim (t1 t2 : List Char) (h : Spacing t1 t2) : headSim t1 t2 := by
  cases h with
  | nil => exact Or.inl rfl
  | space w _ t hw _ => exact Or.inr (Or.inl ⟨w, t, rfl, hw⟩)
  | char c a b _ _ _ => exact Or.inr (Or.inr ⟨c, a, b, rfl, rfl⟩)
  | num c cs x a b _ _ _ => exact Or.inr (Or.inr ⟨c, cs ++ a, cs ++ b, rfl, rfl⟩)


/-! ## Streams that differ by inserted spaces -/

theorem getChar_dead (s : IStream) (t : Char) (h : s.toBool = false) :
    (getChar s t).2 = t ∧ (getChar s t).1.toBool = false := by
  obtain ⟨b, r, e, f, bd⟩ := s
  cases e <;> cases f <;> cases bd <;> simp [IStream.toBool] at h <;>
    simp [getChar, sentry, IStream.good, IStream.toBool]

theorem putback_dead (s : IStream) (c : Char) (h : s.toBool = false) :
    (putback s c).toBool = false := by
  obtain ⟨b, r, e, f, bd⟩ := s
  cases e <;> cases f <;> cases bd <;> simp [IStream.toBool] at h <;>
    simp [putback, sentry, IStream.good, IStream.toBool]

theorem getDouble_dead {V : Type} (A : Arith V) (s : IStream) (v : V) (h : s.toBool = false) :
    (getDouble A s v).2 = v ∧ (getDouble A s v).1.toBool = false := by
  obtain ⟨b, r, e, f, bd⟩ := s
  cases e <;> cases f <;> cases bd <;> simp [IStream.toBool] at h <;>
    simp [getDouble, sentry, IStream.good, IStream.toBool]

theorem getDouble_clean {V : Type} (A : Arith V) (b : List Char) (c : Char) (cs : List Char)
    (v : V) (hc : isspace c = false) :
    getDouble A (IStream.clean b (c :: cs)) v
      = (⟨(extractFloat (c :: cs)).taken ++ b, (extractFloat (c :: cs)).rest,
            (extractFloat (c :: cs)).rest.isEmpty,
            (convert_to_v A (extractFloat (c :: cs)).xtrc).2, false⟩,
          (convert_to_v A (extractFloat (c :: cs)).xtrc).1) := by
  simp [getDouble, sentry, IStream.clean, IStream.good, skipws_cons b c cs hc]

theorem getChar_skip (b : List Char) (w : Char) (r : List Char) (t : Char)
    (hw : isspace w = true) :
    getChar ⟨b, w :: r, false, false, false⟩ t = getChar ⟨w :: b, r, false, false, false⟩ t := by
  simp [getChar, sentry, IStream.good, skipws, hw]

theorem sim_dead (s1 s2 : IStream) (h1 : s1.toBool = false) (h2 : s2.toBool = false) :
    Sim s1 s2 := Or.inl ⟨h1, h2⟩

theorem sim_clean (b1 b2 t1 t2 : List Char) (h : Spacing t1 t2) :
    Sim (IStream.clean b1 t1) (IStream.clean b2 t2) :=
  Or.inr ⟨rfl, rfl, fun h => Bool.noConfusion h, rfl, rfl, fun h => Bool.noConfusion h, h⟩

theorem isspace_of_numeric {c : Char} (hc : isdigit c = true ∨ c = '.') : isspace c = false := by
  rcases hc with h | h
  · exact isspace_of_isdigit h
  · subst h; decide

theorem getSim_dead {V : Type} (A : Arith V) (s1 s2 : IStream) (t : Char)
    (h1 : s1.toBool = false) (h2 : s2.toBool = false) :
    GetSim A (getChar s1 t) (getChar s2 t) := by
  obtain ⟨a1, a2⟩ := getChar_dead s1 t h1
  obtain ⟨c1, c2⟩ := getChar_dead s2 t h2
  refine ⟨by rw [a1, c1], by rw [a2, c2], fun _ => sim_dead _ _ a2 c2,
    fun h => by rw [a2] at h; exact Bool.noConfusion h, fun _ v => ?_⟩
  rw [a1]
  have p1 := putback_dead (getChar s1 t).1 t a2
  have p2 := putback_dead (getChar s2 t).1 t c2
  obtain ⟨d1, d2⟩ := getDouble_dead A _ v p1
  obtain ⟨e1, e2⟩ := getDouble_dead A _ v p2
  exact ⟨by rw [d1, e1], sim_dead _ _ d2 e2⟩

theorem getSim_spacing {V : Type} (A : Arith V) (r1 r2 : List Char) (h : Spacing r1 r2) :
    ∀ (b1 b2 : List Char) (e1 e2 : Bool) (t : Char), (e1 = true → r1 = []) →
      (e2 = true → r2 = []) →
      GetSim A (getChar ⟨b1, r1, e1, false, false⟩ t) (getChar ⟨b2, r2, e2, false, false⟩ t) := by
  induction h with
  | nil =>
    intro b1 b2 e1 e2 t _ _
    have h1 : ∀ (b : List Char) (e : Bool),
        (getChar ⟨b, [], e, false, false⟩ t).2 = t
          ∧ (getChar ⟨b, [], e, false, false⟩ t).1.toBool = false := by
      intro b e
      cases e <;> simp [getChar, sentry, IStream.good, IStream.toBool, skipws]
    obtain ⟨a1, a2⟩ := h1 b1 e1
    obtain ⟨c1, c2⟩ := h1 b2 e2
    refine ⟨by rw [a1, c1], by rw [a2, c2], fun _ => sim_dead _ _ a2 c2,
      fun h => by rw [a2] at h; exact Bool.noConfusion h, fun _ v => ?_⟩
    rw [a1]
    have p1 := putback_dead _ t a2
    have p2 := putback_dead _ t c2
    obtain ⟨d1, d2⟩ := getDouble_dead A _ v p1
    obtain ⟨e1, e2⟩ := getDouble_dead A _ v p2
    exact ⟨by rw [d1, e1], sim_dead _ _ d2 e2⟩
  | space w t1 t2 hw _ ih =>
    intro b1 b2 e1 e2 t he1 he2
    have : e2 = false := by
      cases e2 with
      | false => rfl
      | true => exact absurd (he2 rfl) (by simp)
    subst this
    rw [getChar_skip b2 w t2 t hw]
    exact ih b1 (w :: b2) e1 false t he1 (fun h => Bool.noConfusion h)
  | char c t1 t2 hd hp hs ih =>
    intro b1 b2 e1 e2 t he1 he2
    have : e1 = false := by
      cases e1 with
      | false => rfl
      | true => exact absurd (he1 rfl) (by simp)
    subst this
    have : e2 = false := by
      cases e2 with
      | false => rfl
      | true => exact absurd (he2 rfl) (by simp)
    subst this
    cases hw : isspace c with
    | true =>
      rw [getChar_skip b1 c t1 t hw, getChar_skip b2 c t2 t hw]
      exact ih (c :: b1) (c :: b2) false false t (fun h => Bool.noConfusion h)
        (fun h => Bool.noConfusion h)
    | false =>
      have g1 := getChar_clean b1 c t1 t hw
      have g2 := getChar_clean b2 c t2 t hw
      simp only [IStream.clean] at g1 g2
      rw [g1, g2]
      refine ⟨rfl, rfl, fun _ => sim_clean _ _ _ _ hs, fun _ => ?_, fun hnum => ?_⟩
      · have p1 := putback_clean b1 c t1
        have p2 := putback_clean b2 c t2
        simp only [IStream.clean] at p1 p2
        simp only [p1, p2]
        exact sim_clean _ _ _ _ (Spacing.char c t1 t2 hd hp hs)
      · simp [hd, hp] at hnum
  | num c cs x t1 t2 hc hx hs ih =>
    intro b1 b2 e1 e2 t he1 he2
    have : e1 = false := by
      cases e1 with
      | false => rfl
      | true => exact absurd (he1 rfl) (by simp)
    subst this
    have : e2 = false := by
      cases e2 with
      | false => rfl
      | true => exact absurd (he2 rfl) (by simp)
    subst this
    have hw := isspace_of_numeric hc
    have g1 := getChar_clean b1 c (cs ++ t1) t hw
    have g2 := getChar_clean b2 c (cs ++ t2) t hw
    have p1 := putback_clean b1 c (cs ++ t1)
    have p2 := putback_clean b2 c (cs ++ t2)
    simp only [IStream.clean, List.cons_append] at g1 g2 p1 p2 ⊢
    rw [g1, g2]
    have hnum : (isdigit c || decide (c = '.')) = true := by
      rcases hc with h | h
      · simp [h]
      · simp [h]
    refine ⟨rfl, rfl, fun h => ?_, fun _ => ?_, fun _ v => ?_⟩
    · simp only [] at h; rw [hnum] at h; exact Bool.noConfusion h
    · simp only [p1, p2]
      exact sim_clean _ _ _ _ (Spacing.num c cs x t1 t2 hc hx hs)
    · simp only [p1, p2]
      have hx2 := extractFloat_local c cs x t1 t2 hc hx (spacing_headSim t1 t2 hs)
      have d1 := getDouble_clean A b1 c (cs ++ t1) v hw
      have d2 := getDouble_clean A b2 c (cs ++ t2) v hw
      simp only [IStream.clean, List.cons_append] at d1 d2 hx hx2
      rw [d1, d2, hx, hx2]
      refine ⟨rfl, ?_⟩
      cases hcv : (convert_to_v A x).2 with
      | true => exact sim_dead _ _ (by simp [IStream.toBool]) (by simp [IStream.toBool])
      | false =>
        exact Or.inr ⟨rfl, rfl, fun h => by simpa using h, rfl, rfl, fun h => by simpa using h, hs⟩

theorem getChar_sim {V : Type} (A : Arith V) (s1 s2 : IStream) (t : Char) (h : Sim s1 s2) :
    GetSim A (getChar s1 t) (getChar s2 t) := by
  rcases h with ⟨h1, h2⟩ | ⟨f1, bd1, he1, f2, bd2, he2, hs⟩
  · exact getSim_dead A s1 s2 t h1 h2
  · obtain ⟨b1, r1, e1, fl1, d1⟩ := s1
    obtain ⟨b2, r2, e2, fl2, d2⟩ := s2
    simp only at f1 bd1 he1 f2 bd2 he2 hs
    subst f1 bd1 f2 bd2
    exact getSim_spacing A r1 r2 hs b1 b2 e1 e2 t he1 he2


/-- The seven parsing procedures have the same outcome on two streams that differ by
inserted spaces, for the same fuel. -/
theorem parse_sim {V : Type} (A : Arith V) (u : Indet V) (fuel : Nat) :
    (∀ s1 s2, Sim s1 s2 → ResSim (parsePrimary A u fuel s1) (parsePrimary A u fuel s2))
    ∧ (∀ left t s1 s2, Sim s1 s2 →
        ResSim (exponentLoop A u fuel left t s1) (exponentLoop A u fuel left t s2))
    ∧ (∀ s1 s2, Sim s1 s2 → ResSim (parseExponent A u fuel s1) (parseExponent A u fuel s2))
    ∧ (∀ left t s1 s2, Sim s1 s2 →
        ResSim (termLoop A u fuel left t s1) (termLoop A u fuel left t s2))
    ∧ (∀ s1 s2, Sim s1 s2 → ResSim (parseTerm A u fuel s1) (parseTerm A u fuel s2))
    ∧ (∀ left t s1 s2, Sim s1 s2 →
        ResSim (expressionLoop A u fuel left t s1) (expressionLoop A u fuel left t s2))
    ∧ (∀ s1 s2, Sim s1 s2 →
        ResSim (parseExpression A u fuel s1) (parseExpression A u fuel s2)) := by
  induction fuel with
  | zero =>
    refine ⟨?_, ?_, ?_, ?_, ?_, ?_, ?_⟩
    · intro s1 s2 _; rw [parsePrimary, parsePrimary]; exact ResSim.none
    · intro l t s1 s2 _; rw [exponentLoop, exponentLoop]; exact ResSim.none
    · intro s1 s2 _; rw [parseExponent, parseExponent]; exact ResSim.none
    · intro l t s1 s2 _; rw [termLoop, termLoop]; exact ResSim.none
    · intro s1 s2 _; rw [parseTerm, parseTerm]; exact ResSim.none
    · intro l t s1 s2 _; rw [expressionLoop, expressionLoop]; exact ResSim.none
    · intro s1 s2 _; rw [parseExpression, parseExpression]; exact ResSim.none
  | succ n ih =>
    obtain ⟨ihP, ihEL, ihE, ihTL, ihT, ihXL, ihX⟩ := ih
    refine ⟨?_, ?_, ?_, ?_, ?_, ?_, ?_⟩
    · intro s1 s2 hs
      rw [parsePrimary_succ, parsePrimary_succ]
      have hg := getChar_sim A s1 s2 u.token hs
      revert hg
      generalize getChar s1 u.token = g1
      generalize getChar s2 u.token = g2
      obtain ⟨a1, tok⟩ := g1
      obtain ⟨a2, tok2⟩ := g2
      rintro ⟨ht, hb, hsim, hput, hnum⟩
      simp only at ht hb hsim hput hnum ⊢
      subst ht
      by_cases hm : tok = '-'
      · subst hm
        simp only [if_true]
        have ih := ihP a1 a2 (hsim rfl)
        revert ih
        generalize parsePrimary A u n a1 = r1
        generalize parsePrimary A u n a2 = r2
        intro ih
        cases ih with
        | none => exact ResSim.none
        | error e => exact ResSim.error e
        | ok t x1 x2 hx => exact ResSim.ok _ _ _ hx
      · rw [if_neg hm, if_neg hm]
        by_cases hp : tok = '+'
        · subst hp
          simp only [if_true]
          have ih := ihP a1 a2 (hsim rfl)
          revert ih
          generalize parsePrimary A u n a1 = r1
          generalize parsePrimary A u n a2 = r2
          intro ih
          cases ih with
          | none => exact ResSim.none
          | error e => exact ResSim.error e
          | ok t x1 x2 hx => exact ResSim.ok _ _ _ hx
        · rw [if_neg hp, if_neg hp]
          by_cases hn : (isdigit tok || decide (tok = '.')) = true
          · rw [if_pos hn, if_pos hn]
            obtain ⟨hv, hs1⟩ := hnum hn u.value
            rw [hv]
            exact ResSim.ok _ _ _ hs1
          · rw [if_neg hn, if_neg hn]
            have hn1 : (isdigit tok || decide (tok = '.')) = false := by
              simpa using hn
            by_cases hl : tok = '('
            · subst hl
              simp only [if_true]
              have ih := ihX a1 a2 (hsim hn1)
              revert ih
              generalize parseExpression A u n a1 = r1
              generalize parseExpression A u n a2 = r2
              intro ih
              cases ih with
              | none => exact ResSim.none
              | error e => exact ResSim.error e
              | ok t x1 x2 hx =>
                simp only []
                have hg := getChar_sim A x1 x2 '(' hx
                revert hg
                generalize getChar x1 '(' = g1
                generalize getChar x2 '(' = g2
                obtain ⟨c1, k⟩ := g1
                obtain ⟨c2, k2⟩ := g2
                rintro ⟨ht, hb, hsim2, _, _⟩
                simp only at ht hb hsim2 ⊢
                subst ht
                rw [hb]
                by_cases hc : (!c2.toBool || decide (k ≠ ')')) = true
                · rw [if_pos hc, if_pos hc]
                  exact ResSim.error _
                · rw [if_neg hc, if_neg hc]
                  have hk : k = ')' := by
                    simp only [Bool.or_eq_true, Bool.not_eq_true', decide_eq_true_eq,
                      not_or, Bool.not_eq_false, ne_eq, not_not] at hc
                    exact hc.2
                  subst hk
                  exact ResSim.ok _ _ _ (hsim2 rfl)
            · rw [if_neg hl, if_neg hl]
              exact ResSim.error _
    · intro left t s1 s2 hs
      rw [exponentLoop_succ, exponentLoop_succ]
      have hg := getChar_sim A s1 s2 t hs
      revert hg
      generalize getChar s1 t = g1
      generalize getChar s2 t = g2
      obtain ⟨a1, tok⟩ := g1
      obtain ⟨a2, tok2⟩ := g2
      rintro ⟨ht, hb, hsim, hput, _⟩
      simp only at ht hb hsim hput ⊢
      subst ht
      rw [hb] at hput ⊢
      by_cases hc : (a2.toBool && decide (tok = '^')) = true
      · rw [if_pos hc, if_pos hc]
        simp only [Bool.and_eq_true, decide_eq_true_eq] at hc
        have htok := hc.2
        subst htok
        have ih := ihP a1 a2 (hsim rfl)
        revert ih
        generalize parsePrimary A u n a1 = r1
        generalize parsePrimary A u n a2 = r2
        intro ih
        cases ih with
        | none => exact ResSim.none
        | error e => exact ResSim.error e
        | ok r x1 x2 hx => exact ihEL _ _ x1 x2 hx
      · rw [if_neg hc, if_neg hc]
        cases hb2 : a2.toBool with
        | true =>
          simp only [if_true]
          exact ResSim.ok _ _ _ (hput hb2)
        | false =>
          simp only [Bool.false_eq_true, if_false]
          exact ResSim.ok _ _ _ (sim_dead _ _ (by rw [hb, hb2]) hb2)
    · intro s1 s2 hs
      rw [parseExponent_succ, parseExponent_succ]
      have ih := ihP s1 s2 hs
      revert ih
      generalize parsePrimary A u n s1 = r1
      generalize parsePrimary A u n s2 = r2
      intro ih
      cases ih with
      | none => exact ResSim.none
      | error e => exact ResSim.error e
      | ok r x1 x2 hx => exact ihEL _ _ x1 x2 hx
    · intro left t s1 s2 hs
      rw [termLoop_succ, termLoop_succ]
      have hg := getChar_sim A s1 s2 t hs
      revert hg
      generalize getChar s1 t = g1
      generalize getChar s2 t = g2
      obtain ⟨a1, tok⟩ := g1
      obtain ⟨a2, tok2⟩ := g2
      rintro ⟨ht, hb, hsim, hput, _⟩
      simp only at ht hb hsim hput ⊢
      subst ht
      rw [hb] at hput ⊢
      by_cases hc : (a2.toBool && (decide (tok = '*') || decide (tok = '/'))) = true
      · rw [if_pos hc, if_pos hc]
        simp only [Bool.and_eq_true, Bool.or_eq_true, decide_eq_true_eq] at hc
        have hnn : (isdigit tok || decide (tok = '.')) = false := by
          rcases hc.2 with h | h <;> subst h <;> decide
        have ih := ihE a1 a2 (hsim hnn)
        revert ih
        generalize parseExponent A u n a1 = r1
        generalize parseExponent A u n a2 = r2
        intro ih
        cases ih with
        | none => exact ResSim.none
        | error e => exact ResSim.error e
        | ok r x1 x2 hx => exact ihTL _ _ x1 x2 hx
      · rw [if_neg hc, if_neg hc]
        cases hb2 : a2.toBool with
        | true =>
          simp only [if_true]
          exact ResSim.ok _ _ _ (hput hb2)
        | false =>
          simp only [Bool.false_eq_true, if_false]
          exact ResSim.ok _ _ _ (sim_dead _ _ (by rw [hb, hb2]) hb2)
    · intro s1 s2 hs
      rw [parseTerm_succ, parseTerm_succ]
      have ih := ihE s1 s2 hs
      revert ih
      generalize parseExponent A u n s1 = r1
      generalize parseExponent A u n s2 = r2
      intro ih
      cases ih with
      | none => exact ResSim.none
      | error e => exact ResSim.error e
      | ok r x1 x2 hx => exact ihTL _ _ x1 x2 hx
    · intro left t s1 s2 hs
      rw [expressionLoop_succ, expressionLoop_succ]
      have hg := getChar_sim A s1 s2 t hs
      revert hg
      generalize getChar s1 t = g1
      generalize getChar s2 t = g2
      obtain ⟨a1, tok⟩ := g1
      obtain ⟨a2, tok2⟩ := g2
      rintro ⟨ht, hb, hsim, hput, _⟩
      simp only at ht hb hsim hput ⊢
      subst ht
      rw [hb] at hput ⊢
      by_cases hc : (a2.toBool && (decide (tok = '+') || decide (tok = '-'))) = true
      · rw [if_pos hc, if_pos hc]
        simp only [Bool.and_eq_true, Bool.or_eq_true, decide_eq_true_eq] at hc
        have hnn : (isdigit tok || decide (tok = '.')) = false := by
          rcases hc.2 with h | h <;> subst h <;> decide
        have ih := ihT a1 a2 (hsim hnn)
        revert ih
        generalize parseTerm A u n a1 = r1
        generalize parseTerm A u n a2 = r2
        intro ih
        cases ih with
        | none => exact ResSim.none
        | error e => exact ResSim.error e
        | ok r x1 x2 hx => exact ihXL _ _ x1 x2 hx
      · rw [if_neg hc, if_neg hc]
        cases hb2 : a2.toBool with
        | true =>
          simp only [if_true]
          exact ResSim.ok _ _ _ (hput hb2)
        | false =>
          simp only [Bool.false_eq_true, if_false]
          exact ResSim.ok _ _ _ (sim_dead _ _ (by rw [hb, hb2]) hb2)
    · intro s1 s2 hs
      rw [parseExpression_succ, parseExpression_succ]
      have ih := ihT s1 s2 hs
      revert ih
      generalize parseTerm A u n s1 = r1
      generalize parseTerm A u n s2 = r2
      intro ih
      cases ih with
      | none => exact ResSim.none
      | error e => exact ResSim.error e
      | ok r x1 x2 hx => exact ihXL _ _ x1 x2 hx


/-- C13 as amended: for every input text, inserting any amount of whitespace between its
lexical units (before or after an operator character, a parenthesis, any other single
character, or a whole run of the numeric scanner, but not inside such a run) leaves the
outcome of `parseExpression` unchanged, whatever the fuel: the same tree, the same error,
or no result.  A run of the numeric scanner is what it consumes at once from a digit or a
point: the digits and the point of a numeral and, after a mantissa, an exponent marker
`e` or `E` with an optional sign and digits, also when no exponent digit follows. -/
theorem C13_whitespace_between_tokens {V : Type} (A : Arith V) (u : Indet V)
    (t1 t2 : List Char) (h : Spacing t1 t2) (fuel : Nat) :
    parseText A u fuel t1 = parseText A u fuel t2 := by
  have hs : Sim (IStream.mk0 t1) (IStream.mk0 t2) :=
    Or.inr ⟨rfl, rfl, fun h => Bool.noConfusion h, rfl, rfl, fun h => Bool.noConfusion h, h⟩
  have hr := (parse_sim A u fuel).2.2.2.2.2.2 _ _ hs
  simp only [parseText]
  revert hr
  generalize parseExpression A u fuel (IStream.mk0 t1) = r1
  generalize parseExpression A u fuel (IStream.mk0 t2) = r2
  intro hr
  cases hr with
  | none => rfl
  | error e => rfl
  | ok t x1 x2 _ => rfl

/-- C13 as amended, at `(2+3)*4`, with exact arithmetic: the text ` ( 2 + 3 ) * 4 ` is
that text with spaces inserted around its tokens, and it is parsed into the same tree. -/
theorem C13_whitespace_between_tokens_witness :
    Spacing "(2+3)*4".toList " ( 2 + 3 ) * 4 ".toList
    ∧ (∀ fuel, parseText fracArith junk fuel "(2+3)*4".toList
        = parseText fracArith junk fuel " ( 2 + 3 ) * 4 ".toList)
    ∧ (∃ N, ∀ fuel, N ≤ fuel →
        parseText fracArith junk fuel " ( 2 + 3 ) * 4 ".toList
          = some (.ok (.operator '*'
              (some (.operator '+' (some (.operand ⟨2, 1⟩)) (.operand ⟨3, 1⟩)))
              (.operand ⟨4, 1⟩)))) := by
  have hsp : Spacing "(2+3)*4".toList " ( 2 + 3 ) * 4 ".toList :=
    Spacing.space ' ' _ _ rfl
      (Spacing.char '(' _ _ rfl (by decide)
        (Spacing.space ' ' _ _ rfl
          (Spacing.num '2' [] ['2'] "+3)*4".toList _ (Or.inl rfl) rfl
            (Spacing.space ' ' _ _ rfl
              (Spacing.char '+' _ _ rfl (by decide)
                (Spacing.space ' ' _ _ rfl
                  (Spacing.num '3' [] ['3'] ")*4".toList _ (Or.inl rfl) rfl
                    (Spacing.space ' ' _ _ rfl
                      (Spacing.char ')' _ _ rfl (by decide)
                        (Spacing.space ' ' _ _ rfl
                          (Spacing.char '*' _ _ rfl (by decide)
                            (Spacing.space ' ' _ _ rfl
                              (Spacing.num '4' [] ['4'] [] _ (Or.inl rfl) rfl
                                (Spacing.space ' ' _ _ rfl Spacing.nil))))))))))))))
  refine ⟨hsp, fun fuel => C13_whitespace_between_tokens fracArith junk _ _ hsp fuel, ?_⟩
  obtain ⟨N, hN⟩ := parseText_wf_nil fracArith junk
    (.bin '*' (.paren (.bin '+' (.int ['2']) (.int ['3']))) (.int ['4'])) (by decide)
  exact ⟨N, fun fuel hfuel => by
    rw [← C13_whitespace_between_tokens fracArith junk _ _ hsp fuel]
    exact hN fuel hfuel⟩


/-! ## The simpler program -/

theorem simple_parsePrimary_succ {V : Type} (A : Arith V) (u : Indet V) (fuel : Nat)
    (s : IStream) :
    Simple.parsePrimary A u (fuel + 1) s =
      if isdigit (getChar s u.token).2 || (getChar s u.token).2 = '.'
          || (getChar s u.token).2 = '-' || (getChar s u.token).2 = '+' then
        some (.ok (.operand (getDouble A (putback (getChar s u.token).1 (getChar s u.token).2)
            u.value).2,
          (getDouble A (putback (getChar s u.token).1 (getChar s u.token).2) u.value).1))
      else if (getChar s u.token).2 = '(' then
        match Simple.parseExpression A u fuel (getChar s u.token).1 with
        | some (.ok (node, s2)) =>
          if !(getChar s2 (getChar s u.token).2).1.toBool
              || (getChar s2 (getChar s u.token).2).2 ≠ ')' then
            some (.error "Mismatched parentheses")
          else some (.ok (node, (getChar s2 (getChar s u.token).2).1))
        | other => other
      else some (.error "Invalid expression") := by
  rw [Simple.parsePrimary]

theorem simple_termLoop_succ {V : Type} (A : Arith V) (u : Indet V) (fuel : Nat)
    (left : Simple.Node V) (t : Char) (s : IStream) :
    Simple.termLoop A u (fuel + 1) left t s =
      if (getChar s t).1.toBool
          && (decide ((getChar s t).2 = '*') || decide ((getChar s t).2 = '/')) then
        match Simple.parsePrimary A u fuel (getChar s t).1 with
        | some (.ok (right, s2)) =>
          Simple.termLoop A u fuel (.operator (getChar s t).2 left right) (getChar s t).2 s2
        | some (.error e) => some (.error e)
        | none => none
      else some (.ok (left, if (getChar s t).1.toBool then putback (getChar s t).1 (getChar s t).2
                            else (getChar s t).1)) := by
  rw [Simple.termLoop]

theorem simple_expressionLoop_succ {V : Type} (A : Arith V) (u : Indet V) (fuel : Nat)
    (left : Simple.Node V) (t : Char) (s : IStream) :
    Simple.expressionLoop A u (fuel + 1) left t s =
      if (getChar s t).1.toBool
          && (decide ((getChar s t).2 = '+') || decide ((getChar s t).2 = '-')) then
        match Simple.parseTerm A u fuel (getChar s t).1 with
        | some (.ok (right, s2)) =>
          Simple.expressionLoop A u fuel (.operator (getChar s t).2 left right)
            (getChar s t).2 s2
        | some (.error e) => some (.error e)
        | none => none
      else some (.ok (left, if (getChar s t).1.toBool then putback (getChar s t).1 (getChar s t).2
                            else (getChar s t).1)) := by
  rw [Simple.expressionLoop]

theorem simple_parseTerm_succ {V : Type} (A : Arith V) (u : Indet V) (fuel : Nat)
    (s : IStream) :
    Simple.parseTerm A u (fuel + 1) s =
      match Simple.parsePrimary A u fuel s with
      | some (.ok (left, s1)) => Simple.termLoop A u fuel left u.token s1
      | other => other := by
  rw [Simple.parseTerm]

theorem simple_parseExpression_succ {V : Type} (A : Arith V) (u : Indet V) (fuel : Nat)
    (s : IStream) :
    Simple.parseExpression A u (fuel + 1) s =
      match Simple.parseTerm A u fuel s with
      | some (.ok (left, s1)) => Simple.expressionLoop A u fuel left u.token s1
      | other => other := by
  rw [Simple.parseExpression]

/-- A result of the simpler parser does not change when more fuel is given. -/
theorem simple_mono {V : Type} (A : Arith V) (u : Indet V) (fuel : Nat) :
    (∀ s r, Simple.parsePrimary A u fuel s = some r →
        Simple.parsePrimary A u (fuel + 1) s = some r)
    ∧ (∀ left t s r, Simple.termLoop A u fuel left t s = some r →
        Simple.termLoop A u (fuel + 1) left t s = some r)
    ∧ (∀ s r, Simple.parseTerm A u fuel s = some r →
        Simple.parseTerm A u (fuel + 1) s = some r)
    ∧ (∀ left t s r, Simple.expressionLoop A u fuel left t s = some r →
        Simple.expressionLoop A u (fuel + 1) left t s = some r)
    ∧ (∀ s r, Simple.parseExpression A u fuel s = some r →
        Simple.parseExpression A u (fuel + 1) s = some r) := by
  induction fuel with
  | zero =>
    refine ⟨?_, ?_, ?_, ?_, ?_⟩
    · intro s r h; rw [Simple.parsePrimary] at h; exact Option.noConfusion h
    · intro l t s r h; rw [Simple.termLoop] at h; exact Option.noConfusion h
    · intro s r h; rw [Simple.parseTerm] at h; exact Option.noConfusion h
    · intro l t s r h; rw [Simple.expressionLoop] at h; exact Option.noConfusion h
    · intro s r h; rw [Simple.parseExpression] at h; exact Option.noConfusion h
  | succ n ih =>
    obtain ⟨ihP, ihTL, ihT, ihXL, ihX⟩ := ih
    refine ⟨?_, ?_, ?_, ?_, ?_⟩
    · intro s r h
      rw [simple_parsePrimary_succ] at h ⊢
      split at h
      · rename_i c1; rw [if_pos c1]; exact h
      · rename_i c1
        rw [if_neg c1]
        split at h
        · rename_i c2
          rw [if_pos c2]
          cases hsub : Simple.parseExpression A u n (getChar s u.token).1 with
          | none => rw [hsub] at h; exact Option.noConfusion h
          | some x => rw [hsub] at h; rw [ihX _ _ hsub]; exact h
        · rename_i c2; rw [if_neg c2]; exact h
    · intro left t s r h
      rw [simple_termLoop_succ] at h ⊢
      split at h
      · rename_i c1
        rw [if_pos c1]
        cases hsub : Simple.parsePrimary A u n (getChar s t).1 with
        | none => rw [hsub] at h; exact Option.noConfusion h
        | some x =>
          rw [hsub] at h
          rw [ihP _ _ hsub]
          rcases x with e | ⟨right, s2⟩
          · exact h
          · exact ihTL _ _ _ _ h
      · rename_i c1; rw [if_neg c1]; exact h
    · intro s r h
      rw [simple_parseTerm_succ] at h ⊢
      cases hsub : Simple.parsePrimary A u n s with
      | none => rw [hsub] at h; exact Option.noConfusion h
      | some x =>
        rw [hsub] at h
        rw [ihP _ _ hsub]
        rcases x with e | ⟨left, s1⟩
        · exact h
        · exact ihTL _ _ _ _ h
    · intro left t s r h
      rw [simple_expressionLoop_succ] at h ⊢
      split at h
      · rename_i c1
        rw [if_pos c1]
        cases hsub : Simple.parseTerm A u n (getChar s t).1 with
        | none => rw [hsub] at h; exact Option.noConfusion h
        | some x =>
          rw [hsub] at h
          rw [ihT _ _ hsub]
          rcases x with e | ⟨right, s2⟩
          · exact h
          · exact ihXL _ _ _ _ h
      · rename_i c1; rw [if_neg c1]; exact h
    · intro s r h
      rw [simple_parseExpression_succ] at h ⊢
      cases hsub : Simple.parseTerm A u n s with
      | none => rw [hsub] at h; exact Option.noConfusion h
      | some x =>
        rw [hsub] at h
        rw [ihT _ _ hsub]
        rcases x with e | ⟨left, s1⟩
        · exact h
        · exact ihXL _ _ _ _ h

theorem simple_parseExpression_mono {V : Type} (A : Arith V) (u : Indet V) (fuel : Nat)
    (s : IStream) (r : Simple.Parsed V) (h : Simple.parseExpression A u fuel s = some r) :
    ∀ k, Simple.parseExpression A u (fuel + k) s = some r := by
  intro k
  induction k with
  | zero => exact h
  | succ k ih => exact (simple_mono A u (fuel + k)).2.2.2.2 s r ih

theorem simple_parsePrimary_mono1 {V : Type} (A : Arith V) (u : Indet V) (fuel : Nat)
    (s : IStream) (r : Simple.Parsed V) (h : Simple.parsePrimary A u fuel s = some r) :
    Simple.parsePrimary A u (fuel + 1) s = some r :=
  (simple_mono A u fuel).1 s r h


/-! ## Streams on which the next extraction does the same -/

theorem skipws_dropws (r : List Char) : ∀ b, (skipws b r).2 = dropws r := by
  induction r with
  | nil => intro b; rfl
  | cons c cs ih =>
    intro b
    simp only [skipws, dropws]
    split
    · exact ih _
    · rfl

theorem nextTok_dropws (r : List Char) :
    (dropws r = [] → nextTok r = none)
    ∧ (∀ c cs, dropws r = c :: cs → nextTok r = some c ∧ isspace c = false) := by
  induction r with
  | nil => exact ⟨fun _ => rfl, fun c cs h => List.noConfusion h⟩
  | cons d ds ih =>
    simp only [dropws, nextTok]
    cases hd : isspace d with
    | true => simpa using ih
    | false =>
      refine ⟨fun h => by simp at h, fun c cs h => ?_⟩
      simp only [Bool.false_eq_true, if_false, List.cons.injEq] at h
      simp only [Bool.false_eq_true, if_false]
      exact ⟨by rw [h.1], by rw [← h.1]; exact hd⟩

theorem stream_cases (s : IStream) :
    exhausted s ∨ (s.failbit = false ∧ s.badbit = false ∧ s.eofbit = false
      ∧ ∃ c cs, dropws s.rest = c :: cs) := by
  obtain ⟨b, r, e, f, bd⟩ := s
  cases f with
  | true => exact Or.inl (Or.inl (by simp [IStream.toBool]))
  | false =>
    cases bd with
    | true => exact Or.inl (Or.inl (by simp [IStream.toBool]))
    | false =>
      cases e with
      | true => exact Or.inl (Or.inr (Or.inl rfl))
      | false =>
        cases h : dropws r with
        | nil => exact Or.inl (Or.inr (Or.inr h))
        | cons c cs => exact Or.inr ⟨rfl, rfl, rfl, c, cs, rfl⟩

theorem getChar_eofbit (s : IStream) (t : Char) (h : s.eofbit = true) :
    (getChar s t).2 = t ∧ (getChar s t).1.toBool = false := by
  obtain ⟨b, r, e, f, bd⟩ := s
  simp only at h
  subst h
  simp [getChar, sentry, IStream.good, IStream.toBool]

theorem getChar_exhausted (s : IStream) (t : Char) (h : exhausted s) :
    (getChar s t).2 = t ∧ (getChar s t).1.toBool = false := by
  rcases h with h | h | h
  · exact getChar_dead s t h
  · exact getChar_eofbit s t h
  · cases hd : s.toBool with
    | false => exact getChar_dead s t hd
    | true =>
      cases he : s.eofbit with
      | true => exact getChar_eofbit s t he
      | false =>
        obtain ⟨b, r, e, f, bd⟩ := s
        simp only [IStream.toBool, Bool.and_eq_true, Bool.not_eq_true'] at hd he h
        obtain ⟨hf, hb⟩ := hd
        subst hf hb he
        have hs : skipws b r = ((skipws b r).1, []) := by
          rw [← h, ← skipws_dropws r b]
        simp only [getChar, sentry, IStream.good, Bool.not_false, Bool.and_self, if_true,
          Bool.false_eq_true, if_false]
        rw [hs]
        exact ⟨rfl, rfl⟩

theorem getChar_live (s : IStream) (t : Char) (c : Char) (cs : List Char)
    (hf : s.failbit = false) (hb : s.badbit = false) (he : s.eofbit = false)
    (h : dropws s.rest = c :: cs) :
    ∃ b, getChar s t = (IStream.clean (c :: b) cs, c) ∧ isspace c = false := by
  obtain ⟨b, r, e, f, bd⟩ := s
  simp only at hf hb he h
  subst hf hb he
  have hs : skipws b r = ((skipws b r).1, c :: cs) := by
    rw [← h, ← skipws_dropws r b]
  refine ⟨(skipws b r).1, ?_, ((nextTok_dropws r).2 c cs h).2⟩
  simp only [getChar, sentry, IStream.good, Bool.not_false, Bool.and_self, if_true,
    Bool.false_eq_true, if_false]
  rw [hs]
  rfl

theorem dropws_nonspace (c : Char) (cs : List Char) (h : isspace c = false) :
    dropws (c :: cs) = c :: cs := by
  simp [dropws, h]

theorem obs_dead (s2 s1 : IStream) (h2 : s2.toBool = false) (h1 : s1.toBool = false) :
    Obs s2 s1 := Or.inl ⟨Or.inl h2, Or.inl h1⟩

theorem obs_same_rest (s2 s1 : IStream) (hr : s2.rest = s1.rest) (he : s2.eofbit = s1.eofbit)
    (hf : s2.failbit = s1.failbit) (hb : s2.badbit = s1.badbit) : Obs s2 s1 := by
  rcases stream_cases s2 with h | ⟨f, bd, e, c, cs, h⟩
  · refine Or.inl ⟨h, ?_⟩
    rcases h with h | h | h
    · exact Or.inl (by simpa [IStream.toBool, hf, hb] using h)
    · exact Or.inr (Or.inl (by rw [← he]; exact h))
    · exact Or.inr (Or.inr (by rw [← hr]; exact h))
  · exact Or.inr ⟨f, bd, e, by rw [← hf]; exact f, by rw [← hb]; exact bd,
      by rw [← he]; exact e, by rw [hr]⟩

theorem exhausted_of_obs_left (s2 s1 : IStream) (h : Obs s2 s1) (h2 : exhausted s2) :
    exhausted s1 := by
  rcases h with ⟨_, h1⟩ | ⟨f2, b2, e2, f1, b1, e1, hd⟩
  · exact h1
  · rcases h2 with h | h | h
    · simp [IStream.toBool, f2, b2] at h
    · rw [e2] at h; exact Bool.noConfusion h
    · exact Or.inr (Or.inr (by rw [← hd]; exact h))

theorem exhausted_of_obs_right (s2 s1 : IStream) (h : Obs s2 s1) (h1 : exhausted s1) :
    exhausted s2 := by
  rcases h with ⟨h2, _⟩ | ⟨f2, b2, e2, f1, b1, e1, hd⟩
  · exact h2
  · rcases h1 with h | h | h
    · simp [IStream.toBool, f1, b1] at h
    · rw [e1] at h; exact Bool.noConfusion h
    · exact Or.inr (Or.inr (by rw [hd]; exact h))

theorem obs_trans (s3 s2 s1 : IStream) (h32 : Obs s3 s2) (h21 : Obs s2 s1) : Obs s3 s1 := by
  rcases h32 with ⟨e3, e2⟩ | ⟨f3, b3, e3, f2, b2, e2, hd⟩
  · exact Or.inl ⟨e3, exhausted_of_obs_left s2 s1 h21 e2⟩
  · rcases h21 with ⟨x2, x1⟩ | ⟨_, _, _, f1, b1, e1, hd1⟩
    · exact Or.inl ⟨exhausted_of_obs_right s3 s2 (Or.inr ⟨f3, b3, e3, f2, b2, e2, hd⟩) x2, x1⟩
    · exact Or.inr ⟨f3, b3, e3, f1, b1, e1, hd.trans hd1⟩

/-- Reading a token from two streams on which the next extraction does the same: both
extractions fail and keep the token, or both read the same character and leave the same
characters unread. -/
theorem getChar_obs (s2 s1 : IStream) (t : Char) (h : Obs s2 s1) :
    ((getChar s2 t).2 = t ∧ (getChar s2 t).1.toBool = false
      ∧ (getChar s1 t).2 = t ∧ (getChar s1 t).1.toBool = false)
    ∨ (∃ c cs b2 b1, dropws s2.rest = c :: cs ∧ isspace c = false
      ∧ getChar s2 t = (IStream.clean (c :: b2) cs, c)
      ∧ getChar s1 t = (IStream.clean (c :: b1) cs, c)) := by
  rcases stream_cases s2 with h2 | ⟨f2, bd2, e2, c, cs, hd2⟩
  · have h1 := exhausted_of_obs_left s2 s1 h h2
    exact Or.inl ⟨(getChar_exhausted s2 t h2).1, (getChar_exhausted s2 t h2).2,
      (getChar_exhausted s1 t h1).1, (getChar_exhausted s1 t h1).2⟩
  · rcases h with ⟨x2, _⟩ | ⟨_, _, _, f1, bd1, e1, hd⟩
    · rcases x2 with x | x | x
      · simp [IStream.toBool, f2, bd2] at x
      · rw [e2] at x; exact Bool.noConfusion x
      · rw [hd2] at x; exact List.noConfusion x
    · obtain ⟨b2, g2, hc⟩ := getChar_live s2 t c cs f2 bd2 e2 hd2
      obtain ⟨b1, g1, _⟩ := getChar_live s1 t c cs f1 bd1 e1 (by rw [← hd]; exact hd2)
      exact Or.inr ⟨c, cs, b2, b1, hd2, hc, g2, g1⟩

/-! ## Texts of the common fragment -/

theorem fragOK_cons (c : Char) (cs : List Char) (h : fragOK (c :: cs) = true) :
    c ≠ '^' ∧ fragOK cs = true
      ∧ ((c = '+' ∨ c = '-' ∨ c = '*' ∨ c = '/' ∨ c = '(') → opndOK cs = true) := by
  simp only [fragOK, Bool.and_eq_true, decide_eq_true_eq, Bool.or_eq_true,
    Bool.not_eq_true'] at h
  refine ⟨h.1.1, h.2, fun hc => ?_⟩
  rcases h.1.2 with h' | h'
  · simp only [Bool.or_eq_false_iff, decide_eq_false_iff_not] at h'
    rcases hc with hc | hc | hc | hc | hc
    · exact absurd hc h'.1.1.1.1
    · exact absurd hc h'.1.1.1.2
    · exact absurd hc h'.1.1.2
    · exact absurd hc h'.1.2
    · exact absurd hc h'.2
  · exact h'

theorem fragOK_suffix (n t : List Char) (h : fragOK (n ++ t) = true) : fragOK t = true := by
  induction n with
  | nil => exact h
  | cons c cs ih => exact ih (fragOK_cons c (cs ++ t) h).2.1

theorem fragOK_dropws (r : List Char) (h : fragOK r = true) : fragOK (dropws r) = true := by
  induction r with
  | nil => exact h
  | cons c cs ih =>
    simp only [dropws]
    split
    · exact ih (fragOK_cons c cs h).2.1
    · exact h

theorem opndOK_head (r : List Char) (c : Char) (cs : List Char) (hd : dropws r = c :: cs)
    (h : opndOK r = true) : c ≠ '+' ∧ c ≠ '-' := by
  have hn := ((nextTok_dropws r).2 c cs hd).1
  simp only [opndOK, hn, Bool.and_eq_true, decide_eq_true_eq, ne_eq, Option.some.injEq] at h
  exact h

theorem extractFloat_suffix (c : Char) (cs : List Char) (hc : isdigit c = true ∨ c = '.') :
    ∃ n, c :: cs = n ++ (extractFloat (c :: cs)).rest := by
  have hu : extractFloat (c :: cs) = floatZeros false [] [] (c :: cs) :=
    extractFloat_unsigned _ (fun d ds hl => by
      simp only [List.cons.injEq] at hl
      rw [← hl.1]
      rcases hc with h | h
      · exact ⟨by intro h'; subst h'; simp [isdigit] at h,
          by intro h'; subst h'; simp [isdigit] at h⟩
      · subst h; exact ⟨by decide, by decide⟩)
  obtain ⟨n, h1, _, _⟩ := floatZeros_run (c :: cs) false [] []
  exact ⟨n, by rw [hu]; exact h1⟩


theorem parsePrimary_dead_sign {V : Type} (A : Arith V) (u : Indet V)
    (hu : u.token = '-' ∨ u.token = '+') (fuel : Nat) :
    ∀ s : IStream, s.toBool = false → parsePrimary A u fuel s = none := by
  induction fuel with
  | zero => intro s _; rw [parsePrimary]
  | succ n ih =>
    intro s h
    obtain ⟨ht, hd⟩ := getChar_dead s u.token h
    rw [parsePrimary_succ, ht]
    rcases hu with hm | hp
    · rw [if_pos hm, ih _ hd]
    · have hm : u.token ≠ '-' := by rw [hp]; decide
      rw [if_neg hm, if_pos hp, ih _ hd]

/-- Without a `^` ahead the loop of `parseExponent` returns its left operand, and the next
extraction does the same on the stream it leaves. -/
theorem exponentLoop_frag {V : Type} (A : Arith V) (u : Indet V) (m : Nat) (left : Node V)
    (t : Char) (x2 : IStream) (r2 : Parsed V) (hf : FragInv x2)
    (h : exponentLoop A u m left t x2 = some r2) :
    ∃ x, r2 = .ok (left, x) ∧ Obs x x2 ∧ FragInv x := by
  cases m with
  | zero => rw [exponentLoop] at h; exact Option.noConfusion h
  | succ m =>
    rw [exponentLoop_succ] at h
    rcases stream_cases x2 with hx | ⟨f2, bd2, e2, c, cs, hd⟩
    · obtain ⟨_, hdead⟩ := getChar_exhausted x2 t hx
      simp only [hdead, Bool.false_and, Bool.false_eq_true, if_false, Option.some.injEq] at h
      exact ⟨_, h.symm, Or.inl ⟨Or.inl hdead, hx⟩,
        fun hh => by rw [hdead] at hh; exact Bool.noConfusion hh⟩
    · obtain ⟨b, hg, hc⟩ := getChar_live x2 t c cs f2 bd2 e2 hd
      have htb : x2.toBool = true := by simp [IStream.toBool, f2, bd2]
      have hfr : fragOK (c :: cs) = true := by rw [← hd]; exact fragOK_dropws _ (hf htb)
      have hne : c ≠ '^' := (fragOK_cons c cs hfr).1
      rw [hg] at h
      simp only [toBool_clean, hne, decide_False, Bool.and_false, Bool.false_eq_true, if_false,
        if_true, putback_clean, Option.some.injEq] at h
      refine ⟨_, h.symm, Or.inr ⟨rfl, rfl, rfl, f2, bd2, e2, ?_⟩, fun _ => hfr⟩
      simp only [IStream.clean]
      rw [dropws_nonspace c cs hc, hd]

theorem getChar_agree {V : Type} (A : Arith V) (s2 s1 : IStream) (t : Char) (h : Obs s2 s1)
    (hf : FragInv s2) : GetAgree A s2 t (getChar s2 t) (getChar s1 t) := by
  rcases getChar_obs s2 s1 t h with ⟨t2, d2, t1, d1⟩ | ⟨c, cs, b2, b1, hd, hc, g2, g1⟩
  · have dead : ∀ s : IStream, s.toBool = false → FragInv s :=
      fun s hs hh => by rw [hs] at hh; exact Bool.noConfusion hh
    have deadO : ∀ s : IStream, s.toBool = false → OpndInv s :=
      fun s hs hh => by rw [hs] at hh; exact Bool.noConfusion hh
    refine ⟨by rw [t2, t1], by rw [d2, d1], obs_dead _ _ d2 d1, dead _ d2, fun _ => deadO _ d2,
      fun _ => t2, fun hh => by rw [d2] at hh; exact Bool.noConfusion hh, fun _ v => ?_⟩
    have p2 := putback_dead (getChar s2 t).1 (getChar s2 t).2 d2
    have p1 := putback_dead (getChar s1 t).1 (getChar s2 t).2 d1
    obtain ⟨v2, x2⟩ := getDouble_dead A _ v p2
    obtain ⟨v1, x1⟩ := getDouble_dead A _ v p1
    exact ⟨by rw [v2, v1], obs_dead _ _ x2 x1, dead _ x2⟩
  · have htb : s2.toBool = true := by
      rcases stream_cases s2 with hx | ⟨f2, bd2, _, _⟩
      · obtain ⟨_, hdead⟩ := getChar_exhausted s2 t hx
        rw [g2] at hdead
        exact absurd hdead (by simp [toBool_clean])
      · simp [IStream.toBool, f2, bd2]
    have hfr : fragOK (c :: cs) = true := by rw [← hd]; exact fragOK_dropws _ (hf htb)
    obtain ⟨hne, hfcs, hop⟩ := fragOK_cons c cs hfr
    rw [g2, g1]
    refine ⟨rfl, rfl, obs_same_rest _ _ rfl rfl rfl rfl, fun _ => hfcs, fun hc5 _ => hop hc5,
      fun hh => by simp [toBool_clean] at hh, fun _ => ⟨hne, fun ho => ⟨(opndOK_head _ c cs hd (ho htb)).2, (opndOK_head _ c cs hd (ho htb)).1⟩,
        ?_, ?_⟩, fun hnum v => ?_⟩
    · simp only [putback_clean]
      exact obs_same_rest _ _ rfl rfl rfl rfl
    · simp only [putback_clean]
      exact fun _ => hfr
    · simp only [putback_clean]
      rw [getDouble_clean A b2 c cs v hc, getDouble_clean A b1 c cs v hc]
      refine ⟨rfl, obs_same_rest _ _ rfl rfl rfl rfl, fun _ => ?_⟩
      have hcn : isdigit c = true ∨ c = '.' := by
        simp only [Bool.or_eq_true, decide_eq_true_eq] at hnum
        exact hnum
      obtain ⟨n, hn⟩ := extractFloat_suffix c cs hcn
      rw [hn] at hfr
      exact fragOK_suffix n _ hfr

theorem obs_refl (s : IStream) : Obs s s := obs_same_rest s s rfl rfl rfl rfl


theorem fragInv_dead (s : IStream) (h : s.toBool = false) : FragInv s :=
  fun hh => by rw [h] at hh; exact Bool.noConfusion hh

/-- The test for the closing parenthesis has the same outcome in the two programs. -/
theorem paren_agree {V : Type} (A : Arith V) (t : Simple.Node V) (x2 x1 : IStream) (tok : Char)
    (r2 : Parsed V) (hx : Obs x2 x1) (hf : FragInv x2) (ha : t.arith = true)
    (h : (if !(getChar x2 tok).1.toBool || (getChar x2 tok).2 ≠ ')' then
            (some (.error "Mismatched parentheses") : Option (Parsed V))
          else some (.ok (t.embed, (getChar x2 tok).1))) = some r2) :
    ∃ r1, (if !(getChar x1 tok).1.toBool || (getChar x1 tok).2 ≠ ')' then
            (some (.error "Mismatched parentheses") : Option (Simple.Parsed V))
          else some (.ok (t, (getChar x1 tok).1))) = some r1 ∧ Agree r2 r1 := by
  have hg := getChar_agree A x2 x1 tok hx hf
  revert hg h
  generalize getChar x2 tok = g2
  generalize getChar x1 tok = g1
  obtain ⟨a2, k⟩ := g2
  obtain ⟨a1, k1⟩ := g1
  rintro h ⟨hk, hb, hobs, hfr, _, _, _, _⟩
  simp only at hk hb hobs hfr h ⊢
  subst hk
  rw [← hb]
  by_cases hc : (!a2.toBool || decide (k ≠ ')')) = true
  · rw [if_pos hc] at h ⊢
    exact ⟨_, rfl, by rw [← Option.some.inj h]; exact Agree.error _⟩
  · rw [if_neg hc] at h ⊢
    exact ⟨_, rfl, by rw [← Option.some.inj h]; exact Agree.ok t a2 a1 hobs hfr ha⟩

/-- Whenever a procedure of the complete parser returns on a stream that is left with a
text of the common fragment, the corresponding procedure of the simpler parser returns
the same outcome with the same fuel. -/
theorem parsers_agree {V : Type} (A : Arith V) (u : Indet V) (m : Nat) :
    (∀ s2 s1 r2, Obs s2 s1 → FragInv s2 → OpndInv s2 →
      parsePrimary A u m s2 = some r2 →
      ∃ r1, Simple.parsePrimary A u m s1 = some r1 ∧ Agree r2 r1)
    ∧ (∀ s2 s1 r2, Obs s2 s1 → FragInv s2 → OpndInv s2 →
      parseExponent A u m s2 = some r2 →
      ∃ r1, Simple.parsePrimary A u m s1 = some r1 ∧ Agree r2 r1)
    ∧ (∀ (left : Simple.Node V) t s2 s1 r2, Obs s2 s1 → FragInv s2 → left.arith = true →
      termLoop A u m left.embed t s2 = some r2 →
      ∃ r1, Simple.termLoop A u m left t s1 = some r1 ∧ Agree r2 r1)
    ∧ (∀ s2 s1 r2, Obs s2 s1 → FragInv s2 → OpndInv s2 →
      parseTerm A u m s2 = some r2 →
      ∃ r1, Simple.parseTerm A u m s1 = some r1 ∧ Agree r2 r1)
    ∧ (∀ (left : Simple.Node V) t s2 s1 r2, Obs s2 s1 → FragInv s2 → left.arith = true →
      expressionLoop A u m left.embed t s2 = some r2 →
      ∃ r1, Simple.expressionLoop A u m left t s1 = some r1 ∧ Agree r2 r1)
    ∧ (∀ s2 s1 r2, Obs s2 s1 → FragInv s2 → OpndInv s2 →
      parseExpression A u m s2 = some r2 →
      ∃ r1, Simple.parseExpression A u m s1 = some r1 ∧ Agree r2 r1) := by
  induction m with
  | zero =>
    refine ⟨?_, ?_, ?_, ?_, ?_, ?_⟩
    · intro s2 s1 r2 _ _ _ h; rw [parsePrimary] at h; exact Option.noConfusion h
    · intro s2 s1 r2 _ _ _ h; rw [parseExponent] at h; exact Option.noConfusion h
    · intro l t s2 s1 r2 _ _ _ h; rw [termLoop] at h; exact Option.noConfusion h
    · intro s2 s1 r2 _ _ _ h; rw [parseTerm] at h; exact Option.noConfusion h
    · intro l t s2 s1 r2 _ _ _ h; rw [expressionLoop] at h; exact Option.noConfusion h
    · intro s2 s1 r2 _ _ _ h; rw [parseExpression] at h; exact Option.noConfusion h
  | succ n ih =>
    obtain ⟨ihP, ihE, ihTL, ihT, ihXL, ihX⟩ := ih
    refine ⟨?_, ?_, ?_, ?_, ?_, ?_⟩
    · intro s2 s1 r2 hobs hfrag hopnd h
      rw [parsePrimary_succ] at h
      rw [simple_parsePrimary_succ]
      have hg := getChar_agree A s2 s1 u.token hobs hfrag
      revert hg h
      generalize getChar s2 u.token = g2
      generalize getChar s1 u.token = g1
      obtain ⟨a2, tok⟩ := g2
      obtain ⟨a1, tok1⟩ := g1
      rintro h ⟨hk, hb, hob, hfr, hop, hstale, hlive, hnum⟩
      simp only at hk hb hob hfr hop hstale hlive hnum h ⊢
      subst hk
      have hsign : tok = '-' ∨ tok = '+' →
          ∀ f, parsePrimary A u f a2 = none := by
        intro hs f
        cases htb : a2.toBool with
        | true =>
          obtain ⟨_, hns, _, _⟩ := hlive htb
          obtain ⟨h1, h2⟩ := hns hopnd
          rcases hs with hs | hs
          · exact absurd hs h1
          · exact absurd hs h2
        | false =>
          have := hstale htb
          exact parsePrimary_dead_sign A u (by rw [← this]; exact hs) f a2 htb
      by_cases hm : tok = '-'
      · rw [if_pos hm, hsign (Or.inl hm) n] at h
        exact Option.noConfusion h
      · rw [if_neg hm] at h
        by_cases hp : tok = '+'
        · rw [if_pos hp, hsign (Or.inr hp) n] at h
          exact Option.noConfusion h
        · rw [if_neg hp] at h
          by_cases hn : (isdigit tok || decide (tok = '.')) = true
          · rw [if_pos hn] at h
            have hn4 : (isdigit tok || decide (tok = '.') || decide (tok = '-')
                || decide (tok = '+')) = true := by simp [hn]
            rw [if_pos hn4]
            obtain ⟨hv, hox, hfx⟩ := hnum hn u.value
            refine ⟨_, rfl, ?_⟩
            rw [← Option.some.inj h, hv]
            exact Agree.ok (.operand _) _ _ hox hfx rfl
          · rw [if_neg hn] at h
            have hn4 : ¬ (isdigit tok || decide (tok = '.') || decide (tok = '-')
                || decide (tok = '+')) = true := by
              simp only [Bool.or_eq_true, decide_eq_true_eq, not_or] at hn ⊢
              exact ⟨⟨hn, hm⟩, hp⟩
            rw [if_neg hn4]
            by_cases hl : tok = '('
            · rw [if_pos hl] at h
              rw [if_pos hl]
              cases hsub : parseExpression A u n a2 with
              | none => rw [hsub] at h; exact Option.noConfusion h
              | some rp =>
                rw [hsub] at h
                obtain ⟨r1p, hs1, hag⟩ := ihX a2 a1 rp hob hfr
                  (hop (Or.inr (Or.inr (Or.inr (Or.inr hl))))) hsub
                rw [hs1]
                cases hag with
                | error e =>
                  exact ⟨_, rfl, by rw [← Option.some.inj h]; exact Agree.error e⟩
                | ok t x2 x1 hx hf ha => exact paren_agree A t x2 x1 tok r2 hx hf ha h
            · rw [if_neg hl] at h
              rw [if_neg hl]
              exact ⟨_, rfl, by rw [← Option.some.inj h]; exact Agree.error _⟩
    · intro s2 s1 r2 hobs hfrag hopnd h
      rw [parseExponent_succ] at h
      cases hsub : parsePrimary A u n s2 with
      | none => rw [hsub] at h; exact Option.noConfusion h
      | some rp =>
        rw [hsub] at h
        obtain ⟨r1p, hs1, hag⟩ := ihP s2 s1 rp hobs hfrag hopnd hsub
        have hs2 := simple_parsePrimary_mono1 A u n s1 r1p hs1
        cases hag with
        | error e =>
          exact ⟨_, hs2, by rw [← Option.some.inj h]; exact Agree.error e⟩
        | ok t x2 x1 hx hf ha =>
          obtain ⟨x, hr, hox, hfx⟩ := exponentLoop_frag A u n t.embed u.token x2 r2 hf h
          exact ⟨_, hs2, by rw [hr]; exact Agree.ok t x x1 (obs_trans _ _ _ hox hx) hfx ha⟩
    · intro left t s2 s1 r2 hobs hfrag hla h
      rw [termLoop_succ] at h
      rw [simple_termLoop_succ]
      have hg := getChar_agree A s2 s1 t hobs hfrag
      revert hg h
      generalize getChar s2 t = g2
      generalize getChar s1 t = g1
      obtain ⟨a2, tok⟩ := g2
      obtain ⟨a1, tok1⟩ := g1
      rintro h ⟨hk, hb, hob, hfr, hop, _, hlive, _⟩
      simp only at hk hb hob hfr hop hlive h ⊢
      subst hk
      rw [← hb]
      by_cases hc : (a2.toBool && (decide (tok = '*') || decide (tok = '/'))) = true
      · rw [if_pos hc] at h
        rw [if_pos hc]
        simp only [Bool.and_eq_true, Bool.or_eq_true, decide_eq_true_eq] at hc
        have hop5 : tok = '+' ∨ tok = '-' ∨ tok = '*' ∨ tok = '/' ∨ tok = '(' := by
          rcases hc.2 with h' | h'
          · exact Or.inr (Or.inr (Or.inl h'))
          · exact Or.inr (Or.inr (Or.inr (Or.inl h')))
        have hta : (decide (tok = '+') || decide (tok = '-') || decide (tok = '*')
            || decide (tok = '/')) = true := by
          rcases hc.2 with h' | h' <;> simp [h']
        cases hsub : parseExponent A u n a2 with
        | none => rw [hsub] at h; exact Option.noConfusion h
        | some rp =>
          rw [hsub] at h
          obtain ⟨r1p, hs1, hag⟩ := ihE a2 a1 rp hob hfr (hop hop5) hsub
          rw [hs1]
          cases hag with
          | error e =>
            exact ⟨_, rfl, by rw [← Option.some.inj h]; exact Agree.error e⟩
          | ok r x2 x1 hx hf ha =>
            exact ihTL (.operator tok left r) tok x2 x1 r2 hx hf
              (by simp only [Simple.Node.arith, hta, hla, ha, Bool.and_self]) h
      · rw [if_neg hc] at h
        rw [if_neg hc]
        refine ⟨_, rfl, ?_⟩
        rw [← Option.some.inj h]
        cases htb : a2.toBool with
        | true =>
          obtain ⟨_, _, hpo, hpf⟩ := hlive htb
          simp only [if_true]
          exact Agree.ok left _ _ hpo hpf hla
        | false =>
          simp only [Bool.false_eq_true, if_false]
          exact Agree.ok left _ _ hob hfr hla
    · intro s2 s1 r2 hobs hfrag hopnd h
      rw [parseTerm_succ] at h
      rw [simple_parseTerm_succ]
      cases hsub : parseExponent A u n s2 with
      | none => rw [hsub] at h; exact Option.noConfusion h
      | some rp =>
        rw [hsub] at h
        obtain ⟨r1p, hs1, hag⟩ := ihE s2 s1 rp hobs hfrag hopnd hsub
        rw [hs1]
        cases hag with
        | error e =>
          exact ⟨_, rfl, by rw [← Option.some.inj h]; exact Agree.error e⟩
        | ok t x2 x1 hx hf ha => exact ihTL t u.token x2 x1 r2 hx hf ha h
    · intro left t s2 s1 r2 hobs hfrag hla h
      rw [expressionLoop_succ] at h
      rw [simple_expressionLoop_succ]
      have hg := getChar_agree A s2 s1 t hobs hfrag
      revert hg h
      generalize getChar s2 t = g2
      generalize getChar s1 t = g1
      obtain ⟨a2, tok⟩ := g2
      obtain ⟨a1, tok1⟩ := g1
      rintro h ⟨hk, hb, hob, hfr, hop, _, hlive, _⟩
      simp only at hk hb hob hfr hop hlive h ⊢
      subst hk
      rw [← hb]
      by_cases hc : (a2.toBool && (decide (tok = '+') || decide (tok = '-'))) = true
      · rw [if_pos hc] at h
        rw [if_pos hc]
        simp only [Bool.and_eq_true, Bool.or_eq_true, decide_eq_true_eq] at hc
        have hop5 : tok = '+' ∨ tok = '-' ∨ tok = '*' ∨ tok = '/' ∨ tok = '(' := by
          rcases hc.2 with h' | h'
          · exact Or.inl h'
          · exact Or.inr (Or.inl h')
        have hta : (decide (tok = '+') || decide (tok = '-') || decide (tok = '*')
            || decide (tok = '/')) = true := by
          rcases hc.2 with h' | h' <;> simp [h']
        cases hsub : parseTerm A u n a2 with
        | none => rw [hsub] at h; exact Option.noConfusion h
        | some rp =>
          rw [hsub] at h
          obtain ⟨r1p, hs1, hag⟩ := ihT a2 a1 rp hob hfr (hop hop5) hsub
          rw [hs1]
          cases hag with
          | error e =>
            exact ⟨_, rfl, by rw [← Option.some.inj h]; exact Agree.error e⟩
          | ok r x2 x1 hx hf ha =>
            exact ihXL (.operator tok left r) tok x2 x1 r2 hx hf
              (by simp only [Simple.Node.arith, hta, hla, ha, Bool.and_self]) h
      · rw [if_neg hc] at h
        rw [if_neg hc]
        refine ⟨_, rfl, ?_⟩
        rw [← Option.some.inj h]
        cases htb : a2.toBool with
        | true =>
          obtain ⟨_, _, hpo, hpf⟩ := hlive htb
          simp only [if_true]
          exact Agree.ok left _ _ hpo hpf hla
        | false =>
          simp only [Bool.false_eq_true, if_false]
          exact Agree.ok left _ _ hob hfr hla
    · intro s2 s1 r2 hobs hfrag hopnd h
      rw [parseExpression_succ] at h
      rw [simple_parseExpression_succ]
      cases hsub : parseTerm A u n s2 with
      | none => rw [hsub] at h; exact Option.noConfusion h
      | some rp =>
        rw [hsub] at h
        obtain ⟨r1p, hs1, hag⟩ := ihT s2 s1 rp hobs hfrag hopnd hsub
        rw [hs1]
        cases hag with
        | error e =>
          exact ⟨_, rfl, by rw [← Option.some.inj h]; exact Agree.error e⟩
        | ok t x2 x1 hx hf ha => exact ihXL t u.token x2 x1 r2 hx hf ha h


/-- On a tree built from `+ - * /` the two methods `evaluate` return the same value or
fail with the same error. -/
theorem simple_evaluate_embed {V : Type} (A : Arith V) (t : Simple.Node V)
    (h : t.arith = true) : Simple.evaluate A t = evaluate A t.embed := by
  induction t with
  | operand value => rfl
  | operator op left right ihl ihr =>
    simp only [Simple.Node.arith, Bool.and_eq_true, Bool.or_eq_true, decide_eq_true_eq] at h
    simp only [Simple.evaluate, Simple.Node.embed, evaluate, ihl h.1.2, ihr h.2]
    cases evaluate A left.embed with
    | error e => rfl
    | ok lv =>
      cases evaluate A right.embed with
      | error e => rfl
      | ok rv =>
        rcases h.1.1 with ((h' | h') | h') | h' <;> subst h' <;> simp

theorem fragOK_plain (x r : List Char) (hx : ∀ c ∈ x, isdigit c = true ∨ c = '.')
    (hr : fragOK r = true) : fragOK (x ++ r) = true := by
  induction x with
  | nil => exact hr
  | cons c cs ih =>
    have hcs := ih (fun d hd => hx d (by simp [hd]))
    have hc := hx c (by simp)
    have h1 : c ≠ '^' := by
      rcases hc with h | h
      · intro h'; subst h'; exact absurd h (by decide)
      · subst h; decide
    have h2 : (decide (c = '+') || decide (c = '-') || decide (c = '*') || decide (c = '/')
        || decide (c = '(')) = false := by
      rcases hc with h | h
      · simp only [Bool.or_eq_false_iff, decide_eq_false_iff_not]
        refine ⟨⟨⟨⟨?_, ?_⟩, ?_⟩, ?_⟩, ?_⟩ <;> (intro h'; subst h'; exact absurd h (by decide))
      · subst h; decide
    rw [List.cons_append, fragOK, h2, hcs]
    simp [h1]

theorem opndOK_cons (c : Char) (cs : List Char) (hs : isspace c = false) (hp : c ≠ '+')
    (hm : c ≠ '-') : opndOK (c :: cs) = true := by
  simp [opndOK, nextTok, hs, hp, hm]

/-- The text of a well-formed expression of the common fragment, followed by a text of
the common fragment, has no `^` and no sign in operand position. -/
theorem common_frag {V : Type} (A : Arith V) (e : Syn) (hwf : e.wf A = true)
    (hc : e.common = true) :
    ∀ r, fragOK r = true → fragOK (e.render ++ r) = true ∧ opndOK (e.render ++ r) = true := by
  induction e with
  | num ip fp =>
    intro r hr
    simp only [Syn.wf, Bool.and_eq_true, List.all_eq_true, Bool.not_eq_true',
      List.isEmpty_eq_false] at hwf
    obtain ⟨⟨⟨hip, hfp⟩, hne⟩, _⟩ := hwf
    have hall : ∀ c ∈ ip ++ fracText fp, isdigit c = true ∨ c = '.' := by
      intro c hcm
      rcases List.mem_append.1 hcm with h | h
      · exact Or.inl (hip c h)
      · cases fp with
        | none => simp [fracText] at h
        | some f =>
          simp only [fracText, List.mem_cons] at h
          rcases h with h | h
          · exact Or.inr h
          · exact Or.inl (hfp c (by simpa [fracDigits] using h))
    refine ⟨fragOK_plain _ r hall hr, ?_⟩
    have hfirst : ∃ c cs, ip ++ fracText fp = c :: cs := by
      cases ip with
      | cons d ds => exact ⟨d, _, rfl⟩
      | nil =>
        cases fp with
        | none => simp [fracDigits] at hne
        | some f => exact ⟨'.', _, rfl⟩
    obtain ⟨c, cs, hcs⟩ := hfirst
    have hcn := hall c (by rw [hcs]; simp)
    simp only [Syn.render, hcs, List.cons_append]
    refine opndOK_cons c _ (isspace_of_numeric hcn) ?_ ?_
    · rcases hcn with h | h
      · intro h'; subst h'; exact absurd h (by decide)
      · subst h; decide
    · rcases hcn with h | h
      · intro h'; subst h'; exact absurd h (by decide)
      · subst h; decide
  | paren e ih =>
    intro r hr
    simp only [Syn.wf] at hwf
    simp only [Syn.common] at hc
    have hr1 : fragOK (')' :: r) = true := by
      rw [fragOK, hr]; simp
    obtain ⟨h1, h2⟩ := ih hwf hc (')' :: r) hr1
    have key : (Syn.paren e).render ++ r = '(' :: (e.render ++ ')' :: r) := by
      simp [Syn.render]
    rw [key]
    refine ⟨?_, opndOK_cons '(' _ (by decide) (by decide) (by decide)⟩
    rw [fragOK, h1, h2]
    simp
  | neg p _ => simp [Syn.common] at hc
  | pos p _ => simp [Syn.common] at hc
  | bin op l r ihl ihr =>
    intro t ht
    simp only [Syn.wf, Bool.and_eq_true] at hwf
    simp only [Syn.common, Bool.and_eq_true, Bool.or_eq_true, decide_eq_true_eq] at hc
    obtain ⟨r1, r2⟩ := ihr hwf.1.2 hc.2 t ht
    have hop : fragOK (op :: (r.render ++ t)) = true := by
      have hne : op ≠ '^' := by
        rcases hc.1.1 with ((h | h) | h) | h <;> subst h <;> decide
      rw [fragOK, r1, r2]
      simp [hne]
    obtain ⟨l1, l2⟩ := ihl hwf.1.1 hc.1.2 (op :: (r.render ++ t)) hop
    simp only [Syn.render, List.append_assoc, List.cons_append]
    exact ⟨l1, l2⟩

theorem commonText_render {V : Type} (A : Arith V) (e : Syn) (hwf : e.wf A = true)
    (hc : e.common = true) : commonText e.render = true := by
  obtain ⟨h1, h2⟩ := common_frag A e hwf hc [] rfl
  simp only [List.append_nil] at h1 h2
  simp [commonText, h1, h2]

/-- On a text of the common fragment, an outcome of the complete parser at some fuel is
the outcome of the simpler parser at that fuel and at every larger one. -/
theorem parseText_agree {V : Type} (A : Arith V) (u : Indet V) (text : List Char)
    (fuel : Nat) (r2 : Except String (Node V)) (hc : commonText text = true)
    (h : parseText A u fuel text = some r2) :
    ∃ r1, (∀ k, Simple.parseText A u (fuel + k) text = some r1) ∧ sameOutcome r2 r1
      ∧ ∀ t1, r1 = .ok t1 → t1.arith = true := by
  simp only [commonText, Bool.and_eq_true] at hc
  simp only [parseText] at h
  cases hx : parseExpression A u fuel (IStream.mk0 text) with
  | none => rw [hx] at h; exact Option.noConfusion h
  | some rr =>
    rw [hx] at h
    obtain ⟨r1, hs, hag⟩ := (parsers_agree A u fuel).2.2.2.2.2 (IStream.mk0 text)
      (IStream.mk0 text) rr (obs_refl _) (fun _ => hc.2) (fun _ => hc.1) hx
    have hm := simple_parseExpression_mono A u fuel (IStream.mk0 text) r1 hs
    cases hag with
    | error e =>
      simp only [Option.some.injEq] at h
      refine ⟨.error e, fun k => by simp only [Simple.parseText, hm k], ?_, ?_⟩
      · rw [← h]; exact rfl
      · intro t1 ht; exact Except.noConfusion ht
    | ok t x2 x1 _ _ ha =>
      simp only [Option.some.injEq] at h
      refine ⟨.ok t, fun k => by simp only [Simple.parseText, hm k], ?_, ?_⟩
      · rw [← h]; exact rfl
      · intro t1 ht
        simp only [Except.ok.injEq] at ht
        rw [← ht]; exact ha

theorem embed_injective {V : Type} (t1 : Simple.Node V) :
    ∀ t2 : Simple.Node V, t1.embed = t2.embed → t1 = t2 := by
  induction t1 with
  | operand v =>
    intro t2 h
    cases t2 with
    | operand w =>
      simp only [Simple.Node.embed, Node.operand.injEq] at h
      rw [h]
    | operator op l r => simp [Simple.Node.embed] at h
  | operator op l r ihl ihr =>
    intro t2 h
    cases t2 with
    | operand w => simp [Simple.Node.embed] at h
    | operator op2 l2 r2 =>
      simp only [Simple.Node.embed, Node.operator.injEq, Option.some.injEq] at h
      rw [h.1, ihl l2 h.2.1, ihr r2 h.2.2]

theorem simpleTree_embed {V : Type} (A : Arith V) (e : Syn) (hc : e.common = true) :
    (e.simpleTree A).embed = e.tree A := by
  induction e with
  | num ip fp => rfl
  | paren e ih => exact ih hc
  | neg p _ => simp [Syn.common] at hc
  | pos p _ => simp [Syn.common] at hc
  | bin op l r ihl ihr =>
    simp only [Syn.common, Bool.and_eq_true] at hc
    simp only [Syn.simpleTree, Simple.Node.embed, Syn.tree, ihl hc.1.2, ihr hc.2]

/-- C18: the two programs agree on their common fragment.  For every well-formed
expression text built from unsigned numerals, the binary operators `+ - * /` and
parentheses, the simpler parser and the complete parser both return the tree of the
text, and the two methods `evaluate` return the same value or fail with the same error
on it.  Moreover, for every text at all without `^` and without a sign in operand
position, whenever the complete parser returns a tree or fails with an error, the simpler
parser returns the same tree or fails with the same error, and the two evaluations of the
tree agree. -/
theorem C18_parsers_agree_on_common_fragment {V : Type} (A : Arith V) (u : Indet V) :
    (∀ e : Syn, e.wf A = true → e.common = true →
      (∃ N, ∀ fuel, N ≤ fuel →
        Simple.parseText A u fuel e.render = some (.ok (e.simpleTree A))
          ∧ parseText A u fuel e.render = some (.ok (e.tree A)))
      ∧ (e.simpleTree A).embed = e.tree A
      ∧ Simple.evaluate A (e.simpleTree A) = evaluate A (e.tree A))
    ∧ (∀ (text : List Char) (fuel : Nat) (r2 : Except String (Node V)),
      commonText text = true → parseText A u fuel text = some r2 →
      ∃ r1, (∀ k, Simple.parseText A u (fuel + k) text = some r1) ∧ sameOutcome r2 r1
        ∧ ∀ t1, r1 = .ok t1 → Simple.evaluate A t1 = evaluate A t1.embed) := by
  have hgen : ∀ (text : List Char) (fuel : Nat) (r2 : Except String (Node V)),
      commonText text = true → parseText A u fuel text = some r2 →
      ∃ r1, (∀ k, Simple.parseText A u (fuel + k) text = some r1) ∧ sameOutcome r2 r1
        ∧ ∀ t1, r1 = .ok t1 → Simple.evaluate A t1 = evaluate A t1.embed := by
    intro text fuel r2 hc h
    obtain ⟨r1, h1, h2, h3⟩ := parseText_agree A u text fuel r2 hc h
    exact ⟨r1, h1, h2, fun t1 ht => simple_evaluate_embed A t1 (h3 t1 ht)⟩
  refine ⟨fun e hwf hc => ?_, hgen⟩
  have hemb := simpleTree_embed A e hc
  obtain ⟨N, hN⟩ := parseText_wf_nil A u e hwf
  obtain ⟨r1, h1, h2, h3⟩ := parseText_agree A u e.render N (.ok (e.tree A))
    (commonText_render A e hwf hc) (hN N (Nat.le_refl N))
  have hr1 : r1 = .ok (e.simpleTree A) := by
    cases r1 with
    | error m => exact False.elim h2
    | ok t1 =>
      have : e.tree A = t1.embed := h2
      rw [← hemb] at this
      rw [embed_injective _ _ this]
  subst hr1
  refine ⟨⟨N, fun fuel hfuel => ⟨?_, hN fuel hfuel⟩⟩, hemb, ?_⟩
  · obtain ⟨k, rfl⟩ : ∃ k, fuel = N + k := ⟨fuel - N, by omega⟩
    exact h1 k
  · rw [← hemb]
    exact simple_evaluate_embed A _ (h3 _ rfl)

/-- C18 at `(2+3)*4` and at `5/(2-2)`, with exact arithmetic: both parsers return the
same tree, which evaluates to 20 in both programs for the first text and fails with
"Division by zero" in both for the second; and on `(2+3` the simpler parser fails with
"Mismatched parentheses" like the complete one. -/
theorem C18_parsers_agree_on_common_fragment_witness :
    ((∃ N, ∀ fuel, N ≤ fuel →
        Simple.parseText fracArith junk fuel "(2+3)*4".toList
            = some (.ok (.operator '*' (.operator '+' (.operand ⟨2, 1⟩) (.operand ⟨3, 1⟩))
                (.operand ⟨4, 1⟩)))
          ∧ parseText fracArith junk fuel "(2+3)*4".toList
            = some (.ok (.operator '*'
                (some (.operator '+' (some (.operand ⟨2, 1⟩)) (.operand ⟨3, 1⟩)))
                (.operand ⟨4, 1⟩))))
      ∧ Simple.evaluate fracArith
          (.operator '*' (.operator '+' (.operand ⟨2, 1⟩) (.operand ⟨3, 1⟩)) (.operand ⟨4, 1⟩))
        = .ok ⟨20, 1⟩)
    ∧ ((∃ N, ∀ fuel, N ≤ fuel →
        Simple.parseText fracArith junk fuel "5/(2-2)".toList
            = some (.ok (.operator '/' (.operand ⟨5, 1⟩)
                (.operator '-' (.operand ⟨2, 1⟩) (.operand ⟨2, 1⟩))))
          ∧ parseText fracArith junk fuel "5/(2-2)".toList
            = some (.ok (.operator '/' (some (.operand ⟨5, 1⟩))
                (.operator '-' (some (.operand ⟨2, 1⟩)) (.operand ⟨2, 1⟩)))))
      ∧ Simple.evaluate fracArith
          (.operator '/' (.operand ⟨5, 1⟩) (.operator '-' (.operand ⟨2, 1⟩) (.operand ⟨2, 1⟩)))
        = .error "Division by zero")
    ∧ (∃ N, ∀ fuel, N ≤ fuel →
        Simple.parseText fracArith junk fuel "(2+3".toList
          = some (.error "Mismatched parentheses")) := by
  have h1 := (C18_parsers_agree_on_common_fragment fracArith junk).1
    (.bin '*' (.paren (.bin '+' (.int ['2']) (.int ['3']))) (.int ['4'])) (by decide) (by decide)
  have h2 := (C18_parsers_agree_on_common_fragment fracArith junk).1
    (.bin '/' (.int ['5']) (.paren (.bin '-' (.int ['2']) (.int ['2'])))) (by decide) (by decide)
  refine ⟨⟨h1.1, by rfl⟩, ⟨h2.1, by rfl⟩, ?_⟩
  obtain ⟨N, hN⟩ := parsePrimary_mismatched fracArith junk (.bin '+' (.int ['2']) (.int ['3']))
    (by decide) [] [] (ends_nil _) (by decide)
  have hc := parseText_error fracArith junk N "(2+3".toList "Mismatched parentheses"
    (hN N (Nat.le_refl N))
  obtain ⟨r1, ha, hb, _⟩ := (C18_parsers_agree_on_common_fragment fracArith junk).2
    "(2+3".toList (N + 3) _ (by decide) hc
  have hr1 : r1 = .error "Mismatched parentheses" := by
    cases r1 with
    | error m => have : "Mismatched parentheses" = m := hb; rw [this]
    | ok t1 => exact False.elim hb
  subst hr1
  refine ⟨N + 3, fun fuel hfuel => ?_⟩
  obtain ⟨k, rfl⟩ : ∃ k, fuel = N + 3 + k := ⟨fuel - (N + 3), by omega⟩
  exact ha k


/-! ## Numerals that overflow `double` -/

theorem digitsVal_one_zeros (n : Nat) : digitsVal ('1' :: List.replicate n '0') = 10 ^ n := by
  induction n with
  | zero => rfl
  | succ n ih =>
    have h : '1' :: List.replicate (n + 1) '0' = ('1' :: List.replicate n '0') ++ ['0'] := by
      rw [List.replicate_succ', List.cons_append]
    rw [h, digitsVal_snoc, ih, pow_succ]
    have : ('0' : Char).toNat - 48 = 0 := by decide
    rw [this]
    omega

theorem bigLiteral_digits : ∀ c ∈ bigLiteral, isdigit c = true := by
  intro c hc
  simp only [bigLiteral, List.mem_cons, List.mem_replicate] at hc
  rcases hc with h | ⟨_, h⟩ <;> subst h <;> decide

theorem bigLiteral_overflows :
    rangedArith.eq (litValue rangedArith bigLiteral []) rangedArith.infinity = true := by
  have hv : digitsVal (bigLiteral ++ []) = 10 ^ 309 := by
    rw [List.append_nil]; exact digitsVal_one_zeros 309
  have hb : overflowBound ≤ 10 ^ 309 * 10 ^ 0 := by
    simp only [overflowBound]; norm_num
  simp only [litValue, hv, rangedArith, List.length_nil, Nat.cast_zero, neg_zero, le_refl,
    if_true, Int.toNat_zero, hb, decide_True, Bool.false_eq_true, if_false]

/-- A numeral whose conversion overflows: the operand holds `max`, and the stream is left
where the scanner stopped, with `failbit`. -/
theorem parsePrimary_overflow {V : Type} (A : Arith V) (u : Indet V) (ip : List Char)
    (fp : Option (List Char)) (b r : List Char)
    (hip : ∀ c ∈ ip, isdigit c = true) (hfp : ∀ c ∈ fracDigits fp, isdigit c = true)
    (hne : ip ++ fracDigits fp ≠ []) (hr : numStop r = true)
    (hover : A.eq (litValue A ip (fracDigits fp)) A.infinity = true) (fuel : Nat) :
    parsePrimary A u (fuel + 1) (IStream.clean b (ip ++ fracText fp ++ r))
      = some (.ok (.operand A.max,
          ⟨(ip ++ fracText fp).reverse ++ b, r, r.isEmpty, true, false⟩)) := by
  obtain ⟨xt, hscan, hconv⟩ := scan_numeral ip fp r hip hfp hne hr
  have hcv : convert_to_v A xt = (A.max, true) := by
    simp only [litValue] at hover
    simp [convert_to_v, hconv, hover]
  have hfirst : ∃ c cs, ip ++ fracText fp ++ r = c :: cs ∧ (isdigit c = true ∨ c = '.') := by
    cases ip with
    | cons d ds => exact ⟨d, _, rfl, Or.inl (hip d (by simp))⟩
    | nil =>
      cases fp with
      | none => simp [fracDigits] at hne
      | some f => exact ⟨'.', _, rfl, Or.inr rfl⟩
  obtain ⟨c, cs, htext, hc⟩ := hfirst
  rw [htext] at hscan ⊢
  rw [parsePrimary_scan A u fuel b c cs hc, hscan, hcv]

/-- The primary `bigLiteral`, read with the range of `double`. -/
theorem parsePrimary_bigLiteral (u : Indet Frac) (b r : List Char) (hr : numStop r = true)
    (fuel : Nat) :
    parsePrimary rangedArith u (fuel + 1) (IStream.clean b (bigLiteral ++ r))
      = some (.ok (.operand rangedArith.max,
          ⟨bigLiteral.reverse ++ b, r, r.isEmpty, true, false⟩)) := by
  have h := parsePrimary_overflow rangedArith u bigLiteral none b r bigLiteral_digits
    (by simp [fracDigits])
    (fun h => by rw [bigLiteral, List.cons_append] at h; exact List.noConfusion h)
    hr bigLiteral_overflows fuel
  simp only [fracText, List.append_nil] at h
  exact h

theorem rangedArith_max_ne_zero : rangedArith.max ≠ rangedArith.zero := by
  have key : ∀ k : Nat, 0 < (2 ^ 53 - 1) * 2 ^ k :=
    fun k => Nat.mul_pos (by decide) (Nat.pow_pos (by decide))
  have hpos : 0 < maxDouble := key 971
  intro h0
  have h1 : ((maxDouble : Nat) : Int) = 0 := congrArg Frac.num h0
  have h2 : maxDouble = 0 := Int.ofNat_eq_zero.1 h1
  rw [h2] at hpos
  exact Nat.lt_irrefl 0 hpos

theorem parseText_of_failed_primary {V : Type} (A : Arith V) (u : Indet V) (fuel : Nat)
    (text : List Char) (t : Node V) (s1 : IStream) (hfail : s1.failbit = true)
    (h : parsePrimary A u fuel (IStream.mk0 text) = some (.ok (t, s1))) :
    parseText A u (fuel + 3) text = some (.ok t) := by
  simp only [parseText, parseExpression_failed_after A u fuel _ s1 t hfail h]

/-- C1 does not hold for every non-negative integer literal: on a literal too large for
`double` the numeric extraction stores `max` and sets `failbit`, and the rest of the text
is dropped.  The text of `1` followed by 309 zeros, times 0, is parsed into the single
leaf `Operand max`, which evaluates to `max` and not to 0. -/
theorem C1_overflowing_literal :
    ∃ N, ∀ fuel, N ≤ fuel →
      parseText rangedArith junk fuel (bigLiteral ++ "*0".toList)
          = some (.ok (.operand rangedArith.max))
        ∧ evaluate rangedArith (.operand rangedArith.max) = .ok rangedArith.max
        ∧ rangedArith.max ≠ rangedArith.zero := by
  refine ⟨4, fun fuel hfuel => ⟨?_, rfl, rangedArith_max_ne_zero⟩⟩
  obtain ⟨f, rfl⟩ : ∃ f, fuel = f + 1 + 3 := ⟨fuel - 4, by omega⟩
  exact parseText_of_failed_primary rangedArith junk (f + 1) _ _ _ rfl
    (parsePrimary_bigLiteral junk [] "*0".toList rfl f)

/-- C2 does not hold for every primary: when `a` is a literal too large for `double`, the
text `a^2^3` is parsed into the single leaf `Operand max`, with no `^` node. -/
theorem C2_overflowing_primary :
    ∃ N, ∀ fuel, N ≤ fuel →
      parseText rangedArith junk fuel (bigLiteral ++ "^2^3".toList)
        = some (.ok (.operand rangedArith.max)) := by
  refine ⟨4, fun fuel hfuel => ?_⟩
  obtain ⟨f, rfl⟩ : ∃ f, fuel = f + 1 + 3 := ⟨fuel - 4, by omega⟩
  exact parseText_of_failed_primary rangedArith junk (f + 1) _ _ _ rfl
    (parsePrimary_bigLiteral junk [] "^2^3".toList rfl f)

/-- C3 does not hold for every non-negative integer literal: when `a` is a literal too
large for `double`, the text `-a^2` is parsed into `Operator('u', absent, Operand max)`,
with no `^` node. -/
theorem C3_overflowing_literal :
    ∃ N, ∀ fuel, N ≤ fuel →
      parseText rangedArith junk fuel ('-' :: (bigLiteral ++ "^2".toList))
        = some (.ok (.operator 'u' none (.operand rangedArith.max))) := by
  refine ⟨5, fun fuel hfuel => ?_⟩
  obtain ⟨f, rfl⟩ : ∃ f, fuel = f + 1 + 1 + 3 := ⟨fuel - 5, by omega⟩
  have h1 := parsePrimary_bigLiteral junk ['-'] "^2".toList rfl f
  have h2 : parsePrimary rangedArith junk (f + 1 + 1)
      (IStream.mk0 ('-' :: (bigLiteral ++ "^2".toList)))
      = some (.ok (.operator 'u' none (.operand rangedArith.max),
          ⟨bigLiteral.reverse ++ ['-'], "^2".toList, false, true, false⟩)) := by
    rw [parsePrimary_succ, mk0_clean, getChar_clean [] '-' _ _ (by decide)]
    simp only [if_true]
    rw [h1]
    rfl
  exact parseText_of_failed_primary rangedArith junk (f + 1 + 1) _ _ _ rfl h2

/-- C5 does not hold for every well-formed expression text: when `e` is a literal too
large for `double`, parsing `e` returns a tree, the leaf `Operand max`, but the stream has
failed when the closing parenthesis is read, so parsing `(e)` throws
"Mismatched parentheses". -/
theorem C5_overflowing_literal_in_parentheses :
    ∃ N, ∀ fuel, N ≤ fuel →
      parseText rangedArith junk fuel bigLiteral = some (.ok (.operand rangedArith.max))
        ∧ parseText rangedArith junk fuel ('(' :: (bigLiteral ++ [')']))
          = some (.error "Mismatched parentheses") := by
  refine ⟨8, fun fuel hfuel => ?_⟩
  obtain ⟨f, rfl⟩ : ∃ f, fuel = f + 1 + 3 + 1 + 3 := ⟨fuel - 8, by omega⟩
  constructor
  · have h := parseText_of_failed_primary rangedArith junk (f + 1 + 3 + 1) bigLiteral _ _ rfl
      (by simpa using parsePrimary_bigLiteral junk [] [] rfl (f + 1 + 3))
    exact h
  · have h1 := parsePrimary_bigLiteral junk ['('] [')'] rfl f
    have h2 := parseExpression_failed_after rangedArith junk (f + 1) _ _ _ rfl h1
    have h3 : parsePrimary rangedArith junk (f + 1 + 3 + 1)
        (IStream.mk0 ('(' :: (bigLiteral ++ [')'])))
        = some (.error "Mismatched parentheses") := by
      rw [parsePrimary_succ, mk0_clean, getChar_clean [] '(' _ _ (by decide)]
      rw [if_neg (by decide), if_neg (by decide), if_neg (by decide), if_pos rfl, h2]
      show (if (!(getChar _ '(').1.toBool || decide ((getChar _ '(').2 ≠ ')')) = true
        then some (Except.error "Mismatched parentheses") else _) = _
      rw [getChar_failed _ _ rfl]
      rfl
    exact parseText_error rangedArith junk _ _ _ h3

/-- C13 does not hold for every input text: in `2e` the numeric scanner takes the letter
with the numeral and the conversion fails, so the operand holds 0; with a space after the
numeral, `2 e` is parsed into `Operand 2`. -/
theorem C13_space_after_numeral_changes_tree :
    ∃ N, ∀ fuel, N ≤ fuel →
      parseText fracArith junk fuel "2e".toList = some (.ok (.operand ⟨0, 1⟩))
        ∧ parseText fracArith junk fuel "2 e".toList = some (.ok (.operand ⟨2, 1⟩)) := by
  refine ⟨4, fun fuel hfuel => ?_⟩
  obtain ⟨f, rfl⟩ : ∃ f, fuel = f + 1 + 3 := ⟨fuel - 4, by omega⟩
  constructor
  · have h1 := parsePrimary_scan fracArith junk f [] '2' ['e'] (Or.inl rfl)
    have hx : extractFloat ['2', 'e'] = ⟨['2', 'e'], ['e', '2'], []⟩ := by decide
    have hst : strtodText ['2', 'e'] = none := by decide
    have hcv : convert_to_v fracArith ['2', 'e'] = (⟨0, 1⟩, true) := by
      simp [convert_to_v, hst, fracArith]
    rw [hx] at h1
    simp only [hcv] at h1
    exact parseText_of_failed_primary fracArith junk (f + 1) _ _ _ rfl h1
  · have h1 := parsePrimary_num fracArith junk ['2'] none (by decide) [] [' ', 'e'] rfl f
    have h2 := parseExpression_after_primary fracArith junk f _ _ _ rfl rfl
      (fun h => by simp [post, Syn.endsLit] at h)
      ⟨by decide, by decide, by decide, by decide, by decide⟩ h1
    simp only [parseText, mk0_clean]
    rw [show "2 e".toList = Syn.render (.num ['2'] none) ++ [' ', 'e'] from rfl, h2]
    rfl


end ExprEval
